import Mathlib

/-!
# Streams

A shallow embedding of `Streams.h` (namespace `streams`): the pull protocol
`advance` / `get`, the source extractor over a borrowed sequence, the adapters
and the fluent wrapper `BaseStreamInterface` with its single-step and terminal
operations.

Conventions of the embedding.

* An extractor is its record of fields; a member function that mutates the
  object takes the record and returns the new record next to its result.
* Iterators into the borrowed sequence are positions (`Nat`) into `data`.
  `get` returns a pointer in the source; every caller dereferences it at once,
  so `get` here returns the pointed-to element (and the record, since `get` may
  write a slot of the adapter).
* Results live in `Option`: `none` means that the run has no defined result,
  either because an invalid position was dereferenced or because a `while` loop
  (or the recursion of an adapter) needed more than `fuel` rounds.  Every
  theorem below that speaks about a result proves that it is `some _` as soon as
  `fuel` is large enough.  A call whose result is `none` with every `fuel` is a
  call that does not return.
* User callables are total functions; an observing callable is a function
  `κ → α → κ` on the state `κ` it captures.
* A `size_t` that the code increments (`count`, the counter of Enumerate) is a
  number modulo `sizeModulus`; one that is only decremented while nonzero
  (`skip`, `take`, `nth`) is a plain natural number.
-/

namespace streams

/-- Counterpart of `streams::Optional<T>`: one element or the absent marker. -/
abbrev Optional (α : Type) := Option α

/-- Counterpart of `streams::nullopt`, the absent marker. -/
def nullopt {α : Type} : Optional α := none

/-- The capability contract of `StreamExtractor<Derived>`: `get()` forwards to
`get_impl()` and `advance()` to `advance_impl()` of the derived extractor.  The `Nat`
passed to `advance` is the bound `fuel` on the rounds of each loop run inside the call;
extractors without a loop ignore it. -/
class StreamExtractor (σ : Type) (α : outParam Type) where
  /-- Reads the current element. -/
  get : σ → Option (α × σ)
  /-- Moves to the next element and tells whether there is one. -/
  advance : Nat → σ → Option (Bool × σ)

export StreamExtractor (get advance)

/-! ## Source extractor -/

/-- Counterpart of `SequenceStreamExtractor<IteratorType>`; `data` is the borrowed
sequence the four iterators point into. -/
structure SequenceStreamExtractor (α : Type) where
  data : List α
  current : Nat
  next : Nat
  begin : Nat
  end_ : Nat

/-- Constructor `SequenceStreamExtractor(b, e)`. -/
def SequenceStreamExtractor.mk_ {α : Type} (data : List α) (b e : Nat) :
    SequenceStreamExtractor α :=
  { data := data, current := b, next := b, begin := b, end_ := e }

/-- Source `get_impl`: returns `current`, which the caller dereferences. -/
def SequenceStreamExtractor.get_impl {α : Type} (s : SequenceStreamExtractor α) :
    Option (α × SequenceStreamExtractor α) :=
  match s.data[s.current]? with
  | some v => some (v, s)
  | none => none

/-- Source `advance_impl`. -/
def SequenceStreamExtractor.advance_impl {α : Type} (_fuel : Nat)
    (s : SequenceStreamExtractor α) : Option (Bool × SequenceStreamExtractor α) :=
  if s.next != s.end_ then
    some (true, { s with current := s.next, next := s.next + 1 })
  else
    some (false, s)

instance {α : Type} : StreamExtractor (SequenceStreamExtractor α) α where
  get := SequenceStreamExtractor.get_impl
  advance := SequenceStreamExtractor.advance_impl

/-! ## Skip -/

/-- Counterpart of `SkipFirstStreamExtractor<ExtractorType>`. -/
structure SkipFirstStreamExtractor (σ : Type) where
  source : σ
  skipCount : Nat

/-- Skip `get_impl`. -/
def SkipFirstStreamExtractor.get_impl {σ α : Type} [StreamExtractor σ α]
    (s : SkipFirstStreamExtractor σ) : Option (α × SkipFirstStreamExtractor σ) := do
  let (v, src) ← get s.source
  pure (v, { s with source := src })

/-- Skip `advance_impl`, by recursion on `skipCount` (the `while (skipCount != 0)`
loop followed by `return source.advance()`). -/
def SkipFirstStreamExtractor.advanceLoop {σ α : Type} [StreamExtractor σ α] (fuel : Nat) :
    Nat → σ → Option (Bool × SkipFirstStreamExtractor σ)
  | 0, src => do
    let (ok, src) ← advance fuel src
    pure (ok, { source := src, skipCount := 0 })
  | skipCount + 1, src => do
    let (ok, src) ← advance fuel src
    if !ok then
      pure (false, { source := src, skipCount := skipCount })
    else
      advanceLoop fuel skipCount src

/-- Skip `advance_impl`. -/
def SkipFirstStreamExtractor.advance_impl {σ α : Type} [StreamExtractor σ α] (fuel : Nat)
    (s : SkipFirstStreamExtractor σ) : Option (Bool × SkipFirstStreamExtractor σ) :=
  SkipFirstStreamExtractor.advanceLoop fuel s.skipCount s.source

instance {σ α : Type} [StreamExtractor σ α] : StreamExtractor (SkipFirstStreamExtractor σ) α where
  get := SkipFirstStreamExtractor.get_impl
  advance := SkipFirstStreamExtractor.advance_impl

/-! ## SkipWhile -/

/-- Counterpart of `SkipWhileStreamExtractor<ExtractorType, Predicate>`. -/
structure SkipWhileStreamExtractor (σ α : Type) where
  source : σ
  predicate : α → Bool
  skipping : Bool

/-- SkipWhile `get_impl`. -/
def SkipWhileStreamExtractor.get_impl {σ α : Type} [StreamExtractor σ α]
    (s : SkipWhileStreamExtractor σ α) : Option (α × SkipWhileStreamExtractor σ α) := do
  let (v, src) ← get s.source
  pure (v, { s with source := src })

/-- The loop `while (skipping && source.advance()) skipping = predicate(*source.get());`
of SkipWhile `advance_impl`; the first argument bounds the number of rounds. -/
def SkipWhileStreamExtractor.skipLoop {σ α : Type} [StreamExtractor σ α] (fuel : Nat) :
    Nat → SkipWhileStreamExtractor σ α → Option (SkipWhileStreamExtractor σ α)
  | 0, _ => none
  | k + 1, s =>
    if s.skipping then do
      let (ok, src) ← advance fuel s.source
      if ok then
        let (v, src) ← get src
        skipLoop fuel k { s with source := src, skipping := s.predicate v }
      else
        pure { s with source := src }
    else
      pure s

/-- SkipWhile `advance_impl`. -/
def SkipWhileStreamExtractor.advance_impl {σ α : Type} [StreamExtractor σ α] (fuel : Nat)
    (s : SkipWhileStreamExtractor σ α) : Option (Bool × SkipWhileStreamExtractor σ α) :=
  if s.skipping then do
    let s ← SkipWhileStreamExtractor.skipLoop fuel fuel s
    pure (!s.skipping, s)
  else do
    let (ok, src) ← advance fuel s.source
    pure (ok, { s with source := src })

instance {σ α : Type} [StreamExtractor σ α] :
    StreamExtractor (SkipWhileStreamExtractor σ α) α where
  get := SkipWhileStreamExtractor.get_impl
  advance := SkipWhileStreamExtractor.advance_impl

/-! ## Take -/

/-- Counterpart of `TakeStreamExtractor<ExtractorType>`. -/
structure TakeStreamExtractor (σ : Type) where
  source : σ
  limit : Nat

/-- Take `get_impl`. -/
def TakeStreamExtractor.get_impl {σ α : Type} [StreamExtractor σ α]
    (s : TakeStreamExtractor σ) : Option (α × TakeStreamExtractor σ) := do
  let (v, src) ← get s.source
  pure (v, { s with source := src })

/-- Take `advance_impl`. -/
def TakeStreamExtractor.advance_impl {σ α : Type} [StreamExtractor σ α] (fuel : Nat)
    (s : TakeStreamExtractor σ) : Option (Bool × TakeStreamExtractor σ) :=
  if s.limit != 0 then do
    let (ok, src) ← advance fuel s.source
    pure (ok, { source := src, limit := s.limit - 1 })
  else
    pure (false, s)

instance {σ α : Type} [StreamExtractor σ α] : StreamExtractor (TakeStreamExtractor σ) α where
  get := TakeStreamExtractor.get_impl
  advance := TakeStreamExtractor.advance_impl

/-! ## TakeWhile -/

/-- Counterpart of `TakeWhileStreamExtractor<ExtractorType, Predicate>`. -/
structure TakeWhileStreamExtractor (σ α : Type) where
  source : σ
  predicate : α → Bool
  taking : Bool

/-- TakeWhile `get_impl`. -/
def TakeWhileStreamExtractor.get_impl {σ α : Type} [StreamExtractor σ α]
    (s : TakeWhileStreamExtractor σ α) : Option (α × TakeWhileStreamExtractor σ α) := do
  let (v, src) ← get s.source
  pure (v, { s with source := src })

/-- TakeWhile `advance_impl`:
`taking &= taking && source.advance() && predicate(*source.get()); return taking;`
with the short-circuit evaluation of `&&` spelled out. -/
def TakeWhileStreamExtractor.advance_impl {σ α : Type} [StreamExtractor σ α] (fuel : Nat)
    (s : TakeWhileStreamExtractor σ α) : Option (Bool × TakeWhileStreamExtractor σ α) :=
  if s.taking then do
    let (ok, src) ← advance fuel s.source
    if ok then
      let (v, src) ← get src
      let taking := s.taking && s.predicate v
      pure (taking, { s with source := src, taking := taking })
    else
      let taking := s.taking && false
      pure (taking, { s with source := src, taking := taking })
  else
    let taking := s.taking && false
    pure (taking, { s with taking := taking })

instance {σ α : Type} [StreamExtractor σ α] :
    StreamExtractor (TakeWhileStreamExtractor σ α) α where
  get := TakeWhileStreamExtractor.get_impl
  advance := TakeWhileStreamExtractor.advance_impl

/-! ## Filter -/

/-- Counterpart of `FilterStreamExtractor<ExtractorType, Predicate>`. -/
structure FilterStreamExtractor (σ α : Type) where
  source : σ
  predicate : α → Bool

/-- Filter `get_impl`. -/
def FilterStreamExtractor.get_impl {σ α : Type} [StreamExtractor σ α]
    (s : FilterStreamExtractor σ α) : Option (α × FilterStreamExtractor σ α) := do
  let (v, src) ← get s.source
  pure (v, { s with source := src })

/-- The loop `while (!predicate(*element)) { ... }` of Filter `advance_impl` together
with the `return true` after it; `element` is the dereferenced local of the source and
the first argument bounds the number of rounds. -/
def FilterStreamExtractor.filterLoop {σ α : Type} [StreamExtractor σ α] (fuel : Nat) :
    Nat → FilterStreamExtractor σ α → α → Option (Bool × FilterStreamExtractor σ α)
  | 0, _, _ => none
  | k + 1, s, element =>
    if !s.predicate element then do
      let (ok, src) ← advance fuel s.source
      if ok then
        let (element, src) ← get src
        filterLoop fuel k { s with source := src } element
      else
        pure (false, { s with source := src })
    else
      pure (true, s)

/-- Filter `advance_impl`. -/
def FilterStreamExtractor.advance_impl {σ α : Type} [StreamExtractor σ α] (fuel : Nat)
    (s : FilterStreamExtractor σ α) : Option (Bool × FilterStreamExtractor σ α) := do
  let (ok, src) ← advance fuel s.source
  if !ok then
    pure (false, { s with source := src })
  else
    let (element, src) ← get src
    FilterStreamExtractor.filterLoop fuel fuel { s with source := src } element

instance {σ α : Type} [StreamExtractor σ α] :
    StreamExtractor (FilterStreamExtractor σ α) α where
  get := FilterStreamExtractor.get_impl
  advance := FilterStreamExtractor.advance_impl

/-! ## Map -/

/-- Counterpart of `MapStreamExtractor<ExtractorType, Transform>`; `value` is the slot
that `get_impl` overwrites and returns the address of. -/
structure MapStreamExtractor (σ α β : Type) where
  source : σ
  transformer : α → β
  value : β

/-- Map `get_impl`. -/
def MapStreamExtractor.get_impl {σ α β : Type} [StreamExtractor σ α]
    (s : MapStreamExtractor σ α β) : Option (β × MapStreamExtractor σ α β) := do
  let (v, src) ← get s.source
  let value := s.transformer v
  pure (value, { s with source := src, value := value })

/-- Map `advance_impl`. -/
def MapStreamExtractor.advance_impl {σ α β : Type} [StreamExtractor σ α] (fuel : Nat)
    (s : MapStreamExtractor σ α β) : Option (Bool × MapStreamExtractor σ α β) := do
  let (ok, src) ← advance fuel s.source
  pure (ok, { s with source := src })

instance {σ α β : Type} [StreamExtractor σ α] :
    StreamExtractor (MapStreamExtractor σ α β) β where
  get := MapStreamExtractor.get_impl
  advance := MapStreamExtractor.advance_impl

/-! ## FlatMap -/

/-- Counterpart of `FlatMapStreamExtractor<ExtractorType, Transform>`: `innerCollection`
is the copy of the current inner sequence and `sequence` the source extractor over it. -/
structure FlatMapStreamExtractor (σ α β : Type) where
  source : σ
  transformer : α → List β
  innerCollection : List β
  sequence : SequenceStreamExtractor β

/-- FlatMap `get_impl`. -/
def FlatMapStreamExtractor.get_impl {σ α β : Type}
    (s : FlatMapStreamExtractor σ α β) : Option (β × FlatMapStreamExtractor σ α β) := do
  let (v, seq) ← get s.sequence
  pure (v, { s with sequence := seq })

/-- FlatMap `advance_impl` with its recursive call `return advance_impl();`; the first
argument bounds the depth of the recursion. -/
def FlatMapStreamExtractor.advanceRec {σ α β : Type} [StreamExtractor σ α] (fuel : Nat) :
    Nat → FlatMapStreamExtractor σ α β → Option (Bool × FlatMapStreamExtractor σ α β)
  | 0, _ => none
  | k + 1, s => do
    let (ok, seq) ← advance fuel s.sequence
    if !ok then
      let (ok, src) ← advance fuel s.source
      if ok then
        let (v, src) ← get src
        let innerCollection := s.transformer v
        advanceRec fuel k
          { s with
            source := src
            innerCollection := innerCollection
            sequence := SequenceStreamExtractor.mk_ innerCollection 0 innerCollection.length }
      else
        pure (false, { s with source := src, sequence := seq })
    else
      pure (true, { s with sequence := seq })

/-- FlatMap `advance_impl`. -/
def FlatMapStreamExtractor.advance_impl {σ α β : Type} [StreamExtractor σ α] (fuel : Nat)
    (s : FlatMapStreamExtractor σ α β) : Option (Bool × FlatMapStreamExtractor σ α β) :=
  FlatMapStreamExtractor.advanceRec fuel fuel s

instance {σ α β : Type} [StreamExtractor σ α] :
    StreamExtractor (FlatMapStreamExtractor σ α β) β where
  get := FlatMapStreamExtractor.get_impl
  advance := FlatMapStreamExtractor.advance_impl

/-! ## Inspect -/

/-- Counterpart of `InspectStreamExtractor<ExtractorType, Inspector>`; `env` is the state
that the observing callable `inspector` captures and updates. -/
structure InspectStreamExtractor (σ α κ : Type) where
  source : σ
  inspector : κ → α → κ
  env : κ

/-- Inspect `get_impl`. -/
def InspectStreamExtractor.get_impl {σ α κ : Type} [StreamExtractor σ α]
    (s : InspectStreamExtractor σ α κ) : Option (α × InspectStreamExtractor σ α κ) := do
  let (v, src) ← get s.source
  pure (v, { s with source := src })

/-- Inspect `advance_impl`. -/
def InspectStreamExtractor.advance_impl {σ α κ : Type} [StreamExtractor σ α] (fuel : Nat)
    (s : InspectStreamExtractor σ α κ) : Option (Bool × InspectStreamExtractor σ α κ) := do
  let (ok, src) ← advance fuel s.source
  if ok then
    let (v, src) ← get src
    pure (true, { s with source := src, env := s.inspector s.env v })
  else
    pure (false, { s with source := src })

instance {σ α κ : Type} [StreamExtractor σ α] :
    StreamExtractor (InspectStreamExtractor σ α κ) α where
  get := InspectStreamExtractor.get_impl
  advance := InspectStreamExtractor.advance_impl

/-! ## Spy -/

/-- Counterpart of `SpyStreamExtractor<ExtractorType, Inspector>`; `env` is the state
that the observing callable `inspector` captures and updates. -/
structure SpyStreamExtractor (σ α κ : Type) where
  source : σ
  inspector : κ → α → κ
  env : κ

/-- Spy `get_impl`. -/
def SpyStreamExtractor.get_impl {σ α κ : Type} [StreamExtractor σ α]
    (s : SpyStreamExtractor σ α κ) : Option (α × SpyStreamExtractor σ α κ) := do
  let (value, src) ← get s.source
  pure (value, { s with source := src, env := s.inspector s.env value })

/-- Spy `advance_impl`. -/
def SpyStreamExtractor.advance_impl {σ α κ : Type} [StreamExtractor σ α] (fuel : Nat)
    (s : SpyStreamExtractor σ α κ) : Option (Bool × SpyStreamExtractor σ α κ) := do
  let (ok, src) ← advance fuel s.source
  pure (ok, { s with source := src })

instance {σ α κ : Type} [StreamExtractor σ α] :
    StreamExtractor (SpyStreamExtractor σ α κ) α where
  get := SpyStreamExtractor.get_impl
  advance := SpyStreamExtractor.advance_impl

/-! ## Enumerate -/

/-- The number of values of `size_t`, taken 64 bits wide: arithmetic on a `size_t` is
arithmetic modulo this number. -/
def sizeModulus : Nat := 2 ^ 64

/-- Counterpart of `Enumerated<T>`. -/
structure Enumerated (α : Type) where
  i : Nat
  v : α
  deriving DecidableEq

/-- Counterpart of `EnumerateStreamExtractor<ExtractorType>`. -/
structure EnumerateStreamExtractor (σ α : Type) where
  source : σ
  counter : Nat
  value : Enumerated α

/-- Enumerate `get_impl`: `value = {counter - 1, *source.get()}` in `size_t` arithmetic. -/
def EnumerateStreamExtractor.get_impl {σ α : Type} [StreamExtractor σ α]
    (s : EnumerateStreamExtractor σ α) : Option (Enumerated α × EnumerateStreamExtractor σ α) := do
  let (v, src) ← get s.source
  let value : Enumerated α := { i := (s.counter + sizeModulus - 1) % sizeModulus, v := v }
  pure (value, { s with source := src, value := value })

/-- Enumerate `advance_impl`: `++counter` in `size_t` arithmetic, then the upstream. -/
def EnumerateStreamExtractor.advance_impl {σ α : Type} [StreamExtractor σ α] (fuel : Nat)
    (s : EnumerateStreamExtractor σ α) : Option (Bool × EnumerateStreamExtractor σ α) := do
  let counter := (s.counter + 1) % sizeModulus
  let (ok, src) ← advance fuel s.source
  pure (ok, { s with source := src, counter := counter })

instance {σ α : Type} [StreamExtractor σ α] :
    StreamExtractor (EnumerateStreamExtractor σ α) (Enumerated α) where
  get := EnumerateStreamExtractor.get_impl
  advance := EnumerateStreamExtractor.advance_impl

/-- Counterpart of `EnumerateTupleStreamExtractor<ExtractorType>`. -/
structure EnumerateTupleStreamExtractor (σ α : Type) where
  source : σ
  counter : Nat
  value : Nat × α

/-- EnumerateTuple `get_impl`. -/
def EnumerateTupleStreamExtractor.get_impl {σ α : Type} [StreamExtractor σ α]
    (s : EnumerateTupleStreamExtractor σ α) :
    Option ((Nat × α) × EnumerateTupleStreamExtractor σ α) := do
  let (v, src) ← get s.source
  let value : Nat × α := ((s.counter + sizeModulus - 1) % sizeModulus, v)
  pure (value, { s with source := src, value := value })

/-- EnumerateTuple `advance_impl`. -/
def EnumerateTupleStreamExtractor.advance_impl {σ α : Type} [StreamExtractor σ α]
    (fuel : Nat) (s : EnumerateTupleStreamExtractor σ α) :
    Option (Bool × EnumerateTupleStreamExtractor σ α) := do
  let counter := (s.counter + 1) % sizeModulus
  let (ok, src) ← advance fuel s.source
  pure (ok, { s with source := src, counter := counter })

instance {σ α : Type} [StreamExtractor σ α] :
    StreamExtractor (EnumerateTupleStreamExtractor σ α) (Nat × α) where
  get := EnumerateTupleStreamExtractor.get_impl
  advance := EnumerateTupleStreamExtractor.advance_impl

/-! ## Chain -/

/-- Counterpart of `ChainStreamExtractor<ExtractorType, ExtractorOtherType>`. -/
structure ChainStreamExtractor (σ τ : Type) where
  first : σ
  next : τ
  firstHaveElements : Bool

/-- Chain `get_impl`. -/
def ChainStreamExtractor.get_impl {σ τ α : Type} [StreamExtractor σ α] [StreamExtractor τ α]
    (s : ChainStreamExtractor σ τ) : Option (α × ChainStreamExtractor σ τ) :=
  if s.firstHaveElements then do
    let (v, e) ← get s.first
    pure (v, { s with first := e })
  else do
    let (v, e) ← get s.next
    pure (v, { s with next := e })

/-- Chain `advance_impl`:
`if (firstHaveElements && (firstHaveElements = first.advance())) return true;
return next.advance();`. -/
def ChainStreamExtractor.advance_impl {σ τ α : Type} [StreamExtractor σ α]
    [StreamExtractor τ α] (fuel : Nat) (s : ChainStreamExtractor σ τ) :
    Option (Bool × ChainStreamExtractor σ τ) :=
  if s.firstHaveElements then do
    let (ok, e) ← advance fuel s.first
    if ok then
      pure (true, { s with first := e, firstHaveElements := ok })
    else
      let (ok2, e2) ← advance fuel s.next
      pure (ok2, { first := e, next := e2, firstHaveElements := ok })
  else do
    let (ok2, e2) ← advance fuel s.next
    pure (ok2, { s with next := e2 })

instance {σ τ α : Type} [StreamExtractor σ α] [StreamExtractor τ α] :
    StreamExtractor (ChainStreamExtractor σ τ) α where
  get := ChainStreamExtractor.get_impl
  advance := ChainStreamExtractor.advance_impl

/-! ## Zip -/

/-- Counterpart of `ZipStreamExtractor<ExtractorType, ExtractorOtherType>`; `value` is
the slot that `get_impl` overwrites and returns the address of. -/
structure ZipStreamExtractor (σ τ α β : Type) where
  left : σ
  right : τ
  value : α × β

/-- Zip `get_impl`. -/
def ZipStreamExtractor.get_impl {σ τ α β : Type} [StreamExtractor σ α] [StreamExtractor τ β]
    (s : ZipStreamExtractor σ τ α β) : Option ((α × β) × ZipStreamExtractor σ τ α β) := do
  let (a, l) ← get s.left
  let (b, r) ← get s.right
  pure ((a, b), { left := l, right := r, value := (a, b) })

/-- Zip `advance_impl`: `return left.advance() && right.advance();`, the right side being
advanced only when the left side has advanced. -/
def ZipStreamExtractor.advance_impl {σ τ α β : Type} [StreamExtractor σ α]
    [StreamExtractor τ β] (fuel : Nat) (s : ZipStreamExtractor σ τ α β) :
    Option (Bool × ZipStreamExtractor σ τ α β) := do
  let (ok, l) ← advance fuel s.left
  if ok then
    let (ok2, r) ← advance fuel s.right
    pure (ok2, { s with left := l, right := r })
  else
    pure (false, { s with left := l })

instance {σ τ α β : Type} [StreamExtractor σ α] [StreamExtractor τ β] :
    StreamExtractor (ZipStreamExtractor σ τ α β) (α × β) where
  get := ZipStreamExtractor.get_impl
  advance := ZipStreamExtractor.advance_impl

/-! ## The stream wrapper -/

/-- Counterpart of `BaseStreamInterface<ExtractorType>`: owns one extractor by value. -/
structure BaseStreamInterface (σ : Type) where
  extractor : σ

/-- Factory `from(container)`: a source extractor over `begin` / `end` of the sequence. -/
def from_ {α : Type} (container : List α) : BaseStreamInterface (SequenceStreamExtractor α) :=
  ⟨SequenceStreamExtractor.mk_ container 0 container.length⟩

namespace BaseStreamInterface

variable {σ α : Type}

/-! ### Intermediate operations -/

/-- Operation `map(transform)`; the slot `value` starts value-initialised. -/
def map {β : Type} [StreamExtractor σ α] [Inhabited β] (s : BaseStreamInterface σ) (transform : α → β) :
    BaseStreamInterface (MapStreamExtractor σ α β) :=
  ⟨{ source := s.extractor, transformer := transform, value := default }⟩

/-- Operation `filter(predicate)`. -/
def filter [StreamExtractor σ α] (s : BaseStreamInterface σ) (predicate : α → Bool) :
    BaseStreamInterface (FilterStreamExtractor σ α) :=
  ⟨{ source := s.extractor, predicate := predicate }⟩

/-- Operation `skip(count)`. -/
def skip (s : BaseStreamInterface σ) (count : Nat) :
    BaseStreamInterface (SkipFirstStreamExtractor σ) :=
  ⟨{ source := s.extractor, skipCount := count }⟩

/-- Operation `skipWhile(predicate)`; `skipping` starts `true`. -/
def skipWhile [StreamExtractor σ α] (s : BaseStreamInterface σ) (predicate : α → Bool) :
    BaseStreamInterface (SkipWhileStreamExtractor σ α) :=
  ⟨{ source := s.extractor, predicate := predicate, skipping := true }⟩

/-- Operation `take(count)`. -/
def take (s : BaseStreamInterface σ) (count : Nat) :
    BaseStreamInterface (TakeStreamExtractor σ) :=
  ⟨{ source := s.extractor, limit := count }⟩

/-- Operation `takeWhile(predicate)`; `taking` starts `true`. -/
def takeWhile [StreamExtractor σ α] (s : BaseStreamInterface σ) (predicate : α → Bool) :
    BaseStreamInterface (TakeWhileStreamExtractor σ α) :=
  ⟨{ source := s.extractor, predicate := predicate, taking := true }⟩

/-- Operation `flatMap(transform)`.  The member `innerCollection` starts as the
value-initialised `InnerCollection{}` and `sequence` runs over it from `std::begin` to
`std::end`.  `InnerCollection` is the container type that `transform` returns, so its
value-initialised contents are the parameter `valueInitialised`: no element for
`std::vector` or `std::list`, `N` value-initialised elements for `std::array<T, N>`. -/
def flatMap {β : Type} [StreamExtractor σ α] (s : BaseStreamInterface σ)
    (transform : α → List β) (valueInitialised : List β) :
    BaseStreamInterface (FlatMapStreamExtractor σ α β) :=
  ⟨{ source := s.extractor, transformer := transform, innerCollection := valueInitialised,
     sequence := SequenceStreamExtractor.mk_ valueInitialised 0 valueInitialised.length }⟩

/-- Operation `flatten()`: `flatMap` with the callable that returns its argument;
`valueInitialised` is the value-initialised container of the element type, as in
`flatMap`. -/
def flatten {β : Type} [StreamExtractor σ (List β)] (s : BaseStreamInterface σ)
    (valueInitialised : List β) :
    BaseStreamInterface (FlatMapStreamExtractor σ (List β) β) :=
  ⟨{ source := s.extractor, transformer := fun e => e, innerCollection := valueInitialised,
     sequence := SequenceStreamExtractor.mk_ valueInitialised 0 valueInitialised.length }⟩

/-- Operation `inspect(inspector)`; `env` is the state the callable captures. -/
def inspect {κ : Type} [StreamExtractor σ α] (s : BaseStreamInterface σ)
    (inspector : κ → α → κ) (env : κ) : BaseStreamInterface (InspectStreamExtractor σ α κ) :=
  ⟨{ source := s.extractor, inspector := inspector, env := env }⟩

/-- Operation `spy(inspector)`; `env` is the state the callable captures. -/
def spy {κ : Type} [StreamExtractor σ α] (s : BaseStreamInterface σ)
    (inspector : κ → α → κ) (env : κ) : BaseStreamInterface (SpyStreamExtractor σ α κ) :=
  ⟨{ source := s.extractor, inspector := inspector, env := env }⟩

/-- Operation `enumerate(from)` (`from` defaults to 0 in the source); the slot `value`
starts as `{counter, {}}`. -/
def enumerate [StreamExtractor σ α] [Inhabited α] (s : BaseStreamInterface σ) (start : Nat) :
    BaseStreamInterface (EnumerateStreamExtractor σ α) :=
  ⟨{ source := s.extractor, counter := start, value := { i := start, v := default } }⟩

/-- Operation `enumerateTup(from)` (`from` defaults to 0 in the source). -/
def enumerateTup [StreamExtractor σ α] [Inhabited α] (s : BaseStreamInterface σ)
    (start : Nat) : BaseStreamInterface (EnumerateTupleStreamExtractor σ α) :=
  ⟨{ source := s.extractor, counter := start, value := (start, default) }⟩

/-- Operation `chain(other)`; `firstHaveElements` starts `true`. -/
def chain {τ : Type} (s : BaseStreamInterface σ) (other : BaseStreamInterface τ) :
    BaseStreamInterface (ChainStreamExtractor σ τ) :=
  ⟨{ first := s.extractor, next := other.extractor, firstHaveElements := true }⟩

/-- Operation `zip(other)`; the slot `value` starts value-initialised. -/
def zip {τ β : Type} [StreamExtractor σ α] [StreamExtractor τ β] [Inhabited α] [Inhabited β]
    (s : BaseStreamInterface σ) (other : BaseStreamInterface τ) :
    BaseStreamInterface (ZipStreamExtractor σ τ α β) :=
  ⟨{ left := s.extractor, right := other.extractor, value := default }⟩

variable [StreamExtractor σ α]

/-! ### Single-step operations -/

/-- Operation `next()`. -/
def next (fuel : Nat) (s : BaseStreamInterface σ) :
    Option (Optional α × BaseStreamInterface σ) := do
  let (ok, e) ← advance fuel s.extractor
  if ok then
    let (v, e) ← get e
    pure (some v, ⟨e⟩)
  else
    pure (nullopt, ⟨e⟩)

/-- The loop `while (n && extractor.advance()) --n;` of `nth`. -/
def nthLoop (fuel : Nat) : Nat → σ → Option σ
  | 0, e => some e
  | n + 1, e => do
    let (ok, e) ← advance fuel e
    if ok then nthLoop fuel n e else pure e

/-- Operation `nth(n)`. -/
def nth (fuel : Nat) (n : Nat) (s : BaseStreamInterface σ) :
    Option (Optional α × BaseStreamInterface σ) := do
  let e ← nthLoop fuel n s.extractor
  next fuel ⟨e⟩

/-! ### Terminal operations -/

/-- The loop of `forEach`; `env` is the state captured by `callable`. -/
def forEachLoop {κ : Type} (fuel : Nat) (callable : κ → α → κ) :
    Nat → σ → κ → Option (κ × σ)
  | 0, _, _ => none
  | k + 1, e, env => do
    let (ok, e) ← advance fuel e
    if ok then
      let (v, e) ← get e
      forEachLoop fuel callable k e (callable env v)
    else
      pure (env, e)

/-- Operation `forEach(callable)`: returns the state captured by the callable after the
run, and the stream. -/
def forEach {κ : Type} (fuel : Nat) (s : BaseStreamInterface σ) (callable : κ → α → κ)
    (env : κ) : Option (κ × BaseStreamInterface σ) := do
  let (env, e) ← forEachLoop fuel callable fuel s.extractor env
  pure (env, ⟨e⟩)

/-- The loop of `any`. -/
def anyLoop (fuel : Nat) (predicate : α → Bool) : Nat → σ → Option (Bool × σ)
  | 0, _ => none
  | k + 1, e => do
    let (ok, e) ← advance fuel e
    if ok then
      let (v, e) ← get e
      if predicate v then pure (true, e) else anyLoop fuel predicate k e
    else
      pure (false, e)

/-- Operation `any(predicate)`. -/
def any (fuel : Nat) (s : BaseStreamInterface σ) (predicate : α → Bool) :
    Option (Bool × BaseStreamInterface σ) := do
  let (r, e) ← anyLoop fuel predicate fuel s.extractor
  pure (r, ⟨e⟩)

/-- The loop of `collect`; `container` grows by `push_back`. -/
def collectLoop (fuel : Nat) : Nat → σ → List α → Option (List α × σ)
  | 0, _, _ => none
  | k + 1, e, container => do
    let (ok, e) ← advance fuel e
    if ok then
      let (v, e) ← get e
      collectLoop fuel k e (container ++ [v])
    else
      pure (container, e)

/-- Operation `collect()`. -/
def collect (fuel : Nat) (s : BaseStreamInterface σ) :
    Option (List α × BaseStreamInterface σ) := do
  let (container, e) ← collectLoop fuel fuel s.extractor []
  pure (container, ⟨e⟩)

/-- The loop of `count`; `counter` is a `size_t`. -/
def countLoop (fuel : Nat) : Nat → σ → Nat → Option (Nat × σ)
  | 0, _, _ => none
  | k + 1, e, counter => do
    let (ok, e) ← advance fuel e
    if ok then
      countLoop fuel k e ((counter + 1) % sizeModulus)
    else
      pure (counter, e)

/-- Operation `count()`. -/
def count (fuel : Nat) (s : BaseStreamInterface σ) : Option (Nat × BaseStreamInterface σ) := do
  let (counter, e) ← countLoop fuel fuel s.extractor 0
  pure (counter, ⟨e⟩)

/-- The loop of `all`. -/
def allLoop (fuel : Nat) (predicate : α → Bool) : Nat → σ → Option (Bool × σ)
  | 0, _ => none
  | k + 1, e => do
    let (ok, e) ← advance fuel e
    if ok then
      let (v, e) ← get e
      if !predicate v then pure (false, e) else allLoop fuel predicate k e
    else
      pure (true, e)

/-- Operation `all(predicate)`. -/
def all (fuel : Nat) (s : BaseStreamInterface σ) (predicate : α → Bool) :
    Option (Bool × BaseStreamInterface σ) := do
  let (r, e) ← allLoop fuel predicate fuel s.extractor
  pure (r, ⟨e⟩)

/-- The loop of `fold`. -/
def foldLoop {γ : Type} (fuel : Nat) (fold : γ → α → γ) : Nat → σ → γ → Option (γ × σ)
  | 0, _, _ => none
  | k + 1, e, a => do
    let (ok, e) ← advance fuel e
    if ok then
      let (v, e) ← get e
      foldLoop fuel fold k e (fold a v)
    else
      pure (a, e)

/-- Operation `fold(a, fold)`. -/
def fold {γ : Type} (fuel : Nat) (s : BaseStreamInterface σ) (a : γ) (fold : γ → α → γ) :
    Option (γ × BaseStreamInterface σ) := do
  let (a, e) ← foldLoop fuel fold fuel s.extractor a
  pure (a, ⟨e⟩)

end BaseStreamInterface

/-- Calls `next()` on one stream `m` times in a row and lists the `m` results in call
order (the loop of the test `GeneralTests.Next`). -/
def nextCalls {σ α : Type} [StreamExtractor σ α] (fuel : Nat) :
    Nat → BaseStreamInterface σ → Option (List (Optional α) × BaseStreamInterface σ)
  | 0, s => some ([], s)
  | m + 1, s => do
    let (r, s) ← s.next fuel
    let (rs, s) ← nextCalls fuel m s
    pure (r :: rs, s)

/-- Calls `advance()` on one extractor once for each entry of `reads`, in a row, and
calls `get()` after each call that returned `true` and whose entry is `true`; lists the
results of the calls of `advance()` in call order. -/
def advanceCalls {σ α : Type} [StreamExtractor σ α] (fuel : Nat) :
    List Bool → σ → Option (List Bool × σ)
  | [], e => some ([], e)
  | read :: reads, e => do
    let (ok, e) ← advance fuel e
    let e ← if ok && read then (get e).map Prod.snd else pure e
    let (oks, e) ← advanceCalls fuel reads e
    pure (ok :: oks, e)

/-! ## Specification vocabulary -/

section Vocabulary

variable {σ α : Type} [StreamExtractor σ α]

/-- `AdvanceFails fuel k s`: each of the next `k` calls of `advance()` on `s` returns
`false`. -/
def AdvanceFails (fuel : Nat) : Nat → σ → Prop
  | 0, _ => True
  | k + 1, s => ∃ s1, advance fuel s = some (false, s1) ∧ AdvanceFails fuel k s1

/-- An extractor is exhausted when `advance()` returns `false` now and on every later
call. -/
def Exhausted (fuel : Nat) (s : σ) : Prop :=
  ∀ k, AdvanceFails fuel k s

/-- `ReadsRepeatedly P x m s`: the next `m` calls of `get()` on `s` each read `x`, and
`P` holds of the extractor before, between and after these calls. -/
def ReadsRepeatedly (P : σ → Prop) (x : α) : Nat → σ → Prop
  | 0, s => P s
  | m + 1, s => P s ∧ ∃ s1, get s = some (x, s1) ∧ ReadsRepeatedly P x m s1

/-- `NotYetConsumed fuel s R`: the elements that the extractor `s` has not consumed yet
are exactly `R`, in this order.  With `R = x :: xs`, `advance()` returns `true`, after
which `get()` reads `x` as often as it is called and, however often it is called, `xs`
is what is left; with `R = []` the extractor is exhausted. -/
def NotYetConsumed (fuel : Nat) : σ → List α → Prop
  | s, [] => Exhausted fuel s
  | s, x :: xs => ∃ s1, advance fuel s = some (true, s1) ∧
      ∀ m, ReadsRepeatedly (fun t => NotYetConsumed fuel t xs) x m s1

/-- `Positioned fuel s x xs`: the extractor `s` stands on the element `x` (the last
`advance()` returned `true`), with `xs` not yet consumed. -/
def Positioned (fuel : Nat) (s : σ) (x : α) (xs : List α) : Prop :=
  ∀ m, ReadsRepeatedly (fun t => NotYetConsumed fuel t xs) x m s

/-- `Outcome fuel r L`: `r` is the result of a call of `advance()` on an extractor whose
not yet consumed elements were `L`. -/
def Outcome (fuel : Nat) (r : Option (Bool × σ)) : List α → Prop
  | [] => ∃ t, r = some (false, t) ∧ Exhausted fuel t
  | x :: xs => ∃ t, r = some (true, t) ∧ Positioned fuel t x xs

end Vocabulary

/-- What is left of a list after its first element satisfying `p` (nothing when no
element does). -/
def afterFirstMatch {α : Type} (p : α → Bool) : List α → List α
  | [] => []
  | x :: xs => if p x then xs else afterFirstMatch p xs

/-- The source extractor over `S` with `current` at position `c` and `next` at position
`i`: the state of `from(S)` once `i` elements have been pulled (then `c = i - 1`). -/
def SequenceStreamExtractor.at_ {α : Type} (S : List α) (c i : Nat) :
    SequenceStreamExtractor α :=
  { data := S, current := c, next := i, begin := 0, end_ := S.length }

/-- The elements of a list paired with the indexes `c, c + 1, ...` reduced modulo the
number of values of `size_t`. -/
def enumeratedFrom {α : Type} : Nat → List α → List (Enumerated α)
  | _, [] => []
  | c, x :: xs => { i := c % sizeModulus, v := x } :: enumeratedFrom (c + 1) xs

/-- The vacuous results of the terminal operations on the stream `st`: `count()` returns
0, `fold(seed, f)` returns `seed`, `any(p)` returns `false`, `all(p)` returns `true` and
`collect()` returns the empty container. -/
def VacuousResults {σ α γ : Type} [StreamExtractor σ α] (fuel : Nat)
    (st : BaseStreamInterface σ) (p : α → Bool) (f : γ → α → γ) (seed : γ) : Prop :=
  (st.count fuel).map Prod.fst = some 0 ∧
  (st.fold fuel seed f).map Prod.fst = some seed ∧
  (st.any fuel p).map Prod.fst = some false ∧
  (st.all fuel p).map Prod.fst = some true ∧
  (st.collect fuel).map Prod.fst = some []

/-- An upstream extractor over a sequence that has no end, the numbers
`0, 1, 2, ...`: the source extractor `SequenceStreamExtractor<IteratorType>` that
`from(c)` builds over a range `c` whose iteration never reaches `end`, so that
`next != end` holds at every position.  `current` and `next` are the members of the same
names. -/
structure EndlessStreamExtractor where
  current : Nat
  next : Nat

/-- Endless `get_impl`: returns `current`. -/
def EndlessStreamExtractor.get_impl (s : EndlessStreamExtractor) :
    Option (Nat × EndlessStreamExtractor) :=
  some (s.current, s)

/-- Endless `advance_impl`: `current = next++; return true;`, at every position. -/
def EndlessStreamExtractor.advance_impl (_fuel : Nat) (s : EndlessStreamExtractor) :
    Option (Bool × EndlessStreamExtractor) :=
  some (true, { current := s.next, next := s.next + 1 })

instance : StreamExtractor EndlessStreamExtractor Nat where
  get := EndlessStreamExtractor.get_impl
  advance := EndlessStreamExtractor.advance_impl

open BaseStreamInterface

section Generic

variable {σ α : Type} [StreamExtractor σ α]

theorem Exhausted.advance_false {fuel : Nat} {s : σ} (h : Exhausted fuel s) :
    ∃ s1, advance fuel s = some (false, s1) ∧ Exhausted fuel s1 := by
  obtain ⟨s1, h1, -⟩ := h 1
  refine ⟨s1, h1, fun k => ?_⟩
  obtain ⟨s2, h2, h3⟩ := h (k + 1)
  rw [h1] at h2
  cases h2
  exact h3

theorem exhausted_of_invariant {fuel : Nat} (I : σ → Prop)
    (step : ∀ t, I t → ∃ t1, advance fuel t = some (false, t1) ∧ I t1) {s : σ} (hs : I s) :
    Exhausted fuel s := by
  intro k
  induction k generalizing s with
  | zero => trivial
  | succ k ih =>
    obtain ⟨t1, h1, h2⟩ := step s hs
    exact ⟨t1, h1, ih h2⟩

theorem NotYetConsumed.nil_iff {fuel : Nat} {s : σ} :
    NotYetConsumed fuel s ([] : List α) ↔ Exhausted fuel s := by
  simp [NotYetConsumed]

theorem NotYetConsumed.cons_iff {fuel : Nat} {s : σ} {x : α} {xs : List α} :
    NotYetConsumed fuel s (x :: xs) ↔
      ∃ s1, advance fuel s = some (true, s1) ∧ Positioned fuel s1 x xs := by
  simp [NotYetConsumed, Positioned]

theorem NotYetConsumed.iff_outcome {fuel : Nat} {s : σ} {R : List α} :
    NotYetConsumed fuel s R ↔ Outcome fuel (advance fuel s) R := by
  cases R with
  | nil =>
    rw [NotYetConsumed.nil_iff]
    constructor
    · intro h
      obtain ⟨s1, h1, h2⟩ := h.advance_false
      exact ⟨s1, h1, h2⟩
    · rintro ⟨t, h1, h2⟩
      intro k
      cases k with
      | zero => trivial
      | succ k => exact ⟨t, h1, h2 k⟩
  | cons x xs =>
    rw [NotYetConsumed.cons_iff]
    rfl

theorem Positioned.rest {fuel : Nat} {s : σ} {x : α} {xs : List α}
    (h : Positioned fuel s x xs) : NotYetConsumed fuel s xs :=
  h 0

theorem Positioned.get {fuel : Nat} {s : σ} {x : α} {xs : List α}
    (h : Positioned fuel s x xs) :
    ∃ s1, get s = some (x, s1) ∧ Positioned fuel s1 x xs := by
  obtain ⟨-, s1, h1, -⟩ := h 1
  refine ⟨s1, h1, fun m => ?_⟩
  obtain ⟨-, s2, h2, h3⟩ := h (m + 1)
  rw [h1] at h2
  cases h2
  exact h3

theorem positioned_of_invariant {fuel : Nat} {x : α} {xs : List α} (I : σ → Prop)
    (step : ∀ t, I t → NotYetConsumed fuel t xs ∧ ∃ t1, get t = some (x, t1) ∧ I t1)
    {s : σ} (hs : I s) : Positioned fuel s x xs := by
  intro m
  induction m generalizing s with
  | zero => exact (step s hs).1
  | succ m ih =>
    obtain ⟨h1, t1, h2, h3⟩ := step s hs
    exact ⟨h1, t1, h2, ih h3⟩

/-- Consuming one element: `advance()` succeeds, the following `get()` reads the head,
and the tail is left whether or not `get()` is called. -/
theorem NotYetConsumed.step {fuel : Nat} {s : σ} {x : α} {xs : List α}
    (h : NotYetConsumed fuel s (x :: xs)) :
    ∃ s1 s2, advance fuel s = some (true, s1) ∧ get s1 = some (x, s2) ∧
      NotYetConsumed fuel s1 xs ∧ NotYetConsumed fuel s2 xs := by
  obtain ⟨s1, h1, h2⟩ := NotYetConsumed.cons_iff.1 h
  obtain ⟨s2, h3, h4⟩ := h2.get
  exact ⟨s1, s2, h1, h3, h2.rest, h4.rest⟩

theorem collectLoop_spec {fuel : Nat} (R : List α) :
    ∀ (k : Nat) (s : σ) (container : List α), NotYetConsumed fuel s R → R.length < k →
      ∃ s1, collectLoop fuel k s container = some (container ++ R, s1) ∧
        Exhausted fuel s1 := by
  induction R with
  | nil =>
    intro k s container h hk
    obtain ⟨s1, h1, h2⟩ := (NotYetConsumed.nil_iff.1 h).advance_false
    obtain ⟨k, rfl⟩ : ∃ j, k = j + 1 := ⟨k - 1, by simp at hk; omega⟩
    exact ⟨s1, by simp [collectLoop, h1], h2⟩
  | cons x xs ih =>
    intro k s container h hk
    obtain ⟨s1, s2, h1, h2, -, h4⟩ := h.step
    obtain ⟨k, rfl⟩ : ∃ j, k = j + 1 := ⟨k - 1, by simp at hk; omega⟩
    obtain ⟨s3, h5, h6⟩ := ih k s2 (container ++ [x]) h4 (by simp at hk; omega)
    exact ⟨s3, by simp [collectLoop, h1, h2, h5], h6⟩

theorem forEachLoop_spec {κ : Type} {fuel : Nat} (callable : κ → α → κ) (R : List α) :
    ∀ (k : Nat) (s : σ) (env : κ), NotYetConsumed fuel s R → R.length < k →
      ∃ s1, forEachLoop fuel callable k s env = some (R.foldl callable env, s1) ∧
        Exhausted fuel s1 := by
  induction R with
  | nil =>
    intro k s env h hk
    obtain ⟨s1, h1, h2⟩ := (NotYetConsumed.nil_iff.1 h).advance_false
    obtain ⟨k, rfl⟩ : ∃ j, k = j + 1 := ⟨k - 1, by simp at hk; omega⟩
    exact ⟨s1, by simp [forEachLoop, h1], h2⟩
  | cons x xs ih =>
    intro k s env h hk
    obtain ⟨s1, s2, h1, h2, -, h4⟩ := h.step
    obtain ⟨k, rfl⟩ : ∃ j, k = j + 1 := ⟨k - 1, by simp at hk; omega⟩
    obtain ⟨s3, h5, h6⟩ := ih k s2 (callable env x) h4 (by simp at hk; omega)
    exact ⟨s3, by simp [forEachLoop, h1, h2, h5], h6⟩

theorem next_spec {fuel : Nat} {s : σ} {R : List α} (h : NotYetConsumed fuel s R) :
    ∃ s1, next fuel ⟨s⟩ = some (R.head?, ⟨s1⟩) ∧ NotYetConsumed fuel s1 R.tail := by
  cases R with
  | nil =>
    obtain ⟨s1, h1, h2⟩ := (NotYetConsumed.nil_iff.1 h).advance_false
    exact ⟨s1, by simp [next, h1, nullopt], NotYetConsumed.nil_iff.2 h2⟩
  | cons x xs =>
    obtain ⟨s1, s2, h1, h2, -, h4⟩ := h.step
    exact ⟨s2, by simp [next, h1, h2], h4⟩

theorem nthLoop_spec {fuel : Nat} (n : Nat) :
    ∀ (s : σ) (R : List α), NotYetConsumed fuel s R →
      ∃ s1, nthLoop fuel n s = some s1 ∧ NotYetConsumed fuel s1 (R.drop n) := by
  induction n with
  | zero =>
    intro s R h
    exact ⟨s, rfl, by simpa using h⟩
  | succ n ih =>
    intro s R h
    cases R with
    | nil =>
      obtain ⟨s1, h1, h2⟩ := (NotYetConsumed.nil_iff.1 h).advance_false
      exact ⟨s1, by simp [nthLoop, h1], by simpa using NotYetConsumed.nil_iff.2 h2⟩
    | cons x xs =>
      obtain ⟨s1, s2, h1, -, h3, -⟩ := h.step
      obtain ⟨s3, h5, h6⟩ := ih s1 xs h3
      exact ⟨s3, by simp [nthLoop, h1, h5], by simpa using h6⟩

theorem nth_spec {fuel : Nat} (n : Nat) {s : σ} {R : List α}
    (h : NotYetConsumed fuel s R) :
    ∃ s1, nth fuel n ⟨s⟩ = some (R[n]?, ⟨s1⟩) ∧ NotYetConsumed fuel s1 (R.drop (n + 1)) := by
  obtain ⟨s1, h1, h2⟩ := nthLoop_spec n s R h
  obtain ⟨s2, h3, h4⟩ := next_spec h2
  refine ⟨s2, ?_, ?_⟩
  · simp [nth, h1, h3, List.head?_drop]
  · simpa [List.tail_drop] using h4

theorem anyLoop_spec {fuel : Nat} (p : α → Bool) (R : List α) :
    ∀ (k : Nat) (s : σ), NotYetConsumed fuel s R → R.length < k →
      ∃ s1, anyLoop fuel p k s = some (R.any p, s1) ∧
        NotYetConsumed fuel s1 (afterFirstMatch p R) := by
  induction R with
  | nil =>
    intro k s h hk
    obtain ⟨s1, h1, h2⟩ := (NotYetConsumed.nil_iff.1 h).advance_false
    obtain ⟨k, rfl⟩ : ∃ j, k = j + 1 := ⟨k - 1, by simp at hk; omega⟩
    exact ⟨s1, by simp [anyLoop, h1], NotYetConsumed.nil_iff.2 h2⟩
  | cons x xs ih =>
    intro k s h hk
    obtain ⟨s1, s2, h1, h2, -, h4⟩ := h.step
    obtain ⟨k, rfl⟩ : ∃ j, k = j + 1 := ⟨k - 1, by simp at hk; omega⟩
    by_cases hp : p x = true
    · exact ⟨s2, by simp [anyLoop, h1, h2, hp], by simpa [afterFirstMatch, hp] using h4⟩
    · obtain ⟨s3, h5, h6⟩ := ih k s2 h4 (by simp at hk; omega)
      exact ⟨s3, by simp [anyLoop, h1, h2, hp, h5], by simpa [afterFirstMatch, hp] using h6⟩

end Generic

/-! ## The source extractor -/

section Source

variable {α : Type}

theorem from_extractor (S : List α) :
    (from_ S).extractor = SequenceStreamExtractor.at_ S 0 0 := rfl

theorem source_advance_lt (fuel : Nat) (S : List α) (c i : Nat) (h : i < S.length) :
    advance fuel (SequenceStreamExtractor.at_ S c i) =
      some (true, SequenceStreamExtractor.at_ S i (i + 1)) := by
  have : i ≠ S.length := by omega
  simp [advance, SequenceStreamExtractor.advance_impl, SequenceStreamExtractor.at_, this]

theorem source_advance_end (fuel : Nat) (S : List α) (c : Nat) :
    advance fuel (SequenceStreamExtractor.at_ S c S.length) =
      some (false, SequenceStreamExtractor.at_ S c S.length) := by
  simp [advance, SequenceStreamExtractor.advance_impl, SequenceStreamExtractor.at_]

theorem source_get (S : List α) (c i : Nat) (h : c < S.length) :
    get (SequenceStreamExtractor.at_ S c i) =
      some (S[c], SequenceStreamExtractor.at_ S c i) := by
  simp [get, SequenceStreamExtractor.get_impl, SequenceStreamExtractor.at_, h]

theorem source_exhausted (fuel : Nat) (S : List α) (c : Nat) :
    Exhausted fuel (SequenceStreamExtractor.at_ S c S.length) :=
  exhausted_of_invariant (fun t => t = SequenceStreamExtractor.at_ S c S.length)
    (fun t ht => ⟨t, by subst ht; exact source_advance_end fuel S c, ht⟩) rfl

theorem source_positioned (fuel : Nat) (S : List α) (c i : Nat) (hc : c < S.length)
    (h : NotYetConsumed fuel (SequenceStreamExtractor.at_ S c i) (S.drop i)) :
    Positioned fuel (SequenceStreamExtractor.at_ S c i) S[c] (S.drop i) :=
  positioned_of_invariant (fun t => t = SequenceStreamExtractor.at_ S c i)
    (fun t ht => by subst ht; exact ⟨h, _, source_get S c i hc, rfl⟩) rfl

theorem source_notYetConsumed (fuel : Nat) (S : List α) :
    ∀ (n i c : Nat), S.length - i = n → i ≤ S.length →
      NotYetConsumed fuel (SequenceStreamExtractor.at_ S c i) (S.drop i) := by
  intro n
  induction n with
  | zero =>
    intro i c hn hi
    obtain rfl : i = S.length := by omega
    simpa using NotYetConsumed.nil_iff.2 (source_exhausted fuel S c)
  | succ n ih =>
    intro i c hn hi
    have hlt : i < S.length := by omega
    rw [List.drop_eq_getElem_cons hlt]
    exact NotYetConsumed.cons_iff.2 ⟨_, source_advance_lt fuel S c i hlt,
      source_positioned fuel S i (i + 1) hlt (ih (i + 1) i (by omega) (by omega))⟩

theorem from_notYetConsumed (fuel : Nat) (S : List α) :
    NotYetConsumed fuel (from_ S).extractor S := by
  simpa using source_notYetConsumed fuel S S.length 0 0 rfl (Nat.zero_le _)

end Source

/-! ## The adapters, over any upstream extractor -/

section Adapters

variable {σ α : Type} [StreamExtractor σ α]

/-! ### Map over any upstream -/

theorem map_exhausted {β : Type} {fuel : Nat} (t : MapStreamExtractor σ α β)
    (h : Exhausted fuel t.source) : Exhausted fuel t :=
  exhausted_of_invariant (fun u : MapStreamExtractor σ α β => Exhausted fuel u.source)
    (fun u hu => by
      obtain ⟨s1, h1, h2⟩ := hu.advance_false
      exact ⟨{ u with source := s1 }, by
        simp [advance, MapStreamExtractor.advance_impl] at h1 ⊢
        simp [h1], h2⟩) h

theorem map_notYetConsumed {β : Type} {fuel : Nat} (R : List α) :
    ∀ t : MapStreamExtractor σ α β, NotYetConsumed fuel t.source R →
      NotYetConsumed fuel t (R.map t.transformer) := by
  induction R with
  | nil =>
    intro t h
    exact NotYetConsumed.nil_iff.2 (map_exhausted t (NotYetConsumed.nil_iff.1 h))
  | cons x xs ih =>
    intro t h
    obtain ⟨s1, h1, h2⟩ := NotYetConsumed.cons_iff.1 h
    refine NotYetConsumed.cons_iff.2 ⟨{ t with source := s1 }, ?_, ?_⟩
    · simp [advance, MapStreamExtractor.advance_impl] at h1 ⊢
      simp [h1]
    · refine positioned_of_invariant
        (fun u : MapStreamExtractor σ α β =>
          Positioned fuel u.source x xs ∧ u.transformer = t.transformer) ?_ ⟨h2, rfl⟩
      rintro u ⟨hu, hf⟩
      obtain ⟨s2, h3, h4⟩ := hu.get
      refine ⟨?_, { u with source := s2, value := u.transformer x }, ?_, h4, hf⟩
      · simpa [hf] using ih u hu.rest
      · simp [get, MapStreamExtractor.get_impl] at h3 ⊢
        simp [h3, hf]

/-! ### Take over any upstream -/

theorem take_exhausted {fuel : Nat} (t : TakeStreamExtractor σ)
    (h : t.limit = 0 ∨ Exhausted fuel t.source) : Exhausted fuel t :=
  exhausted_of_invariant
    (fun u : TakeStreamExtractor σ => u.limit = 0 ∨ Exhausted fuel u.source)
    (fun u hu => by
      by_cases h0 : u.limit = 0
      · exact ⟨u, by simp [advance, TakeStreamExtractor.advance_impl, h0], Or.inl h0⟩
      · obtain ⟨s1, h1, h2⟩ := (hu.resolve_left h0).advance_false
        refine ⟨{ source := s1, limit := u.limit - 1 }, ?_, Or.inr h2⟩
        simp [advance, TakeStreamExtractor.advance_impl, h0] at h1 ⊢
        simp [h1]) h

theorem take_notYetConsumed {fuel : Nat} (R : List α) :
    ∀ t : TakeStreamExtractor σ, NotYetConsumed fuel t.source R →
      NotYetConsumed fuel t (R.take t.limit) := by
  induction R with
  | nil =>
    intro t h
    simpa using NotYetConsumed.nil_iff.2 (take_exhausted t (Or.inr (NotYetConsumed.nil_iff.1 h)))
  | cons x xs ih =>
    intro t h
    by_cases h0 : t.limit = 0
    · simpa [h0] using NotYetConsumed.nil_iff.2 (take_exhausted t (Or.inl h0))
    · obtain ⟨n, hn⟩ : ∃ n, t.limit = n + 1 := ⟨t.limit - 1, by omega⟩
      obtain ⟨s1, h1, h2⟩ := NotYetConsumed.cons_iff.1 h
      rw [hn, List.take_succ_cons]
      refine NotYetConsumed.cons_iff.2 ⟨{ source := s1, limit := n }, ?_, ?_⟩
      · simp [advance, TakeStreamExtractor.advance_impl, hn] at h1 ⊢
        simp [h1]
      · refine positioned_of_invariant
          (fun u : TakeStreamExtractor σ => Positioned fuel u.source x xs ∧ u.limit = n)
          ?_ ⟨h2, rfl⟩
        rintro u ⟨hu, hl⟩
        obtain ⟨s2, h3, h4⟩ := hu.get
        refine ⟨?_, { u with source := s2 }, ?_, h4, hl⟩
        · simpa [hl] using ih u hu.rest
        · simp [get, TakeStreamExtractor.get_impl] at h3 ⊢
          simp [h3]

/-! ### Skip over any upstream -/

theorem skip_exhausted {fuel : Nat} (t : SkipFirstStreamExtractor σ)
    (h : Exhausted fuel t.source) : Exhausted fuel t :=
  exhausted_of_invariant (fun u : SkipFirstStreamExtractor σ => Exhausted fuel u.source)
    (fun u hu => by
      obtain ⟨s1, h1, h2⟩ := hu.advance_false
      cases hc : u.skipCount with
      | zero =>
        refine ⟨{ source := s1, skipCount := 0 }, ?_, h2⟩
        show SkipFirstStreamExtractor.advance_impl fuel u = _
        simp [SkipFirstStreamExtractor.advance_impl, hc,
          SkipFirstStreamExtractor.advanceLoop, h1]
      | succ n =>
        refine ⟨{ source := s1, skipCount := n }, ?_, h2⟩
        show SkipFirstStreamExtractor.advance_impl fuel u = _
        simp [SkipFirstStreamExtractor.advance_impl, hc,
          SkipFirstStreamExtractor.advanceLoop, h1]) h

theorem skip_zero_notYetConsumed {fuel : Nat} (R : List α) :
    ∀ t : SkipFirstStreamExtractor σ, t.skipCount = 0 → NotYetConsumed fuel t.source R →
      NotYetConsumed fuel t R := by
  induction R with
  | nil =>
    intro t _ h
    exact NotYetConsumed.nil_iff.2 (skip_exhausted t (NotYetConsumed.nil_iff.1 h))
  | cons x xs ih =>
    intro t h0 h
    obtain ⟨s1, h1, h2⟩ := NotYetConsumed.cons_iff.1 h
    refine NotYetConsumed.cons_iff.2 ⟨{ source := s1, skipCount := 0 }, ?_, ?_⟩
    · show SkipFirstStreamExtractor.advance_impl fuel t = _
      simp [SkipFirstStreamExtractor.advance_impl, h0,
        SkipFirstStreamExtractor.advanceLoop, h1]
    · refine positioned_of_invariant
        (fun u : SkipFirstStreamExtractor σ =>
          Positioned fuel u.source x xs ∧ u.skipCount = 0) ?_ ⟨h2, rfl⟩
      rintro u ⟨hu, hl⟩
      obtain ⟨s2, h3, h4⟩ := hu.get
      refine ⟨ih u hl hu.rest, { u with source := s2 }, ?_, h4, hl⟩
      show SkipFirstStreamExtractor.get_impl u = _
      simp [SkipFirstStreamExtractor.get_impl, h3]

theorem skip_advanceLoop_outcome {fuel : Nat} (n : Nat) :
    ∀ (R : List α) (s : σ), NotYetConsumed fuel s R →
      Outcome fuel (SkipFirstStreamExtractor.advanceLoop fuel n s) (R.drop n) := by
  induction n with
  | zero =>
    intro R s h
    have := NotYetConsumed.iff_outcome.1
      (skip_zero_notYetConsumed R ({ source := s, skipCount := 0 } : SkipFirstStreamExtractor σ)
        rfl h)
    simpa using this
  | succ n ih =>
    intro R s h
    cases R with
    | nil =>
      obtain ⟨s1, h1, h2⟩ := (NotYetConsumed.nil_iff.1 h).advance_false
      refine ⟨{ source := s1, skipCount := n }, ?_, skip_exhausted _ h2⟩
      simp [SkipFirstStreamExtractor.advanceLoop, h1]
    | cons x xs =>
      obtain ⟨s1, h1, h2⟩ := NotYetConsumed.cons_iff.1 h
      have := ih xs s1 h2.rest
      simpa [SkipFirstStreamExtractor.advanceLoop, h1] using this

theorem skip_notYetConsumed {fuel : Nat} (R : List α) (t : SkipFirstStreamExtractor σ)
    (h : NotYetConsumed fuel t.source R) : NotYetConsumed fuel t (R.drop t.skipCount) :=
  NotYetConsumed.iff_outcome.2 (skip_advanceLoop_outcome t.skipCount R t.source h)

/-! ### TakeWhile over any upstream -/

theorem takeWhile_exhausted {fuel : Nat} (t : TakeWhileStreamExtractor σ α)
    (h : t.taking = false ∨ Exhausted fuel t.source) : Exhausted fuel t :=
  exhausted_of_invariant
    (fun u : TakeWhileStreamExtractor σ α => u.taking = false ∨ Exhausted fuel u.source)
    (fun u hu => by
      by_cases h0 : u.taking = false
      · refine ⟨{ u with taking := false }, ?_, Or.inl rfl⟩
        show TakeWhileStreamExtractor.advance_impl fuel u = _
        simp [TakeWhileStreamExtractor.advance_impl, h0]
      · obtain ⟨s1, h1, -⟩ := (hu.resolve_left h0).advance_false
        refine ⟨{ u with source := s1, taking := false }, ?_, Or.inl rfl⟩
        show TakeWhileStreamExtractor.advance_impl fuel u = _
        simp [TakeWhileStreamExtractor.advance_impl, h0, h1]) h

theorem takeWhile_notYetConsumed {fuel : Nat} (R : List α) :
    ∀ t : TakeWhileStreamExtractor σ α, t.taking = true → NotYetConsumed fuel t.source R →
      NotYetConsumed fuel t (R.takeWhile t.predicate) := by
  induction R with
  | nil =>
    intro t _ h
    simpa using
      NotYetConsumed.nil_iff.2 (takeWhile_exhausted t (Or.inr (NotYetConsumed.nil_iff.1 h)))
  | cons x xs ih =>
    intro t ht h
    obtain ⟨s1, s2, h1, h2, -, -⟩ := h.step
    obtain ⟨s1b, h1b, hpos⟩ := NotYetConsumed.cons_iff.1 h
    obtain rfl : s1b = s1 := by rw [h1] at h1b; cases h1b; rfl
    obtain ⟨s2b, h2b, hpos2⟩ := hpos.get
    obtain rfl : s2b = s2 := by rw [h2] at h2b; cases h2b; rfl
    by_cases hp : t.predicate x = true
    · rw [List.takeWhile_cons_of_pos hp]
      refine NotYetConsumed.cons_iff.2 ⟨{ t with source := s2b, taking := true }, ?_, ?_⟩
      · show TakeWhileStreamExtractor.advance_impl fuel t = _
        simp [TakeWhileStreamExtractor.advance_impl, ht, h1, h2, hp]
      · refine positioned_of_invariant
          (fun u : TakeWhileStreamExtractor σ α =>
            Positioned fuel u.source x xs ∧ u.taking = true ∧ u.predicate = t.predicate)
          ?_ ⟨hpos2, rfl, rfl⟩
        rintro u ⟨hu, hl, hf⟩
        obtain ⟨s3, h3, h4⟩ := hu.get
        refine ⟨?_, { u with source := s3 }, ?_, h4, hl, hf⟩
        · simpa [hf] using ih u hl hu.rest
        · show TakeWhileStreamExtractor.get_impl u = _
          simp [TakeWhileStreamExtractor.get_impl, h3]
    · rw [List.takeWhile_cons_of_neg hp]
      refine NotYetConsumed.iff_outcome.2
        ⟨{ t with source := s2b, taking := false }, ?_, takeWhile_exhausted _ (Or.inl rfl)⟩
      show TakeWhileStreamExtractor.advance_impl fuel t = _
      simp [TakeWhileStreamExtractor.advance_impl, ht, h1, h2, hp]

/-! ### SkipWhile over any upstream -/

theorem skipWhile_exhausted {fuel : Nat} (hfuel : 0 < fuel)
    (t : SkipWhileStreamExtractor σ α) (h : Exhausted fuel t.source) : Exhausted fuel t :=
  exhausted_of_invariant
    (fun u : SkipWhileStreamExtractor σ α => Exhausted fuel u.source)
    (fun u hu => by
      obtain ⟨s1, h1, h2⟩ := hu.advance_false
      obtain ⟨k, rfl⟩ : ∃ k, fuel = k + 1 := ⟨fuel - 1, by omega⟩
      refine ⟨{ u with source := s1 }, ?_, h2⟩
      show SkipWhileStreamExtractor.advance_impl (k + 1) u = _
      by_cases hs : u.skipping = true
      · simp [SkipWhileStreamExtractor.advance_impl, SkipWhileStreamExtractor.skipLoop, hs, h1]
      · simp [SkipWhileStreamExtractor.advance_impl, hs, h1]) h

theorem skipWhile_passing_notYetConsumed {fuel : Nat} (hfuel : 0 < fuel) (R : List α) :
    ∀ t : SkipWhileStreamExtractor σ α, t.skipping = false →
      NotYetConsumed fuel t.source R → NotYetConsumed fuel t R := by
  induction R with
  | nil =>
    intro t _ h
    exact NotYetConsumed.nil_iff.2 (skipWhile_exhausted hfuel t (NotYetConsumed.nil_iff.1 h))
  | cons x xs ih =>
    intro t ht h
    obtain ⟨s1, h1, h2⟩ := NotYetConsumed.cons_iff.1 h
    refine NotYetConsumed.cons_iff.2 ⟨{ t with source := s1 }, ?_, ?_⟩
    · show SkipWhileStreamExtractor.advance_impl fuel t = _
      simp [SkipWhileStreamExtractor.advance_impl, ht, h1]
    · refine positioned_of_invariant
        (fun u : SkipWhileStreamExtractor σ α =>
          Positioned fuel u.source x xs ∧ u.skipping = false) ?_ ⟨h2, ht⟩
      rintro u ⟨hu, hl⟩
      obtain ⟨s2, h3, h4⟩ := hu.get
      refine ⟨ih u hl hu.rest, { u with source := s2 }, ?_, h4, hl⟩
      show SkipWhileStreamExtractor.get_impl u = _
      simp [SkipWhileStreamExtractor.get_impl, h3]

theorem skipWhile_skipLoop_spec {fuel : Nat} (R : List α) :
    ∀ (k : Nat) (t : SkipWhileStreamExtractor σ α), t.skipping = true →
      NotYetConsumed fuel t.source R → R.length < k →
      ∃ u, SkipWhileStreamExtractor.skipLoop fuel k t = some u ∧
        Outcome fuel (some (!u.skipping, u.source)) (R.dropWhile t.predicate) := by
  induction R with
  | nil =>
    intro k t ht h hk
    obtain ⟨s1, h1, h2⟩ := (NotYetConsumed.nil_iff.1 h).advance_false
    obtain ⟨k, rfl⟩ : ∃ j, k = j + 1 := ⟨k - 1, by simp at hk; omega⟩
    refine ⟨{ t with source := s1 }, ?_, s1, ?_, h2⟩
    · simp [SkipWhileStreamExtractor.skipLoop, ht, h1]
    · simp [ht]
  | cons x xs ih =>
    intro k t ht h hk
    obtain ⟨s1, h1, hpos⟩ := NotYetConsumed.cons_iff.1 h
    obtain ⟨s2, h2, hpos2⟩ := hpos.get
    obtain ⟨k, rfl⟩ : ∃ j, k = j + 1 := ⟨k - 1, by simp at hk; omega⟩
    by_cases hp : t.predicate x = true
    · obtain ⟨u, hu1, hu2⟩ :=
        ih k { t with source := s2, skipping := t.predicate x } hp hpos2.rest
          (by simp at hk; omega)
      refine ⟨u, ?_, ?_⟩
      · simp only [hp] at hu1
        simp [SkipWhileStreamExtractor.skipLoop, ht, h1, h2, hp, hu1]
      · rw [List.dropWhile_cons_of_pos hp]
        exact hu2
    · obtain ⟨k, rfl⟩ : ∃ j, k = j + 1 := ⟨k - 1, by simp at hk; omega⟩
      refine ⟨{ t with source := s2, skipping := false }, ?_, ?_⟩
      · simp [SkipWhileStreamExtractor.skipLoop, ht, h1, h2, hp]
      · rw [List.dropWhile_cons_of_neg hp]
        exact ⟨s2, by simp, hpos2⟩

theorem skipWhile_notYetConsumed {fuel : Nat} (R : List α)
    (t : SkipWhileStreamExtractor σ α) (ht : t.skipping = true)
    (h : NotYetConsumed fuel t.source R) (hfuel : R.length < fuel) :
    NotYetConsumed fuel t (R.dropWhile t.predicate) := by
  have hpos : 0 < fuel := by omega
  obtain ⟨u, hu1, hu2⟩ := skipWhile_skipLoop_spec R fuel t ht h hfuel
  refine NotYetConsumed.iff_outcome.2 ?_
  have hadv : advance fuel t = some (!u.skipping, u) := by
    show SkipWhileStreamExtractor.advance_impl fuel t = _
    simp [SkipWhileStreamExtractor.advance_impl, ht, hu1]
  rw [hadv]
  cases hR : R.dropWhile t.predicate with
  | nil =>
    rw [hR] at hu2
    obtain ⟨s1, h1, h2⟩ := hu2
    simp only [Option.some.injEq, Prod.mk.injEq] at h1
    obtain ⟨h1a, rfl⟩ := h1
    exact ⟨u, by rw [h1a], skipWhile_exhausted hpos u h2⟩
  | cons y ys =>
    rw [hR] at hu2
    obtain ⟨s1, h1, h2⟩ := hu2
    simp only [Option.some.injEq, Prod.mk.injEq] at h1
    obtain ⟨h1a, rfl⟩ := h1
    refine ⟨u, by rw [h1a], ?_⟩
    have hsk : u.skipping = false := by simpa using h1a
    refine positioned_of_invariant
      (fun v : SkipWhileStreamExtractor σ α =>
        Positioned fuel v.source y ys ∧ v.skipping = false) ?_ ⟨h2, hsk⟩
    rintro v ⟨hv, hl⟩
    obtain ⟨s3, h3, h4⟩ := hv.get
    refine ⟨skipWhile_passing_notYetConsumed hpos ys v hl hv.rest,
      { v with source := s3 }, ?_, h4, hl⟩
    show SkipWhileStreamExtractor.get_impl v = _
    simp [SkipWhileStreamExtractor.get_impl, h3]

/-! ### Filter over any upstream -/

theorem filter_exhausted {fuel : Nat} (t : FilterStreamExtractor σ α)
    (h : Exhausted fuel t.source) : Exhausted fuel t :=
  exhausted_of_invariant (fun u : FilterStreamExtractor σ α => Exhausted fuel u.source)
    (fun u hu => by
      obtain ⟨s1, h1, h2⟩ := hu.advance_false
      refine ⟨{ u with source := s1 }, ?_, h2⟩
      show FilterStreamExtractor.advance_impl fuel u = _
      simp [FilterStreamExtractor.advance_impl, h1]) h

theorem filter_positioned {fuel : Nat} {x : α} {R : List α}
    (hA : ∀ u : FilterStreamExtractor σ α, NotYetConsumed fuel u.source R →
      NotYetConsumed fuel u (R.filter u.predicate))
    (t : FilterStreamExtractor σ α) (h : Positioned fuel t.source x R) :
    Positioned fuel t x (R.filter t.predicate) := by
  refine positioned_of_invariant
    (fun u : FilterStreamExtractor σ α =>
      Positioned fuel u.source x R ∧ u.predicate = t.predicate) ?_ ⟨h, rfl⟩
  rintro u ⟨hu, hf⟩
  obtain ⟨s2, h3, h4⟩ := hu.get
  refine ⟨?_, { u with source := s2 }, ?_, h4, hf⟩
  · simpa [hf] using hA u hu.rest
  · show FilterStreamExtractor.get_impl u = _
    simp [FilterStreamExtractor.get_impl, h3]

theorem filter_joint {fuel : Nat} (R : List α) :
    (∀ t : FilterStreamExtractor σ α, NotYetConsumed fuel t.source R → R.length < fuel →
      NotYetConsumed fuel t (R.filter t.predicate)) ∧
    (∀ (k : Nat) (t : FilterStreamExtractor σ α) (x : α), Positioned fuel t.source x R →
      R.length < k → R.length < fuel →
      Outcome fuel (FilterStreamExtractor.filterLoop fuel k t x)
        ((x :: R).filter t.predicate)) := by
  induction R with
  | nil =>
    have hA : ∀ t : FilterStreamExtractor σ α, NotYetConsumed fuel t.source [] →
        NotYetConsumed fuel t (([] : List α).filter t.predicate) := fun t h => by
      simpa using NotYetConsumed.nil_iff.2 (filter_exhausted t (NotYetConsumed.nil_iff.1 h))
    refine ⟨fun t h _ => hA t h, ?_⟩
    intro k t x hpos hk _
    obtain ⟨k, rfl⟩ : ∃ j, k = j + 1 := ⟨k - 1, by simp at hk; omega⟩
    by_cases hp : t.predicate x = true
    · rw [List.filter_cons_of_pos hp]
      exact ⟨t, by simp [FilterStreamExtractor.filterLoop, hp], filter_positioned hA t hpos⟩
    · rw [List.filter_cons_of_neg hp]
      obtain ⟨s1, h1, h2⟩ := (NotYetConsumed.nil_iff.1 hpos.rest).advance_false
      exact ⟨{ t with source := s1 }, by simp [FilterStreamExtractor.filterLoop, hp, h1],
        filter_exhausted _ h2⟩
  | cons y ys ih =>
    obtain ⟨-, ihB⟩ := ih
    have hA : ∀ t : FilterStreamExtractor σ α, NotYetConsumed fuel t.source (y :: ys) →
        (y :: ys).length < fuel →
        NotYetConsumed fuel t ((y :: ys).filter t.predicate) := by
      intro t h hfuel
      obtain ⟨s1, h1, hpos⟩ := NotYetConsumed.cons_iff.1 h
      obtain ⟨s2, h2, hpos2⟩ := hpos.get
      refine NotYetConsumed.iff_outcome.2 ?_
      have hadv : advance fuel t =
          FilterStreamExtractor.filterLoop fuel fuel { t with source := s2 } y := by
        show FilterStreamExtractor.advance_impl fuel t = _
        simp [FilterStreamExtractor.advance_impl, h1, h2]
      rw [hadv]
      exact ihB fuel { t with source := s2 } y hpos2 (by simp at hfuel; omega)
        (by simp at hfuel; omega)
    refine ⟨hA, ?_⟩
    intro k t x hpos hk hfuel
    obtain ⟨k, rfl⟩ : ∃ j, k = j + 1 := ⟨k - 1, by simp at hk; omega⟩
    by_cases hp : t.predicate x = true
    · rw [List.filter_cons_of_pos hp]
      exact ⟨t, by simp [FilterStreamExtractor.filterLoop, hp],
        filter_positioned (fun u hu => hA u hu hfuel) t hpos⟩
    · rw [List.filter_cons_of_neg hp]
      obtain ⟨s1, h1, hpos1⟩ := NotYetConsumed.cons_iff.1 hpos.rest
      obtain ⟨s2, h2, hpos2⟩ := hpos1.get
      have hloop : FilterStreamExtractor.filterLoop fuel (k + 1) t x =
          FilterStreamExtractor.filterLoop fuel k { t with source := s2 } y := by
        simp [FilterStreamExtractor.filterLoop, hp, h1, h2]
      rw [hloop]
      exact ihB k { t with source := s2 } y hpos2 (by simp at hk; omega)
        (by simp at hfuel; omega)

theorem filter_notYetConsumed {fuel : Nat} (R : List α) (t : FilterStreamExtractor σ α)
    (h : NotYetConsumed fuel t.source R) (hfuel : R.length < fuel) :
    NotYetConsumed fuel t (R.filter t.predicate) :=
  (filter_joint R).1 t h hfuel

end Adapters

/-! ## Terminal operations on a stream with known remaining elements -/

section Terminal

variable {σ α : Type} [StreamExtractor σ α]

theorem collect_of_notYetConsumed {fuel : Nat} {st : BaseStreamInterface σ} {R : List α}
    (h : NotYetConsumed fuel st.extractor R) (hfuel : R.length < fuel) :
    ∃ st1, collect fuel st = some (R, st1) ∧ Exhausted fuel st1.extractor := by
  obtain ⟨s1, h1, h2⟩ := collectLoop_spec R fuel st.extractor [] h hfuel
  exact ⟨⟨s1⟩, by simp [collect, h1], h2⟩

theorem collect_fst_of_notYetConsumed {fuel : Nat} {st : BaseStreamInterface σ}
    {R : List α} (h : NotYetConsumed fuel st.extractor R) (hfuel : R.length < fuel) :
    (collect fuel st).map Prod.fst = some R := by
  obtain ⟨st1, h1, -⟩ := collect_of_notYetConsumed h hfuel
  simp [h1]

theorem forEach_of_notYetConsumed {κ : Type} {fuel : Nat} {st : BaseStreamInterface σ}
    {R : List α} (callable : κ → α → κ) (env : κ)
    (h : NotYetConsumed fuel st.extractor R) (hfuel : R.length < fuel) :
    (forEach fuel st callable env).map Prod.fst = some (R.foldl callable env) := by
  obtain ⟨s1, h1, -⟩ := forEachLoop_spec callable R fuel st.extractor env h hfuel
  simp [forEach, h1]

theorem foldl_push_back (R acc : List α) :
    R.foldl (fun log v => log ++ [v]) acc = acc ++ R := by
  induction R generalizing acc with
  | nil => simp
  | cons x xs ih => simp [ih]

theorem nextCalls_spec {fuel : Nat} (m : Nat) :
    ∀ (st : BaseStreamInterface σ) (R : List α), NotYetConsumed fuel st.extractor R →
      ∃ st1, nextCalls fuel m st = some ((List.range m).map (fun k => R[k]?), st1) ∧
        NotYetConsumed fuel st1.extractor (R.drop m) := by
  induction m with
  | zero =>
    intro st R h
    exact ⟨st, by simp [nextCalls], by simpa using h⟩
  | succ m ih =>
    intro st R h
    obtain ⟨s1, h1, h2⟩ := next_spec h
    obtain ⟨st2, h3, h4⟩ := ih ⟨s1⟩ R.tail h2
    refine ⟨st2, ?_, by simpa [List.drop_succ_cons] using h4⟩
    have hst : st = ⟨st.extractor⟩ := rfl
    rw [hst, nextCalls, h1]
    simp only [Option.bind_eq_bind, Option.some_bind, h3]
    simp only [List.range_succ_eq_map, List.map_cons, List.map_map]
    cases R <;> simp [Function.comp_def]

end Terminal

/-! ### Facts about the lists the claims speak of -/

theorem takeWhile_dropWhile_split {α : Type} (p : α → Bool) (y : α) (suf : List α) :
    ∀ pre : List α, (∀ x ∈ pre, p x = true) → p y = false →
      (pre ++ y :: suf).takeWhile p = pre ∧ (pre ++ y :: suf).dropWhile p = y :: suf := by
  intro pre
  induction pre with
  | nil =>
    intro _ hy
    simp [List.takeWhile_cons, List.dropWhile_cons, hy]
  | cons a as ih =>
    intro hall hy
    have ha : p a = true := hall a (List.mem_cons_self _ _)
    obtain ⟨h1, h2⟩ := ih (fun x hx => hall x (List.mem_cons_of_mem _ hx)) hy
    simp [List.takeWhile_cons, List.dropWhile_cons, ha, h1, h2]

theorem takeWhile_dropWhile_all {α : Type} (p : α → Bool) :
    ∀ S : List α, (∀ x ∈ S, p x = true) → S.takeWhile p = S ∧ S.dropWhile p = [] := by
  intro S
  induction S with
  | nil => intro _; simp
  | cons a as ih =>
    intro hall
    have ha : p a = true := hall a (List.mem_cons_self _ _)
    obtain ⟨h1, h2⟩ := ih (fun x hx => hall x (List.mem_cons_of_mem _ hx))
    simp [List.takeWhile_cons, List.dropWhile_cons, ha, h1, h2]

theorem takeWhile_longest {α : Type} (p : α → Bool) (rest : List α) :
    ∀ pre : List α, (∀ x ∈ pre, p x = true) →
      pre.length ≤ ((pre ++ rest).takeWhile p).length := by
  intro pre
  induction pre with
  | nil => intro _; simp
  | cons a as ih =>
    intro hall
    have ha : p a = true := hall a (List.mem_cons_self _ _)
    have := ih (fun x hx => hall x (List.mem_cons_of_mem _ hx))
    simp [List.takeWhile_cons, ha]
    exact this

theorem afterFirstMatch_split {α : Type} (p : α → Bool) (y : α) (suf : List α) :
    ∀ pre : List α, (∀ x ∈ pre, p x = false) → p y = true →
      afterFirstMatch p (pre ++ y :: suf) = suf := by
  intro pre
  induction pre with
  | nil =>
    intro _ hy
    simp [afterFirstMatch, hy]
  | cons a as ih =>
    intro hall hy
    have ha : p a = false := hall a (List.mem_cons_self _ _)
    simp [afterFirstMatch, ha, ih (fun x hx => hall x (List.mem_cons_of_mem _ hx)) hy]

theorem afterFirstMatch_of_any_false {α : Type} (p : α → Bool) :
    ∀ R : List α, R.any p = false → afterFirstMatch p R = [] := by
  intro R
  induction R with
  | nil => intro _; rfl
  | cons a as ih =>
    intro h
    simp only [List.any_cons, Bool.or_eq_false_iff] at h
    simp [afterFirstMatch, h.1, ih h.2]

/-! ## The claims -/

/-- C1: for every finite sequence `S` (the empty one included), `from(S).collect()`
returns exactly the elements of `S` in their original order, and `from(S).forEach(f)`
invokes `f` exactly once on each element of `S` in that order: the state captured by an
arbitrary callable ends as the left fold of the callable over `S`, so the log of a
callable that records its argument is `S` itself, and nothing is invoked when `S` is
empty. -/
theorem C1_collect_forEach_from {α κ : Type} (S : List α) (fuel : Nat)
    (hfuel : S.length < fuel) (callable : κ → α → κ) (env : κ) :
    ((from_ S).collect fuel).map Prod.fst = some S ∧
    ((from_ S).forEach fuel callable env).map Prod.fst = some (S.foldl callable env) ∧
    ((from_ S).forEach fuel (fun log v => log ++ [v]) []).map Prod.fst = some S ∧
    ((from_ ([] : List α)).collect fuel).map Prod.fst = some [] ∧
    ((from_ ([] : List α)).forEach fuel callable env).map Prod.fst = some env := by
  have h := from_notYetConsumed fuel S
  have h0 := from_notYetConsumed fuel ([] : List α)
  have hpos : ([] : List α).length < fuel := by simp; omega
  refine ⟨collect_fst_of_notYetConsumed h hfuel, forEach_of_notYetConsumed _ _ h hfuel, ?_,
    collect_fst_of_notYetConsumed h0 hpos, forEach_of_notYetConsumed _ _ h0 hpos⟩
  rw [forEach_of_notYetConsumed _ _ h hfuel, foldl_push_back, List.nil_append]

/-- Witness of C1 on the sequence 7, 8, 9 with a summing callable. -/
theorem C1_collect_forEach_from_witness :
    [7, 8, 9].length < 4 ∧
    ((from_ [7, 8, 9]).collect 4).map Prod.fst = some [7, 8, 9] ∧
    ((from_ [7, 8, 9]).forEach 4 (fun a v => a + v) 0).map Prod.fst =
      some ([7, 8, 9].foldl (fun a v => a + v) 0) ∧
    ((from_ [7, 8, 9]).forEach 4 (fun log v => log ++ [v]) []).map Prod.fst =
      some [7, 8, 9] ∧
    ((from_ ([] : List Nat)).collect 4).map Prod.fst = some [] ∧
    ((from_ ([] : List Nat)).forEach 4 (fun a v => a + v) 0).map Prod.fst = some 0 :=
  ⟨by decide, C1_collect_forEach_from [7, 8, 9] 4 (by decide) (fun a v => a + v) 0⟩

/-- C2: for every sequence `S` of length `L`, calling `next()` repeatedly on one stream
`from(S)` returns present `S[k]` on the call number `k + 1` for every `k < L` and the
absent marker on call number `L + 1` and on every call after it: the results of the
first `m` calls are `S[0]?, S[1]?, ..., S[m-1]?`, for every `m`. -/
theorem C2_next_repeatedly {α : Type} (S : List α) (fuel m : Nat) :
    ∃ rs st1, nextCalls fuel m (from_ S) = some (rs, st1) ∧
      rs = (List.range m).map (fun k => S[k]?) ∧
      rs.length = m ∧
      (∀ k, k < m → ∀ h : k < S.length, rs[k]? = some (some S[k])) ∧
      (∀ k, k < m → S.length ≤ k → rs[k]? = some nullopt) := by
  obtain ⟨st1, h1, -⟩ := nextCalls_spec m (from_ S) S (from_notYetConsumed fuel S)
  refine ⟨_, st1, h1, rfl, by simp, ?_, ?_⟩
  · intro k hk h
    simp [hk, h]
  · intro k hk h
    simp [hk, h, nullopt]

/-- Witness of C2: six calls of `next()` on a stream over four elements. -/
theorem C2_next_repeatedly_witness :
    (nextCalls 0 6 (from_ [10, 20, 30, 40])).map Prod.fst =
      some [some 10, some 20, some 30, some 40, nullopt, nullopt] := by
  obtain ⟨rs, st1, h1, h2, -⟩ := C2_next_repeatedly [10, 20, 30, 40] 0 6
  rw [h1, h2]
  rfl

/-- C3: for every sequence `S` and every total transform `f` (which may change the
element type), `from(S).map(f).collect()` is the list of `f` applied to each element of
`S` in order, and it has the length of `S`. -/
theorem C3_map_collect {α β : Type} [Inhabited β] (S : List α) (f : α → β) (fuel : Nat)
    (hfuel : S.length < fuel) :
    (((from_ S).map f).collect fuel).map Prod.fst = some (S.map f) ∧
    ((((from_ S).map f).collect fuel).map fun r => r.1.length) = some S.length := by
  have h := map_notYetConsumed S ((from_ S).map f).extractor (from_notYetConsumed fuel S)
  have hc := collect_fst_of_notYetConsumed h (by simpa [BaseStreamInterface.map] using hfuel)
  obtain ⟨v, hv1, hv2⟩ := Option.map_eq_some'.1 hc
  refine ⟨hc, ?_⟩
  rw [hv1]
  simp [hv2, BaseStreamInterface.map]

/-- Witness of C3 with a transform from numbers to strings. -/
theorem C3_map_collect_witness :
    [1, 2, 3].length < 4 ∧
    (((from_ [1, 2, 3]).map (fun n : Nat => toString (n * n))).collect 4).map Prod.fst =
      some ([1, 2, 3].map fun n : Nat => toString (n * n)) ∧
    ((((from_ [1, 2, 3]).map (fun n : Nat => toString (n * n))).collect 4).map
      fun r => r.1.length) = some [1, 2, 3].length :=
  ⟨by decide, C3_map_collect [1, 2, 3] (fun n : Nat => toString (n * n)) 4 (by decide)⟩

/-- C4: for every sequence `S` and every total predicate `p`,
`from(S).filter(p).collect()` is the sub-list of `S` made of exactly the elements that
satisfy `p`, in their original relative order; no element failing `p` is in the result,
an always-false `p` yields the empty list and an always-true `p` yields `S`. -/
theorem C4_filter_collect {α : Type} (S : List α) (p : α → Bool) (fuel : Nat)
    (hfuel : S.length < fuel) :
    ∃ out st1, ((from_ S).filter p).collect fuel = some (out, st1) ∧
      out = S.filter p ∧
      List.Sublist out S ∧
      (∀ x, x ∈ out ↔ x ∈ S ∧ p x = true) ∧
      (∀ x ∈ out, p x ≠ false) ∧
      (((from_ S).filter fun _ => false).collect fuel).map Prod.fst = some [] ∧
      (((from_ S).filter fun _ => true).collect fuel).map Prod.fst = some S := by
  have key : ∀ q : α → Bool, ∃ st1, ((from_ S).filter q).collect fuel =
      some (S.filter q, st1) := by
    intro q
    have h := filter_notYetConsumed S ((from_ S).filter q).extractor
      (from_notYetConsumed fuel S) hfuel
    obtain ⟨st1, h1, -⟩ := collect_of_notYetConsumed h
      (lt_of_le_of_lt (List.length_filter_le _ _) hfuel)
    exact ⟨st1, h1⟩
  obtain ⟨st1, h1⟩ := key p
  obtain ⟨st2, h2⟩ := key fun _ => false
  obtain ⟨st3, h3⟩ := key fun _ => true
  refine ⟨S.filter p, st1, h1, rfl, List.filter_sublist S, ?_, ?_, ?_, ?_⟩
  · intro x
    simp [List.mem_filter]
  · intro x hx
    simp [(List.mem_filter.1 hx).2]
  · simp [h2]
  · simp [h3]

/-- Witness of C4: dropping 3 and 45 from a short sequence. -/
theorem C4_filter_collect_witness :
    [1, 3, 45, 7, 3].length < 6 ∧
    (((from_ [1, 3, 45, 7, 3]).filter fun v => v != 3 && v != 45).collect 6).map Prod.fst =
      some [1, 7] := by
  refine ⟨by decide, ?_⟩
  obtain ⟨out, st1, h1, h2, -⟩ :=
    C4_filter_collect [1, 3, 45, 7, 3] (fun v => v != 3 && v != 45) 6 (by decide)
  rw [h1, h2]
  rfl

/-- C5: for every sequence `S` and every `n`, `from(S).take(n).collect()` is the list of
the first `min(n, len(S))` elements of `S` in order; `take(0)` yields the empty list and
`take(n)` with `n >= len(S)` yields `S`. -/
theorem C5_take_collect {α : Type} (S : List α) (n fuel : Nat) (hfuel : S.length < fuel) :
    ∃ out st1, ((from_ S).take n).collect fuel = some (out, st1) ∧
      out = S.take (min n S.length) ∧
      out.length = min n S.length ∧
      (∀ i, i < n → ∀ h : i < S.length, out[i]? = some S[i]) ∧
      (((from_ S).take 0).collect fuel).map Prod.fst = some [] ∧
      (∀ extra, (((from_ S).take (S.length + extra)).collect fuel).map Prod.fst = some S) := by
  have key : ∀ m, ∃ st1, ((from_ S).take m).collect fuel = some (S.take m, st1) := by
    intro m
    have h := take_notYetConsumed S ((from_ S).take m).extractor (from_notYetConsumed fuel S)
    have hlen : (S.take m).length ≤ S.length := by
      rw [List.length_take]
      exact Nat.min_le_right _ _
    obtain ⟨st1, h1, -⟩ := collect_of_notYetConsumed h
      (by simp only [BaseStreamInterface.take]; omega)
    exact ⟨st1, h1⟩
  obtain ⟨st1, h1⟩ := key n
  obtain ⟨st2, h2⟩ := key 0
  refine ⟨S.take n, st1, h1, ?_, by simp, ?_, by simp [h2], ?_⟩
  · rcases Nat.le_total n S.length with hn | hn
    · rw [Nat.min_eq_left hn]
    · rw [Nat.min_eq_right hn, List.take_of_length_le hn, List.take_length]
  · intro i hi hi2
    rw [List.getElem?_take_of_lt hi, List.getElem?_eq_getElem hi2]
  · intro extra
    obtain ⟨st3, h3⟩ := key (S.length + extra)
    simp [h3]

/-- Witness of C5: taking two of three elements. -/
theorem C5_take_collect_witness :
    [4, 5, 6].length < 4 ∧
    (((from_ [4, 5, 6]).take 2).collect 4).map Prod.fst = some [4, 5] := by
  refine ⟨by decide, ?_⟩
  obtain ⟨out, st1, h1, h2, -⟩ := C5_take_collect [4, 5, 6] 2 4 (by decide)
  rw [h1, h2]
  rfl

/-- C6: for every sequence `S` and every `n`, `from(S).skip(n).collect()` is `S` with its
first `n` elements removed: the empty list when `n >= len(S)` and `S` itself when
`n = 0`. -/
theorem C6_skip_collect {α : Type} (S : List α) (n fuel : Nat) (hfuel : S.length < fuel) :
    (((from_ S).skip n).collect fuel).map Prod.fst = some (S.drop n) ∧
    (∀ extra, (((from_ S).skip (S.length + extra)).collect fuel).map Prod.fst = some []) ∧
    (((from_ S).skip 0).collect fuel).map Prod.fst = some S := by
  have key : ∀ m, (((from_ S).skip m).collect fuel).map Prod.fst = some (S.drop m) := by
    intro m
    have h := skip_notYetConsumed S ((from_ S).skip m).extractor (from_notYetConsumed fuel S)
    exact collect_fst_of_notYetConsumed h
      (lt_of_le_of_lt (by simp [BaseStreamInterface.skip]) hfuel)
  refine ⟨key n, ?_, by simpa using key 0⟩
  intro extra
  rw [key (S.length + extra), List.drop_eq_nil_of_le (Nat.le_add_right _ _)]

/-- Witness of C6: skipping two of five elements. -/
theorem C6_skip_collect_witness :
    [1, 2, 3, 4, 5].length < 6 ∧
    (((from_ [1, 2, 3, 4, 5]).skip 2).collect 6).map Prod.fst = some [3, 4, 5] :=
  ⟨by decide, (C6_skip_collect [1, 2, 3, 4, 5] 2 6 (by decide)).1⟩

/-- C7: for every sequence `S` and every total predicate `p`,
`from(S).takeWhile(p).collect()` is the longest prefix of `S` all of whose elements
satisfy `p`: it stops at the first element failing `p` and yields no later element,
whatever `p` says of the later ones; an always-true `p` yields `S` and an always-false
`p` yields the empty list. -/
theorem C7_takeWhile_collect {α : Type} (S : List α) (p : α → Bool) (fuel : Nat)
    (hfuel : S.length < fuel) :
    ∃ out st1, ((from_ S).takeWhile p).collect fuel = some (out, st1) ∧
      out = S.takeWhile p ∧
      (∃ rest, S = out ++ rest) ∧
      (∀ x ∈ out, p x = true) ∧
      (∀ pre rest, S = pre ++ rest → (∀ x ∈ pre, p x = true) → pre.length ≤ out.length) ∧
      (∀ pre y suf, S = pre ++ y :: suf → (∀ x ∈ pre, p x = true) → p y = false →
        out = pre) ∧
      (((from_ S).takeWhile fun _ => true).collect fuel).map Prod.fst = some S ∧
      (((from_ S).takeWhile fun _ => false).collect fuel).map Prod.fst = some [] := by
  have key : ∀ q : α → Bool, ∃ st1, ((from_ S).takeWhile q).collect fuel =
      some (S.takeWhile q, st1) := by
    intro q
    have h := takeWhile_notYetConsumed S ((from_ S).takeWhile q).extractor rfl
      (from_notYetConsumed fuel S)
    have hlen : (S.takeWhile q).length ≤ S.length := (List.takeWhile_sublist q).length_le
    obtain ⟨st1, h1, -⟩ := collect_of_notYetConsumed h
      (by simp only [BaseStreamInterface.takeWhile]; omega)
    exact ⟨st1, h1⟩
  obtain ⟨st1, h1⟩ := key p
  obtain ⟨st2, h2⟩ := key fun _ => true
  obtain ⟨st3, h3⟩ := key fun _ => false
  refine ⟨S.takeWhile p, st1, h1, rfl, ⟨S.dropWhile p, ?_⟩, ?_, ?_, ?_, ?_, ?_⟩
  · exact (List.takeWhile_append_dropWhile p S).symm
  · intro x hx
    exact List.mem_takeWhile_imp hx
  · intro pre rest hS hall
    rw [hS]
    exact takeWhile_longest p rest pre hall
  · intro pre y suf hS hall hy
    rw [hS]
    exact (takeWhile_dropWhile_split p y suf pre hall hy).1
  · rw [h2]
    simp [(takeWhile_dropWhile_all (fun _ : α => true) S (fun _ _ => rfl)).1]
  · rw [h3]
    cases S <;> simp [List.takeWhile_cons]

/-- Witness of C7: the element 1 after the first failure is not yielded although it
satisfies the predicate. -/
theorem C7_takeWhile_collect_witness :
    [0, 1, 2, 10, 1].length < 6 ∧
    (((from_ [0, 1, 2, 10, 1]).takeWhile fun e => decide (e < 10)).collect 6).map Prod.fst =
      some [0, 1, 2] := by
  refine ⟨by decide, ?_⟩
  obtain ⟨out, st1, h1, h2, -⟩ :=
    C7_takeWhile_collect [0, 1, 2, 10, 1] (fun e => decide (e < 10)) 6 (by decide)
  rw [h1, h2]
  rfl

/-- C8: for every sequence `S` and every total predicate `p`,
`from(S).skipWhile(p).collect()` is `S` with its longest prefix of elements satisfying `p`
removed: the first element failing `p` and every element after it are yielded, also the
later ones that satisfy `p` again; an always-true `p` yields the empty list and an
always-false `p` yields `S`. -/
theorem C8_skipWhile_collect {α : Type} (S : List α) (p : α → Bool) (fuel : Nat)
    (hfuel : S.length < fuel) :
    ∃ out st1, ((from_ S).skipWhile p).collect fuel = some (out, st1) ∧
      out = S.dropWhile p ∧
      S = S.takeWhile p ++ out ∧
      (∀ pre y suf, S = pre ++ y :: suf → (∀ x ∈ pre, p x = true) → p y = false →
        out = y :: suf) ∧
      ((∀ x ∈ S, p x = true) → out = []) ∧
      (((from_ S).skipWhile fun _ => true).collect fuel).map Prod.fst = some [] ∧
      (((from_ S).skipWhile fun _ => false).collect fuel).map Prod.fst = some S := by
  have key : ∀ q : α → Bool, ∃ st1, ((from_ S).skipWhile q).collect fuel =
      some (S.dropWhile q, st1) := by
    intro q
    have h := skipWhile_notYetConsumed S ((from_ S).skipWhile q).extractor rfl
      (from_notYetConsumed fuel S) hfuel
    have hlen : (S.dropWhile q).length ≤ S.length := (List.dropWhile_sublist q).length_le
    obtain ⟨st1, h1, -⟩ := collect_of_notYetConsumed h
      (by simp only [BaseStreamInterface.skipWhile]; omega)
    exact ⟨st1, h1⟩
  obtain ⟨st1, h1⟩ := key p
  obtain ⟨st2, h2⟩ := key fun _ => true
  obtain ⟨st3, h3⟩ := key fun _ => false
  refine ⟨S.dropWhile p, st1, h1, rfl, ?_, ?_, ?_, ?_, ?_⟩
  · exact (List.takeWhile_append_dropWhile p S).symm
  · intro pre y suf hS hall hy
    rw [hS]
    exact (takeWhile_dropWhile_split p y suf pre hall hy).2
  · intro hall
    exact (takeWhile_dropWhile_all p S hall).2
  · rw [h2]
    simp [(takeWhile_dropWhile_all (fun _ : α => true) S (fun _ _ => rfl)).2]
  · rw [h3]
    cases S <;> simp [List.dropWhile_cons]

/-- Witness of C8: the elements 1 and 3 after the first failure are yielded although
they satisfy the predicate. -/
theorem C8_skipWhile_collect_witness :
    [0, 6, 7, 1, 9, 3].length < 7 ∧
    (((from_ [0, 6, 7, 1, 9, 3]).skipWhile fun e => decide (e < 7)).collect 7).map
      Prod.fst = some [7, 1, 9, 3] := by
  refine ⟨by decide, ?_⟩
  obtain ⟨out, st1, h1, h2, -⟩ :=
    C8_skipWhile_collect [0, 6, 7, 1, 9, 3] (fun e => decide (e < 7)) 7 (by decide)
  rw [h1, h2]
  rfl

/-- C9: `nth` is stateful and consumes `n + 1` elements.  On a stream whose not yet
consumed elements are `R`, `nth(n)` returns present `R[n]` when `n < len(R)` and the
absent marker otherwise, and afterwards the not yet consumed elements are `R` without
its first `n + 1` elements.  A fresh `from(S)` is such a stream with `R = S`, and on it
`nth(a)` followed by `nth(b)` returns `S[a]` and then `S[a+b+1]` whenever
`a + b + 1 < len(S)`. -/
theorem C9_nth_consumes {σ α : Type} [StreamExtractor σ α] (fuel : Nat)
    (st : BaseStreamInterface σ) (R : List α) (n : Nat)
    (h : NotYetConsumed fuel st.extractor R) :
    (∃ st1, st.nth fuel n = some (R[n]?, st1) ∧
      (∀ hn : n < R.length, R[n]? = some R[n]) ∧
      (R.length ≤ n → R[n]? = nullopt) ∧
      NotYetConsumed fuel st1.extractor (R.drop (n + 1))) ∧
    (∀ S : List α, NotYetConsumed fuel (from_ S).extractor S) ∧
    (∀ (S : List α) (a b : Nat) (hab : a + b + 1 < S.length),
      ∃ st1 st2, (from_ S).nth fuel a = some (some (S[a]), st1) ∧
        st1.nth fuel b = some (some (S[a + b + 1]), st2)) := by
  refine ⟨?_, from_notYetConsumed fuel, ?_⟩
  · obtain ⟨s1, h1, h2⟩ := nth_spec n h
    exact ⟨⟨s1⟩, h1, fun hn => List.getElem?_eq_getElem hn,
      fun hn => List.getElem?_eq_none hn, h2⟩
  · intro S a b hab
    obtain ⟨s1, h1, h2⟩ := nth_spec a (from_notYetConsumed fuel S)
    obtain ⟨s2, h3, h4⟩ := nth_spec b h2
    refine ⟨⟨s1⟩, ⟨s2⟩, ?_, ?_⟩
    · rw [show from_ S = ⟨(from_ S).extractor⟩ from rfl, h1,
        List.getElem?_eq_getElem (by omega)]
    · rw [h3, List.getElem?_drop, List.getElem?_eq_getElem (by omega)]
      simp only [Nat.add_right_comm a 1 b, Nat.add_assoc]

/-- Witness of C9 on a fresh stream over five elements. -/
theorem C9_nth_consumes_witness :
    NotYetConsumed 0 (from_ [10, 20, 30, 40, 50]).extractor [10, 20, 30, 40, 50] ∧
    ∃ st1, (from_ [10, 20, 30, 40, 50]).nth 0 1 = some (some 20, st1) ∧
      NotYetConsumed 0 st1.extractor [30, 40, 50] := by
  refine ⟨from_notYetConsumed 0 _, ?_⟩
  obtain ⟨⟨st1, h1, -, -, h2⟩, -⟩ :=
    C9_nth_consumes 0 (from_ [10, 20, 30, 40, 50]) [10, 20, 30, 40, 50] 1
      (from_notYetConsumed 0 _)
  exact ⟨st1, h1, h2⟩

/-- C10: on a stream whose not yet consumed elements are `R`, `any(p)` returns `true`
iff some element of `R` satisfies `p`.  When it returns `true` it has consumed exactly
the elements up to and including the first match, so that the elements strictly after
that match are what is left for a following call; when it returns `false` the stream is
exhausted, and on an exhausted stream every `any(q)` returns `false`, whatever `q`, and
leaves the stream exhausted. -/
theorem C10_any_consumes {σ α : Type} [StreamExtractor σ α] (fuel : Nat)
    (st : BaseStreamInterface σ) (R : List α) (p : α → Bool)
    (h : NotYetConsumed fuel st.extractor R) (hfuel : R.length < fuel) :
    ∃ r st1, st.any fuel p = some (r, st1) ∧
      (r = true ↔ ∃ x ∈ R, p x = true) ∧
      (∀ pre y suf, R = pre ++ y :: suf → (∀ x ∈ pre, p x = false) → p y = true →
        r = true ∧ NotYetConsumed fuel st1.extractor suf) ∧
      (r = false → Exhausted fuel st1.extractor) ∧
      (∀ st0 : BaseStreamInterface σ, Exhausted fuel st0.extractor → ∀ q : α → Bool,
        ∃ st2, st0.any fuel q = some (false, st2) ∧ Exhausted fuel st2.extractor) := by
  obtain ⟨s1, h1, h2⟩ := anyLoop_spec p R fuel st.extractor h hfuel
  refine ⟨R.any p, ⟨s1⟩, by simp [BaseStreamInterface.any, h1], ?_, ?_, ?_, ?_⟩
  · simp [List.any_eq_true]
  · intro pre y suf hR hall hy
    refine ⟨?_, ?_⟩
    · rw [hR]
      simp [hy]
    · rw [hR, afterFirstMatch_split p y suf pre hall hy] at h2
      exact h2
  · intro hr
    rw [afterFirstMatch_of_any_false p R hr] at h2
    exact NotYetConsumed.nil_iff.1 h2
  · intro st0 h0 q
    obtain ⟨s2, h3, h4⟩ := anyLoop_spec q [] fuel st0.extractor (NotYetConsumed.nil_iff.2 h0)
      (by simp; omega)
    simp only [List.any_nil] at h3
    exact ⟨⟨s2⟩, by simp [BaseStreamInterface.any, h3],
      NotYetConsumed.nil_iff.1 (by simpa [afterFirstMatch] using h4)⟩

/-- Witness of C10 on a fresh stream over six elements. -/
theorem C10_any_consumes_witness :
    NotYetConsumed 7 (from_ [48, 49, 50, 51, 52, 53]).extractor [48, 49, 50, 51, 52, 53] ∧
    [48, 49, 50, 51, 52, 53].length < 7 ∧
    ∃ st1, (from_ [48, 49, 50, 51, 52, 53]).any 7 (fun e => decide (e > 50)) =
        some (true, st1) ∧
      NotYetConsumed 7 st1.extractor [52, 53] := by
  refine ⟨from_notYetConsumed 7 _, by decide, ?_⟩
  obtain ⟨r, st1, h1, -, h2, -⟩ :=
    C10_any_consumes 7 (from_ [48, 49, 50, 51, 52, 53]) [48, 49, 50, 51, 52, 53]
      (fun e => decide (e > 50)) (from_notYetConsumed 7 _) (by decide)
  obtain ⟨hr, h3⟩ := h2 [48, 49, 50] 51 [52, 53] rfl (by decide) (by decide)
  subst hr
  exact ⟨st1, h1, h3⟩

/-! ## The terminal operations `all`, `fold` and `count` -/

section MoreTerminal

variable {σ α : Type} [StreamExtractor σ α]

theorem allLoop_spec {fuel : Nat} (p : α → Bool) (R : List α) :
    ∀ (k : Nat) (s : σ), NotYetConsumed fuel s R → R.length < k →
      ∃ s1, allLoop fuel p k s = some (R.all p, s1) ∧
        NotYetConsumed fuel s1 (afterFirstMatch (fun x => !p x) R) := by
  induction R with
  | nil =>
    intro k s h hk
    obtain ⟨s1, h1, h2⟩ := (NotYetConsumed.nil_iff.1 h).advance_false
    obtain ⟨k, rfl⟩ : ∃ j, k = j + 1 := ⟨k - 1, by simp at hk; omega⟩
    exact ⟨s1, by simp [allLoop, h1], NotYetConsumed.nil_iff.2 h2⟩
  | cons x xs ih =>
    intro k s h hk
    obtain ⟨s1, s2, h1, h2, -, h4⟩ := h.step
    obtain ⟨k, rfl⟩ : ∃ j, k = j + 1 := ⟨k - 1, by simp at hk; omega⟩
    by_cases hp : p x = true
    · obtain ⟨s3, h5, h6⟩ := ih k s2 h4 (by simp at hk; omega)
      exact ⟨s3, by simp [allLoop, h1, h2, hp, h5], by simpa [afterFirstMatch, hp] using h6⟩
    · exact ⟨s2, by simp [allLoop, h1, h2, hp], by simpa [afterFirstMatch, hp] using h4⟩

theorem foldLoop_spec {γ : Type} {fuel : Nat} (f : γ → α → γ) (R : List α) :
    ∀ (k : Nat) (s : σ) (a : γ), NotYetConsumed fuel s R → R.length < k →
      ∃ s1, foldLoop fuel f k s a = some (R.foldl f a, s1) ∧ Exhausted fuel s1 := by
  induction R with
  | nil =>
    intro k s a h hk
    obtain ⟨s1, h1, h2⟩ := (NotYetConsumed.nil_iff.1 h).advance_false
    obtain ⟨k, rfl⟩ : ∃ j, k = j + 1 := ⟨k - 1, by simp at hk; omega⟩
    exact ⟨s1, by simp [foldLoop, h1], h2⟩
  | cons x xs ih =>
    intro k s a h hk
    obtain ⟨s1, s2, h1, h2, -, h4⟩ := h.step
    obtain ⟨k, rfl⟩ : ∃ j, k = j + 1 := ⟨k - 1, by simp at hk; omega⟩
    obtain ⟨s3, h5, h6⟩ := ih k s2 (f a x) h4 (by simp at hk; omega)
    exact ⟨s3, by simp [foldLoop, h1, h2, h5], h6⟩

theorem fold_fst_of_notYetConsumed {γ : Type} {fuel : Nat} {st : BaseStreamInterface σ}
    {R : List α} (a : γ) (f : γ → α → γ)
    (h : NotYetConsumed fuel st.extractor R) (hfuel : R.length < fuel) :
    (st.fold fuel a f).map Prod.fst = some (R.foldl f a) := by
  obtain ⟨s1, h1, -⟩ := foldLoop_spec f R fuel st.extractor a h hfuel
  simp [BaseStreamInterface.fold, h1]

theorem countLoop_spec {fuel : Nat} (R : List α) :
    ∀ (k : Nat) (s : σ) (counter : Nat), NotYetConsumed fuel s R → R.length < k →
      counter < sizeModulus →
      ∃ s1, countLoop fuel k s counter = some ((counter + R.length) % sizeModulus, s1) ∧
        Exhausted fuel s1 := by
  induction R with
  | nil =>
    intro k s counter h hk hc
    obtain ⟨s1, h1, h2⟩ := (NotYetConsumed.nil_iff.1 h).advance_false
    obtain ⟨k, rfl⟩ : ∃ j, k = j + 1 := ⟨k - 1, by simp at hk; omega⟩
    exact ⟨s1, by simp [countLoop, h1, Nat.mod_eq_of_lt hc], h2⟩
  | cons x xs ih =>
    intro k s counter h hk hc
    obtain ⟨s1, s2, h1, h2, h3, -⟩ := h.step
    obtain ⟨k, rfl⟩ : ∃ j, k = j + 1 := ⟨k - 1, by simp at hk; omega⟩
    have hpos : 0 < sizeModulus := by unfold sizeModulus; positivity
    obtain ⟨s3, h5, h6⟩ := ih k s1 ((counter + 1) % sizeModulus) h3 (by simp at hk; omega)
      (Nat.mod_lt _ hpos)
    refine ⟨s3, ?_, h6⟩
    simp only [countLoop, h1, Option.bind_eq_bind, Option.some_bind, if_true, h5]
    rw [Nat.mod_add_mod, List.length_cons]
    congr 3
    omega

theorem count_of_notYetConsumed {fuel : Nat} {st : BaseStreamInterface σ} {R : List α}
    (h : NotYetConsumed fuel st.extractor R) (hfuel : R.length < fuel)
    (hsize : R.length < sizeModulus) :
    ∃ st1, st.count fuel = some (R.length, st1) ∧ Exhausted fuel st1.extractor := by
  have hpos : 0 < sizeModulus := by unfold sizeModulus; positivity
  obtain ⟨s1, h1, h2⟩ := countLoop_spec R fuel st.extractor 0 h hfuel hpos
  rw [Nat.zero_add, Nat.mod_eq_of_lt hsize] at h1
  exact ⟨⟨s1⟩, by simp [BaseStreamInterface.count, h1], h2⟩

theorem foldl_add_int (T : List Int) : ∀ a : Int, T.foldl (fun x y => x + y) a = a + T.sum := by
  induction T with
  | nil => intro a; simp
  | cons x xs ih =>
    intro a
    simp only [List.foldl_cons, List.sum_cons, ih]
    omega

end MoreTerminal

/-- C11: on a stream whose not yet consumed elements are `R`, `all(p)` returns `true`
iff every element of `R` satisfies `p` (so `true` when `R` is empty).  `all` only
short-circuits to `false`: when it returns `true` the stream is exhausted, and on an
exhausted stream every `all(q)` returns `true`, whatever `q`, and leaves the stream
exhausted; when it returns `false` it has consumed exactly the elements up to and
including the first one failing `p`, the elements after it being what is left. -/
theorem C11_all_consumes {σ α : Type} [StreamExtractor σ α] (fuel : Nat)
    (st : BaseStreamInterface σ) (R : List α) (p : α → Bool)
    (h : NotYetConsumed fuel st.extractor R) (hfuel : R.length < fuel) :
    ∃ r st1, st.all fuel p = some (r, st1) ∧
      (r = true ↔ ∀ x ∈ R, p x = true) ∧
      (R = [] → r = true) ∧
      (r = true → Exhausted fuel st1.extractor) ∧
      (∀ st0 : BaseStreamInterface σ, Exhausted fuel st0.extractor → ∀ q : α → Bool,
        ∃ st2, st0.all fuel q = some (true, st2) ∧ Exhausted fuel st2.extractor) ∧
      (∀ pre y suf, R = pre ++ y :: suf → (∀ x ∈ pre, p x = true) → p y = false →
        r = false ∧ NotYetConsumed fuel st1.extractor suf) := by
  obtain ⟨s1, h1, h2⟩ := allLoop_spec p R fuel st.extractor h hfuel
  refine ⟨R.all p, ⟨s1⟩, by simp [BaseStreamInterface.all, h1], ?_, ?_, ?_, ?_, ?_⟩
  · simp [List.all_eq_true]
  · rintro rfl
    rfl
  · intro hr
    have hany : R.any (fun x => !p x) = false := by
      rw [List.all_eq_true] at hr
      rw [List.any_eq_false]
      intro x hx
      simp [hr x hx]
    rw [afterFirstMatch_of_any_false _ R hany] at h2
    exact NotYetConsumed.nil_iff.1 h2
  · intro st0 h0 q
    obtain ⟨s2, h3, h4⟩ := allLoop_spec q [] fuel st0.extractor (NotYetConsumed.nil_iff.2 h0)
      (by simp; omega)
    simp only [List.all_nil] at h3
    exact ⟨⟨s2⟩, by simp [BaseStreamInterface.all, h3],
      NotYetConsumed.nil_iff.1 (by simpa [afterFirstMatch] using h4)⟩
  · intro pre y suf hR hall hy
    refine ⟨?_, ?_⟩
    · rw [hR]
      simp [hy]
    · rw [hR, afterFirstMatch_split (fun x => !p x) y suf pre
        (fun x hx => by simp [hall x hx]) (by simp [hy])] at h2
      exact h2

/-- Witness of C11 on a fresh stream over five elements: `all` stops on 98, the first
element that is not below 98, and leaves 5 and 6. -/
theorem C11_all_consumes_witness :
    NotYetConsumed 6 (from_ [96, 97, 98, 5, 6]).extractor [96, 97, 98, 5, 6] ∧
    [96, 97, 98, 5, 6].length < 6 ∧
    ∃ st1, (from_ [96, 97, 98, 5, 6]).all 6 (fun e => decide (e < 98)) =
        some (false, st1) ∧
      NotYetConsumed 6 st1.extractor [5, 6] := by
  refine ⟨from_notYetConsumed 6 _, by decide, ?_⟩
  obtain ⟨r, st1, h1, -, -, -, -, h2⟩ :=
    C11_all_consumes 6 (from_ [96, 97, 98, 5, 6]) [96, 97, 98, 5, 6]
      (fun e => decide (e < 98)) (from_notYetConsumed 6 _) (by decide)
  obtain ⟨hr, h3⟩ := h2 [96, 97] 98 [5, 6] rfl (by decide) (by decide)
  subst hr
  exact ⟨st1, h1, h3⟩

/-- C12: for every sequence `S`, seed `a` and total function `f`, `from(S).fold(a, f)`
is the left fold `f(...f(f(a, S[0]), S[1])..., S[L-1])`; for the empty sequence it is the
seed `a`.  With `a = 0` and `f` the addition of integers it is the sum of `S`, which is
4950 for `S = [0..99]`. -/
theorem C12_fold_from {α γ : Type} (S : List α) (a : γ) (f : γ → α → γ) (fuel : Nat)
    (hfuel : S.length < fuel) :
    ((from_ S).fold fuel a f).map Prod.fst = some (S.foldl f a) ∧
    ((from_ ([] : List α)).fold fuel a f).map Prod.fst = some a ∧
    (∀ T : List Int, T.length < fuel →
      ((from_ T).fold fuel (0 : Int) (fun x y => x + y)).map Prod.fst = some T.sum) ∧
    (100 < fuel →
      ((from_ ((List.range 100).map Int.ofNat)).fold fuel (0 : Int)
        (fun x y => x + y)).map Prod.fst = some 4950) := by
  have key : ∀ T : List Int, T.length < fuel →
      ((from_ T).fold fuel (0 : Int) (fun x y => x + y)).map Prod.fst = some T.sum := by
    intro T hT
    rw [fold_fst_of_notYetConsumed _ _ (from_notYetConsumed fuel T) hT, foldl_add_int]
    simp
  refine ⟨fold_fst_of_notYetConsumed a f (from_notYetConsumed fuel S) hfuel,
    fold_fst_of_notYetConsumed a f (from_notYetConsumed fuel []) (by simp; omega), key, ?_⟩
  intro h100
  rw [key _ (by simpa using h100)]
  simp [List.range_succ]

/-- Witness of C12: the sum of 1, 2, 3 from the seed 10. -/
theorem C12_fold_from_witness :
    [1, 2, 3].length < 4 ∧
    ((from_ [1, 2, 3]).fold 4 10 (fun x y => x + y)).map Prod.fst =
      some ([1, 2, 3].foldl (fun x y => x + y) 10) :=
  ⟨by decide, (C12_fold_from [1, 2, 3] 10 (fun x y => x + y) 4 (by decide)).1⟩

/-- C13: for every sequence `S` (whose length, a `size_t`, is below `2^64`),
`from(S).count()` returns `len(S)`, which is 0 for the empty sequence; more generally
`count()` on any stream returns the length of the list that `collect()` returns from the
same state, the list of the not yet consumed elements. -/
theorem C13_count {σ α : Type} [StreamExtractor σ α] (fuel : Nat)
    (st : BaseStreamInterface σ) (R : List α)
    (h : NotYetConsumed fuel st.extractor R) (hfuel : R.length < fuel)
    (hsize : R.length < sizeModulus) :
    (∃ out st1 st2, st.collect fuel = some (out, st1) ∧ out = R ∧
      st.count fuel = some (out.length, st2)) ∧
    (∀ S : List α, S.length < fuel → S.length < sizeModulus →
      ((from_ S).count fuel).map Prod.fst = some S.length) ∧
    ((from_ ([] : List α)).count fuel).map Prod.fst = some 0 := by
  have key : ∀ S : List α, S.length < fuel → S.length < sizeModulus →
      ((from_ S).count fuel).map Prod.fst = some S.length := by
    intro S h1 h2
    obtain ⟨st1, h3, -⟩ := count_of_notYetConsumed (from_notYetConsumed fuel S) h1 h2
    simp [h3]
  refine ⟨?_, key, ?_⟩
  · obtain ⟨st1, h1, -⟩ := collect_of_notYetConsumed h hfuel
    obtain ⟨st2, h2, -⟩ := count_of_notYetConsumed h hfuel hsize
    exact ⟨R, st1, st2, h1, rfl, h2⟩
  · exact key [] (by simp; omega) (by simp [sizeModulus])

/-- Witness of C13 on a filtered stream: `count()` and `collect()` agree on it. -/
theorem C13_count_witness :
    NotYetConsumed 6 ((from_ [1, 2, 3, 4, 5]).filter fun e => e % 2 == 1).extractor [1, 3, 5] ∧
    [1, 3, 5].length < 6 ∧ [1, 3, 5].length < sizeModulus ∧
    ∃ out st1 st2,
      ((from_ [1, 2, 3, 4, 5]).filter fun e => e % 2 == 1).collect 6 = some (out, st1) ∧
      out = [1, 3, 5] ∧
      ((from_ [1, 2, 3, 4, 5]).filter fun e => e % 2 == 1).count 6 =
        some (out.length, st2) := by
  have h : NotYetConsumed 6 ((from_ [1, 2, 3, 4, 5]).filter fun e => e % 2 == 1).extractor
      [1, 3, 5] :=
    filter_notYetConsumed [1, 2, 3, 4, 5]
      ((from_ [1, 2, 3, 4, 5]).filter fun e => e % 2 == 1).extractor
      (from_notYetConsumed 6 _) (by decide)
  exact ⟨h, by decide, by decide,
    (C13_count 6 ((from_ [1, 2, 3, 4, 5]).filter fun e => e % 2 == 1) [1, 3, 5] h
      (by decide) (by decide)).1⟩

/-! ## Chain over any two upstream extractors -/

section Chain

variable {σ τ α : Type} [StreamExtractor σ α] [StreamExtractor τ α]

theorem chain_exhausted {fuel : Nat} (t : ChainStreamExtractor σ τ)
    (h : Exhausted fuel t.next)
    (h1 : t.firstHaveElements = true → Exhausted fuel t.first) : Exhausted fuel t :=
  exhausted_of_invariant
    (fun u : ChainStreamExtractor σ τ =>
      Exhausted fuel u.next ∧ (u.firstHaveElements = true → Exhausted fuel u.first))
    (fun u hu => by
      obtain ⟨e2, h2, h3⟩ := hu.1.advance_false
      by_cases hf : u.firstHaveElements = true
      · obtain ⟨e, h4, -⟩ := (hu.2 hf).advance_false
        refine ⟨{ first := e, next := e2, firstHaveElements := false }, ?_, h3, by simp⟩
        show ChainStreamExtractor.advance_impl fuel u = _
        simp [ChainStreamExtractor.advance_impl, hf, h4, h2]
      · refine ⟨{ u with next := e2 }, ?_, h3, fun hc => absurd hc hf⟩
        show ChainStreamExtractor.advance_impl fuel u = _
        simp [ChainStreamExtractor.advance_impl, hf, h2]) ⟨h, h1⟩

theorem chain_next_notYetConsumed {fuel : Nat} (B : List α) :
    ∀ t : ChainStreamExtractor σ τ, t.firstHaveElements = false →
      NotYetConsumed fuel t.next B → NotYetConsumed fuel t B := by
  induction B with
  | nil =>
    intro t ht h
    exact NotYetConsumed.nil_iff.2
      (chain_exhausted t (NotYetConsumed.nil_iff.1 h) (fun hc => by simp [ht] at hc))
  | cons y ys ih =>
    intro t ht h
    obtain ⟨s1, h1, h2⟩ := NotYetConsumed.cons_iff.1 h
    refine NotYetConsumed.cons_iff.2 ⟨{ t with next := s1 }, ?_, ?_⟩
    · show ChainStreamExtractor.advance_impl fuel t = _
      simp [ChainStreamExtractor.advance_impl, ht, h1]
    · refine positioned_of_invariant
        (fun u : ChainStreamExtractor σ τ =>
          Positioned fuel u.next y ys ∧ u.firstHaveElements = false) ?_ ⟨h2, ht⟩
      rintro u ⟨hu, hl⟩
      obtain ⟨s2, h3, h4⟩ := hu.get
      refine ⟨ih u hl hu.rest, { u with next := s2 }, ?_, h4, hl⟩
      show ChainStreamExtractor.get_impl u = _
      simp [ChainStreamExtractor.get_impl, hl, h3]

theorem chain_notYetConsumed {fuel : Nat} (B : List α) (A : List α) :
    ∀ t : ChainStreamExtractor σ τ, t.firstHaveElements = true →
      NotYetConsumed fuel t.first A → NotYetConsumed fuel t.next B →
      NotYetConsumed fuel t (A ++ B) := by
  induction A with
  | nil =>
    intro t ht hA hB
    obtain ⟨e, h1, -⟩ := (NotYetConsumed.nil_iff.1 hA).advance_false
    have hnext := chain_next_notYetConsumed B
      ({ first := e, next := t.next, firstHaveElements := false } : ChainStreamExtractor σ τ)
      rfl hB
    rw [List.nil_append]
    refine NotYetConsumed.iff_outcome.2 ?_
    have hout := NotYetConsumed.iff_outcome.1 hnext
    have hadv : advance fuel
        ({ first := e, next := t.next, firstHaveElements := false } : ChainStreamExtractor σ τ)
        = advance fuel t := by
      show ChainStreamExtractor.advance_impl fuel _ = ChainStreamExtractor.advance_impl fuel t
      simp [ChainStreamExtractor.advance_impl, ht, h1]
    rw [← hadv]
    exact hout
  | cons x xs ih =>
    intro t ht hA hB
    obtain ⟨s1, h1, h2⟩ := NotYetConsumed.cons_iff.1 hA
    rw [List.cons_append]
    refine NotYetConsumed.cons_iff.2 ⟨{ t with first := s1, firstHaveElements := true }, ?_, ?_⟩
    · show ChainStreamExtractor.advance_impl fuel t = _
      simp [ChainStreamExtractor.advance_impl, ht, h1]
    · refine positioned_of_invariant
        (fun u : ChainStreamExtractor σ τ =>
          Positioned fuel u.first x xs ∧ u.firstHaveElements = true ∧
            NotYetConsumed fuel u.next B) ?_ ⟨h2, rfl, hB⟩
      rintro u ⟨hu, hl, hn⟩
      obtain ⟨s2, h3, h4⟩ := hu.get
      refine ⟨ih u hl hu.rest hn, { u with first := s2 }, ?_, h4, hl, hn⟩
      show ChainStreamExtractor.get_impl u = _
      simp [ChainStreamExtractor.get_impl, hl, h3]

end Chain

/-- C14: for all sequences `A` and `B` of the same element type,
`from(A).chain(from(B)).collect()` is `A` followed by `B`, the concatenation `A ++ B`, of
length `len(A) + len(B)`; also when `A` or `B` is empty. -/
theorem C14_chain_collect {α : Type} (A B : List α) (fuel : Nat)
    (hfuel : A.length + B.length < fuel) :
    ∃ out st1, ((from_ A).chain (from_ B)).collect fuel = some (out, st1) ∧
      out = A ++ B ∧
      out.length = A.length + B.length ∧
      (((from_ ([] : List α)).chain (from_ B)).collect fuel).map Prod.fst = some B ∧
      (((from_ A).chain (from_ ([] : List α))).collect fuel).map Prod.fst = some A := by
  have key : ∀ X Y : List α, X.length + Y.length < fuel →
      ∃ st1, ((from_ X).chain (from_ Y)).collect fuel = some (X ++ Y, st1) := by
    intro X Y hXY
    have h := chain_notYetConsumed Y X ((from_ X).chain (from_ Y)).extractor rfl
      (from_notYetConsumed fuel X) (from_notYetConsumed fuel Y)
    obtain ⟨st1, h1, -⟩ := collect_of_notYetConsumed h (by simpa using hXY)
    exact ⟨st1, h1⟩
  obtain ⟨st1, h1⟩ := key A B hfuel
  obtain ⟨st2, h2⟩ := key [] B (by simp; omega)
  obtain ⟨st3, h3⟩ := key A [] (by simp; omega)
  exact ⟨A ++ B, st1, h1, rfl, by simp, by simp [h2], by simp [h3]⟩

/-- Witness of C14: three elements chained with two. -/
theorem C14_chain_collect_witness :
    [1, 2, 3].length + [4, 5].length < 6 ∧
    (((from_ [1, 2, 3]).chain (from_ [4, 5])).collect 6).map Prod.fst =
      some [1, 2, 3, 4, 5] := by
  refine ⟨by decide, ?_⟩
  obtain ⟨out, st1, h1, h2, -⟩ := C14_chain_collect [1, 2, 3] [4, 5] 6 (by decide)
  rw [h1, h2]
  rfl

/-! ## Zip over any two upstream extractors -/

section Zip

variable {σ τ α β : Type} [StreamExtractor σ α] [StreamExtractor τ β]

theorem zip_exhausted {fuel : Nat} (t : ZipStreamExtractor σ τ α β)
    (h : Exhausted fuel t.left ∨
      (Exhausted fuel t.right ∧ ∃ L : List α, NotYetConsumed fuel t.left L)) :
    Exhausted fuel t :=
  exhausted_of_invariant
    (fun u : ZipStreamExtractor σ τ α β =>
      Exhausted fuel u.left ∨
        (Exhausted fuel u.right ∧ ∃ L : List α, NotYetConsumed fuel u.left L))
    (fun u hu => by
      rcases hu with hl | ⟨hr, L, hL⟩
      · obtain ⟨l, h1, h2⟩ := hl.advance_false
        refine ⟨{ u with left := l }, ?_, Or.inl h2⟩
        show ZipStreamExtractor.advance_impl fuel u = _
        simp [ZipStreamExtractor.advance_impl, h1]
      · obtain ⟨r, h3, h4⟩ := hr.advance_false
        cases L with
        | nil =>
          obtain ⟨l, h1, h2⟩ := (NotYetConsumed.nil_iff.1 hL).advance_false
          refine ⟨{ u with left := l }, ?_, Or.inl h2⟩
          show ZipStreamExtractor.advance_impl fuel u = _
          simp [ZipStreamExtractor.advance_impl, h1]
        | cons x xs =>
          obtain ⟨l, h1, h2⟩ := NotYetConsumed.cons_iff.1 hL
          refine ⟨{ u with left := l, right := r }, ?_, Or.inr ⟨h4, xs, h2.rest⟩⟩
          show ZipStreamExtractor.advance_impl fuel u = _
          simp [ZipStreamExtractor.advance_impl, h1, h3]) h

theorem zip_notYetConsumed {fuel : Nat} (A : List α) :
    ∀ (B : List β) (t : ZipStreamExtractor σ τ α β), NotYetConsumed fuel t.left A →
      NotYetConsumed fuel t.right B → NotYetConsumed fuel t (A.zip B) := by
  induction A with
  | nil =>
    intro B t hA _
    rw [List.zip_nil_left]
    exact NotYetConsumed.nil_iff.2 (zip_exhausted t (Or.inl (NotYetConsumed.nil_iff.1 hA)))
  | cons x xs ih =>
    intro B t hA hB
    cases B with
    | nil =>
      rw [List.zip_nil_right]
      exact NotYetConsumed.nil_iff.2
        (zip_exhausted t (Or.inr ⟨NotYetConsumed.nil_iff.1 hB, x :: xs, hA⟩))
    | cons y ys =>
      obtain ⟨l, h1, h2⟩ := NotYetConsumed.cons_iff.1 hA
      obtain ⟨r, h3, h4⟩ := NotYetConsumed.cons_iff.1 hB
      rw [List.zip_cons_cons]
      refine NotYetConsumed.cons_iff.2 ⟨{ t with left := l, right := r }, ?_, ?_⟩
      · show ZipStreamExtractor.advance_impl fuel t = _
        simp [ZipStreamExtractor.advance_impl, h1, h3]
      · refine positioned_of_invariant
          (fun u : ZipStreamExtractor σ τ α β =>
            Positioned fuel u.left x xs ∧ Positioned fuel u.right y ys) ?_ ⟨h2, h4⟩
        rintro u ⟨hl, hr⟩
        obtain ⟨l2, h5, h6⟩ := hl.get
        obtain ⟨r2, h7, h8⟩ := hr.get
        refine ⟨ih ys u hl.rest hr.rest, { left := l2, right := r2, value := (x, y) }, ?_,
          h6, h8⟩
        show ZipStreamExtractor.get_impl u = _
        simp [ZipStreamExtractor.get_impl, h5, h7]

end Zip

/-- C15: for all sequences `A` and `B`, `from(A).zip(from(B)).collect()` is the list of
the pairs `(A[i], B[i])` for `i` from 0 to `min(len(A), len(B)) - 1` in order, so its
length is exactly `min(len(A), len(B))`, whichever side is the shorter one. -/
theorem C15_zip_collect {α β : Type} [Inhabited α] [Inhabited β] (A : List α) (B : List β)
    (fuel : Nat) (hfuel : min A.length B.length < fuel) :
    ∃ out st1, ((from_ A).zip (from_ B)).collect fuel = some (out, st1) ∧
      out = A.zip B ∧
      out.length = min A.length B.length ∧
      (∀ i, ∀ ha : i < A.length, ∀ hb : i < B.length, out[i]? = some (A[i], B[i])) := by
  have h := zip_notYetConsumed A B ((from_ A).zip (from_ B)).extractor
    (from_notYetConsumed fuel A) (from_notYetConsumed fuel B)
  obtain ⟨st1, h1, -⟩ := collect_of_notYetConsumed h (by simpa using hfuel)
  refine ⟨A.zip B, st1, h1, rfl, by simp, ?_⟩
  intro i ha hb
  simp [List.getElem?_zip_eq_some, ha, hb]

/-- Witness of C15 with the longer sequence on the left. -/
theorem C15_zip_collect_witness :
    min [1, 2, 3].length ["a", "b"].length < 3 ∧
    (((from_ [1, 2, 3]).zip (from_ ["a", "b"])).collect 3).map Prod.fst =
      some [(1, "a"), (2, "b")] := by
  refine ⟨by decide, ?_⟩
  obtain ⟨out, st1, h1, h2, -⟩ := C15_zip_collect [1, 2, 3] ["a", "b"] 3 (by decide)
  rw [h1, h2]
  rfl

/-! ## FlatMap over any upstream extractor -/

section FlatMap

variable {σ α β : Type} [StreamExtractor σ α]

theorem flatMap_exhausted {fuel : Nat} (hfuel : 0 < fuel) (t : FlatMapStreamExtractor σ α β)
    (h1 : Exhausted fuel t.sequence) (h2 : Exhausted fuel t.source) : Exhausted fuel t :=
  exhausted_of_invariant
    (fun u : FlatMapStreamExtractor σ α β =>
      Exhausted fuel u.sequence ∧ Exhausted fuel u.source)
    (fun u hu => by
      obtain ⟨seq, h3, h4⟩ := hu.1.advance_false
      obtain ⟨src, h5, h6⟩ := hu.2.advance_false
      obtain ⟨k, rfl⟩ : ∃ k, fuel = k + 1 := ⟨fuel - 1, by omega⟩
      refine ⟨{ u with source := src, sequence := seq }, ?_, h4, h6⟩
      show FlatMapStreamExtractor.advance_impl (k + 1) u = _
      simp [FlatMapStreamExtractor.advance_impl, FlatMapStreamExtractor.advanceRec, h3, h5])
    ⟨h1, h2⟩

theorem flatMap_positioned {fuel : Nat} {f : α → List β} {x : β} {I : List β} {R : List α}
    (hA : ∀ u : FlatMapStreamExtractor σ α β, u.transformer = f →
      NotYetConsumed fuel u.source R → NotYetConsumed fuel u.sequence I →
      NotYetConsumed fuel u (I ++ R.flatMap f))
    (t : FlatMapStreamExtractor σ α β) (hf : t.transformer = f)
    (hsrc : NotYetConsumed fuel t.source R) (hseq : Positioned fuel t.sequence x I) :
    Positioned fuel t x (I ++ R.flatMap f) := by
  refine positioned_of_invariant
    (fun u : FlatMapStreamExtractor σ α β =>
      u.transformer = f ∧ NotYetConsumed fuel u.source R ∧ Positioned fuel u.sequence x I)
    ?_ ⟨hf, hsrc, hseq⟩
  rintro u ⟨huf, husrc, huseq⟩
  obtain ⟨seq, h1, h2⟩ := huseq.get
  refine ⟨hA u huf husrc huseq.rest, { u with sequence := seq }, ?_, huf, husrc, h2⟩
  show FlatMapStreamExtractor.get_impl u = _
  simp [FlatMapStreamExtractor.get_impl, h1]

theorem flatMap_advanceRec_cons {fuel : Nat} {f : α → List β} {x : β} {I : List β}
    {R : List α}
    (hA : ∀ u : FlatMapStreamExtractor σ α β, u.transformer = f →
      NotYetConsumed fuel u.source R → NotYetConsumed fuel u.sequence I →
      NotYetConsumed fuel u (I ++ R.flatMap f))
    (k : Nat) (t : FlatMapStreamExtractor σ α β) (hf : t.transformer = f)
    (hsrc : NotYetConsumed fuel t.source R)
    (hseq : NotYetConsumed fuel t.sequence (x :: I)) :
    Outcome fuel (FlatMapStreamExtractor.advanceRec fuel (k + 1) t)
      ((x :: I) ++ R.flatMap f) := by
  obtain ⟨seq, h1, h2⟩ := NotYetConsumed.cons_iff.1 hseq
  rw [List.cons_append]
  refine ⟨{ t with sequence := seq }, ?_, flatMap_positioned hA _ hf hsrc h2⟩
  simp [FlatMapStreamExtractor.advanceRec, h1]

theorem flatMap_joint {fuel : Nat} (f : α → List β) (R : List α) :
    ∀ I : List β,
      (∀ t : FlatMapStreamExtractor σ α β, t.transformer = f →
        NotYetConsumed fuel t.source R → NotYetConsumed fuel t.sequence I →
        R.length < fuel → NotYetConsumed fuel t (I ++ R.flatMap f)) ∧
      (∀ (k : Nat) (t : FlatMapStreamExtractor σ α β), t.transformer = f →
        NotYetConsumed fuel t.source R → NotYetConsumed fuel t.sequence I →
        R.length < k → R.length < fuel →
        Outcome fuel (FlatMapStreamExtractor.advanceRec fuel k t) (I ++ R.flatMap f)) := by
  have ofRec : ∀ (R : List α) (I : List β),
      (∀ (k : Nat) (t : FlatMapStreamExtractor σ α β), t.transformer = f →
        NotYetConsumed fuel t.source R → NotYetConsumed fuel t.sequence I →
        R.length < k → R.length < fuel →
        Outcome fuel (FlatMapStreamExtractor.advanceRec fuel k t) (I ++ R.flatMap f)) →
      ∀ t : FlatMapStreamExtractor σ α β, t.transformer = f →
        NotYetConsumed fuel t.source R → NotYetConsumed fuel t.sequence I →
        R.length < fuel → NotYetConsumed fuel t (I ++ R.flatMap f) := by
    intro R I hP t hf hsrc hseq hfuel
    exact NotYetConsumed.iff_outcome.2 (hP fuel t hf hsrc hseq hfuel hfuel)
  induction R with
  | nil =>
    intro I
    induction I with
    | nil =>
      have hP : ∀ (k : Nat) (t : FlatMapStreamExtractor σ α β), t.transformer = f →
          NotYetConsumed fuel t.source [] → NotYetConsumed fuel t.sequence [] →
          ([] : List α).length < k → ([] : List α).length < fuel →
          Outcome fuel (FlatMapStreamExtractor.advanceRec fuel k t)
            ([] ++ ([] : List α).flatMap f) := by
        intro k t _ hsrc hseq hk hfuel
        obtain ⟨k, rfl⟩ : ∃ j, k = j + 1 := ⟨k - 1, by simp at hk; omega⟩
        obtain ⟨seq, h3, h4⟩ := (NotYetConsumed.nil_iff.1 hseq).advance_false
        obtain ⟨src, h5, h6⟩ := (NotYetConsumed.nil_iff.1 hsrc).advance_false
        refine ⟨{ t with source := src, sequence := seq }, ?_,
          flatMap_exhausted (by simpa using hfuel) _ h4 h6⟩
        simp [FlatMapStreamExtractor.advanceRec, h3, h5]
      exact ⟨ofRec [] [] hP, hP⟩
    | cons x I ihI =>
      have hP : ∀ (k : Nat) (t : FlatMapStreamExtractor σ α β), t.transformer = f →
          NotYetConsumed fuel t.source [] → NotYetConsumed fuel t.sequence (x :: I) →
          ([] : List α).length < k → ([] : List α).length < fuel →
          Outcome fuel (FlatMapStreamExtractor.advanceRec fuel k t)
            ((x :: I) ++ ([] : List α).flatMap f) := by
        intro k t hf hsrc hseq hk hfuel
        obtain ⟨k, rfl⟩ : ∃ j, k = j + 1 := ⟨k - 1, by simp at hk; omega⟩
        exact flatMap_advanceRec_cons
          (fun u huf hus huq => ihI.1 u huf hus huq hfuel) k t hf hsrc hseq
      exact ⟨ofRec [] (x :: I) hP, hP⟩
  | cons r rs ihR =>
    intro I
    induction I with
    | nil =>
      have hP : ∀ (k : Nat) (t : FlatMapStreamExtractor σ α β), t.transformer = f →
          NotYetConsumed fuel t.source (r :: rs) → NotYetConsumed fuel t.sequence [] →
          (r :: rs).length < k → (r :: rs).length < fuel →
          Outcome fuel (FlatMapStreamExtractor.advanceRec fuel k t)
            ([] ++ (r :: rs).flatMap f) := by
        intro k t hf hsrc hseq hk hfuel
        obtain ⟨k, rfl⟩ : ∃ j, k = j + 1 := ⟨k - 1, by simp at hk; omega⟩
        obtain ⟨seq, h3, -⟩ := (NotYetConsumed.nil_iff.1 hseq).advance_false
        obtain ⟨s1, h5, hpos⟩ := NotYetConsumed.cons_iff.1 hsrc
        obtain ⟨s2, h6, hpos2⟩ := hpos.get
        have hrec : FlatMapStreamExtractor.advanceRec fuel (k + 1) t =
            FlatMapStreamExtractor.advanceRec fuel k
              { t with
                source := s2
                innerCollection := f r
                sequence := SequenceStreamExtractor.mk_ (f r) 0 (f r).length } := by
          simp [FlatMapStreamExtractor.advanceRec, h3, h5, h6, hf]
        rw [hrec, List.nil_append, List.flatMap_cons]
        exact (ihR (f r)).2 k _ hf hpos2.rest (from_notYetConsumed fuel (f r))
          (by simp at hk; omega) (by simp at hfuel; omega)
      exact ⟨ofRec (r :: rs) [] hP, hP⟩
    | cons x I ihI =>
      have hP : ∀ (k : Nat) (t : FlatMapStreamExtractor σ α β), t.transformer = f →
          NotYetConsumed fuel t.source (r :: rs) →
          NotYetConsumed fuel t.sequence (x :: I) →
          (r :: rs).length < k → (r :: rs).length < fuel →
          Outcome fuel (FlatMapStreamExtractor.advanceRec fuel k t)
            ((x :: I) ++ (r :: rs).flatMap f) := by
        intro k t hf hsrc hseq hk hfuel
        obtain ⟨k, rfl⟩ : ∃ j, k = j + 1 := ⟨k - 1, by simp at hk; omega⟩
        exact flatMap_advanceRec_cons
          (fun u huf hus huq => ihI.1 u huf hus huq hfuel) k t hf hsrc hseq
      exact ⟨ofRec (r :: rs) (x :: I) hP, hP⟩

theorem flatMap_notYetConsumed {fuel : Nat} (R : List α) (I : List β)
    (t : FlatMapStreamExtractor σ α β) (hsrc : NotYetConsumed fuel t.source R)
    (hseq : NotYetConsumed fuel t.sequence I) (hfuel : R.length < fuel) :
    NotYetConsumed fuel t (I ++ R.flatMap t.transformer) :=
  ((flatMap_joint t.transformer R I).1) t rfl hsrc hseq hfuel

end FlatMap

theorem flatMap_from_notYetConsumed {α β : Type} (fuel : Nat) (S : List α)
    (f : α → List β) (I : List β) (hfuel : S.length < fuel) :
    NotYetConsumed fuel ((from_ S).flatMap f I).extractor (I ++ S.flatMap f) :=
  flatMap_notYetConsumed S I ((from_ S).flatMap f I).extractor
    (from_notYetConsumed fuel S) (from_notYetConsumed fuel I) hfuel

/-- The operation `flatten()` is `flatMap` with the identity, and
`from(SS).flatten().collect()` is the elements of the value-initialised container `I`,
then the concatenation of the sequences of `SS`. -/
theorem flatten_from_collect {β : Type} (SS : List (List β)) (I : List β) (fuel : Nat)
    (hfuel : SS.length < fuel) (hout : (I ++ SS.flatten).length < fuel) :
    (from_ SS).flatten I = (from_ SS).flatMap (fun e => e) I ∧
    (((from_ SS).flatten I).collect fuel).map Prod.fst = some (I ++ SS.flatten) := by
  refine ⟨rfl, ?_⟩
  have h4 := flatMap_from_notYetConsumed fuel SS (fun e => e) I hfuel
  have hfl : ∀ L : List (List β), L.flatMap (fun e => e) = L.flatten := by
    intro L
    induction L with
    | nil => rfl
    | cons x xs ih => rw [List.flatMap_cons, List.flatten_cons, ih]
  rw [hfl] at h4
  exact collect_fst_of_notYetConsumed h4 hout

section Enumerate

variable {σ α : Type} [StreamExtractor σ α]

theorem sizeModulus_pos : 0 < sizeModulus := by
  unfold sizeModulus
  positivity

theorem size_t_pred_succ (c : Nat) :
    ((c + 1) % sizeModulus + sizeModulus - 1) % sizeModulus = c % sizeModulus := by
  have hpos := sizeModulus_pos
  have h1 : (c + 1) % sizeModulus + sizeModulus - 1 =
      (c + 1) % sizeModulus + (sizeModulus - 1) := by omega
  rw [h1, Nat.mod_add_mod]
  have h2 : c + 1 + (sizeModulus - 1) = c + sizeModulus := by omega
  rw [h2, Nat.add_mod_right]

theorem size_t_succ (c : Nat) :
    (c % sizeModulus + 1) % sizeModulus = (c + 1) % sizeModulus := by
  rw [Nat.mod_add_mod]

theorem enumeratedFrom_length (S : List α) : ∀ c, (enumeratedFrom c S).length = S.length := by
  induction S with
  | nil => intro c; rfl
  | cons x xs ih => intro c; simp [enumeratedFrom, ih]

theorem enumeratedFrom_getElem? (S : List α) :
    ∀ (c i : Nat) (h : i < S.length),
      (enumeratedFrom c S)[i]? = some { i := (c + i) % sizeModulus, v := S[i] } := by
  induction S with
  | nil => intro c i h; simp at h
  | cons x xs ih =>
    intro c i h
    cases i with
    | zero => simp [enumeratedFrom]
    | succ i =>
      have h2 : i < xs.length := by simpa using h
      simp only [enumeratedFrom, List.getElem?_cons_succ, List.getElem_cons_succ]
      rw [ih (c + 1) i h2]
      congr 3
      omega

theorem enumerate_exhausted {fuel : Nat} (t : EnumerateStreamExtractor σ α)
    (h : Exhausted fuel t.source) : Exhausted fuel t :=
  exhausted_of_invariant (fun u : EnumerateStreamExtractor σ α => Exhausted fuel u.source)
    (fun u hu => by
      obtain ⟨s1, h1, h2⟩ := hu.advance_false
      refine ⟨{ u with source := s1, counter := (u.counter + 1) % sizeModulus }, ?_, h2⟩
      show EnumerateStreamExtractor.advance_impl fuel u = _
      simp [EnumerateStreamExtractor.advance_impl, h1]) h

theorem enumerate_notYetConsumed {fuel : Nat} (R : List α) :
    ∀ (c : Nat) (t : EnumerateStreamExtractor σ α), t.counter = c % sizeModulus →
      NotYetConsumed fuel t.source R → NotYetConsumed fuel t (enumeratedFrom c R) := by
  induction R with
  | nil =>
    intro c t _ h
    exact NotYetConsumed.nil_iff.2 (enumerate_exhausted t (NotYetConsumed.nil_iff.1 h))
  | cons x xs ih =>
    intro c t hc h
    obtain ⟨s1, h1, h2⟩ := NotYetConsumed.cons_iff.1 h
    refine NotYetConsumed.cons_iff.2
      ⟨{ t with source := s1, counter := (t.counter + 1) % sizeModulus }, ?_, ?_⟩
    · show EnumerateStreamExtractor.advance_impl fuel t = _
      simp [EnumerateStreamExtractor.advance_impl, h1]
    · refine positioned_of_invariant
        (fun u : EnumerateStreamExtractor σ α =>
          Positioned fuel u.source x xs ∧ u.counter = (c + 1) % sizeModulus) ?_
        ⟨h2, by rw [hc, size_t_succ]⟩
      rintro u ⟨hu, hl⟩
      obtain ⟨s2, h3, h4⟩ := hu.get
      refine ⟨ih (c + 1) u hl hu.rest,
        { u with source := s2, value := { i := c % sizeModulus, v := x } }, ?_, h4, hl⟩
      show EnumerateStreamExtractor.get_impl u = _
      simp [EnumerateStreamExtractor.get_impl, h3, hl, size_t_pred_succ]

theorem enumerateTuple_exhausted {fuel : Nat} (t : EnumerateTupleStreamExtractor σ α)
    (h : Exhausted fuel t.source) : Exhausted fuel t :=
  exhausted_of_invariant
    (fun u : EnumerateTupleStreamExtractor σ α => Exhausted fuel u.source)
    (fun u hu => by
      obtain ⟨s1, h1, h2⟩ := hu.advance_false
      refine ⟨{ u with source := s1, counter := (u.counter + 1) % sizeModulus }, ?_, h2⟩
      show EnumerateTupleStreamExtractor.advance_impl fuel u = _
      simp [EnumerateTupleStreamExtractor.advance_impl, h1]) h

theorem enumerateTuple_notYetConsumed {fuel : Nat} (R : List α) :
    ∀ (c : Nat) (t : EnumerateTupleStreamExtractor σ α), t.counter = c % sizeModulus →
      NotYetConsumed fuel t.source R →
      NotYetConsumed fuel t ((enumeratedFrom c R).map fun e => (e.i, e.v)) := by
  induction R with
  | nil =>
    intro c t _ h
    exact NotYetConsumed.nil_iff.2 (enumerateTuple_exhausted t (NotYetConsumed.nil_iff.1 h))
  | cons x xs ih =>
    intro c t hc h
    obtain ⟨s1, h1, h2⟩ := NotYetConsumed.cons_iff.1 h
    refine NotYetConsumed.cons_iff.2
      ⟨{ t with source := s1, counter := (t.counter + 1) % sizeModulus }, ?_, ?_⟩
    · show EnumerateTupleStreamExtractor.advance_impl fuel t = _
      simp [EnumerateTupleStreamExtractor.advance_impl, h1]
    · refine positioned_of_invariant
        (fun u : EnumerateTupleStreamExtractor σ α =>
          Positioned fuel u.source x xs ∧ u.counter = (c + 1) % sizeModulus) ?_
        ⟨h2, by rw [hc, size_t_succ]⟩
      rintro u ⟨hu, hl⟩
      obtain ⟨s2, h3, h4⟩ := hu.get
      refine ⟨ih (c + 1) u hl hu.rest,
        { u with source := s2, value := (c % sizeModulus, x) }, ?_, h4, hl⟩
      show EnumerateTupleStreamExtractor.get_impl u = _
      simp [EnumerateTupleStreamExtractor.get_impl, h3, hl, size_t_pred_succ]

end Enumerate

/-- C17, counterexample: with the start index `k = 2^64 - 1`, the largest `size_t`,
`from([7, 8]).enumerate(k).collect()` is `[(2^64 - 1, 7), (0, 8)]`: the counter wraps
around, and the second index is 0 and not `k + 1`. -/
theorem C17_enumerate_counterexample :
    (((from_ [7, 8]).enumerate (2 ^ 64 - 1)).collect 3).map Prod.fst =
      some [{ i := 2 ^ 64 - 1, v := 7 }, { i := 0, v := 8 }] ∧
    (((from_ [7, 8]).enumerate (2 ^ 64 - 1)).collect 3).map Prod.fst ≠
      some [{ i := 2 ^ 64 - 1 + 0, v := 7 }, { i := 2 ^ 64 - 1 + 1, v := 8 }] := by
  have h : (((from_ [7, 8]).enumerate (2 ^ 64 - 1)).collect 3).map Prod.fst =
      some [{ i := 2 ^ 64 - 1, v := 7 }, { i := 0, v := 8 }] := by
    rfl
  refine ⟨h, ?_⟩
  rw [h]
  decide

/-- C17, amended: for every sequence `S` and every start index `k` (a `size_t`, below
`2^64`), `from(S).enumerate(k).collect()` is the list of the pairs
`((k + i) mod 2^64, S[i])` for `i` from 0 to `len(S) - 1`, which are the pairs
`(k + i, S[i])` whenever `k + len(S) <= 2^64`: the counter is incremented, modulo `2^64`,
on every `advance()`, successful or not, and `get()` pairs the current element with
`counter - 1` modulo `2^64`.  `enumerateTup(k)` yields the same index/value pairs as
tuples, and `enumerate(k).nth(n)` with `n < len(S)` returns `((k + n) mod 2^64, S[n])`. -/
theorem C17_enumerate_collect {α : Type} [Inhabited α] (S : List α) (k fuel : Nat)
    (hk : k < sizeModulus) (hfuel : S.length < fuel) :
    ∃ out st1, ((from_ S).enumerate k).collect fuel = some (out, st1) ∧
      out = enumeratedFrom k S ∧
      out.length = S.length ∧
      (∀ i, ∀ h : i < S.length, out[i]? = some { i := (k + i) % sizeModulus, v := S[i] }) ∧
      (k + S.length ≤ sizeModulus →
        ∀ i, ∀ h : i < S.length, out[i]? = some { i := k + i, v := S[i] }) ∧
      (∀ t : EnumerateStreamExtractor (SequenceStreamExtractor α) α,
        ∃ ok t1, advance fuel t = some (ok, t1) ∧
          t1.counter = (t.counter + 1) % sizeModulus) ∧
      (((from_ S).enumerateTup k).collect fuel).map Prod.fst =
        some (out.map fun e => (e.i, e.v)) ∧
      (∀ n, ∀ h : n < S.length,
        (((from_ S).enumerate k).nth fuel n).map Prod.fst =
          some (some { i := (k + n) % sizeModulus, v := S[n] })) := by
  have hc : k = k % sizeModulus := (Nat.mod_eq_of_lt hk).symm
  have h1 := enumerate_notYetConsumed S k ((from_ S).enumerate k).extractor hc
    (from_notYetConsumed fuel S)
  have h2 := enumerateTuple_notYetConsumed S k ((from_ S).enumerateTup k).extractor hc
    (from_notYetConsumed fuel S)
  obtain ⟨st1, h3, -⟩ := collect_of_notYetConsumed h1
    (by rw [enumeratedFrom_length]; exact hfuel)
  have h4 := collect_fst_of_notYetConsumed h2
    (by rw [List.length_map, enumeratedFrom_length]; exact hfuel)
  refine ⟨enumeratedFrom k S, st1, h3, rfl, enumeratedFrom_length S k,
    fun i h => enumeratedFrom_getElem? S k i h, ?_, ?_, h4, ?_⟩
  · intro hno i h
    rw [enumeratedFrom_getElem? S k i h, Nat.mod_eq_of_lt (by omega)]
  · intro t
    by_cases hn : t.source.next = t.source.end_
    · refine ⟨false, { t with counter := (t.counter + 1) % sizeModulus }, ?_, rfl⟩
      show EnumerateStreamExtractor.advance_impl fuel t = _
      simp [EnumerateStreamExtractor.advance_impl, advance,
        SequenceStreamExtractor.advance_impl, hn]
    · refine ⟨true, { t with
          source := { t.source with current := t.source.next, next := t.source.next + 1 }
          counter := (t.counter + 1) % sizeModulus }, ?_, rfl⟩
      show EnumerateStreamExtractor.advance_impl fuel t = _
      simp [EnumerateStreamExtractor.advance_impl, advance,
        SequenceStreamExtractor.advance_impl, hn]
  · intro n h
    obtain ⟨s1, h5, -⟩ := nth_spec n h1
    have hst : (from_ S).enumerate k = ⟨((from_ S).enumerate k).extractor⟩ := rfl
    rw [hst, h5, enumeratedFrom_getElem? S k n h]
    rfl

/-- Witness of C17 (amended) on three elements from the start index 5. -/
theorem C17_enumerate_collect_witness :
    5 < sizeModulus ∧ [7, 8, 9].length < 4 ∧
    (((from_ [7, 8, 9]).enumerate 5).collect 4).map Prod.fst =
      some [{ i := 5, v := 7 }, { i := 6, v := 8 }, { i := 7, v := 9 }] := by
  refine ⟨by decide, by decide, ?_⟩
  obtain ⟨out, st1, h1, h2, -⟩ := C17_enumerate_collect [7, 8, 9] 5 4 (by decide) (by decide)
  rw [h1, h2]
  rfl

/-! ## Inspect over any upstream extractor, with the state of its observer -/

section Inspect

variable {σ α κ : Type} [StreamExtractor σ α]

theorem inspect_advance_cons {fuel : Nat} {x : α} {xs : List α}
    (t : InspectStreamExtractor σ α κ) (h : NotYetConsumed fuel t.source (x :: xs)) :
    ∃ s2, advance fuel t =
        some (true, { t with source := s2, env := t.inspector t.env x }) ∧
      Positioned fuel s2 x xs := by
  obtain ⟨s1, h1, hpos⟩ := NotYetConsumed.cons_iff.1 h
  obtain ⟨s2, h2, hpos2⟩ := hpos.get
  refine ⟨s2, ?_, hpos2⟩
  show InspectStreamExtractor.advance_impl fuel t = _
  simp [InspectStreamExtractor.advance_impl, h1, h2]

theorem inspect_advance_nil {fuel : Nat} (t : InspectStreamExtractor σ α κ)
    (h : NotYetConsumed fuel t.source ([] : List α)) :
    ∃ s1, advance fuel t = some (false, { t with source := s1 }) ∧
      NotYetConsumed fuel s1 ([] : List α) := by
  obtain ⟨s1, h1, h2⟩ := (NotYetConsumed.nil_iff.1 h).advance_false
  refine ⟨s1, ?_, NotYetConsumed.nil_iff.2 h2⟩
  show InspectStreamExtractor.advance_impl fuel t = _
  simp [InspectStreamExtractor.advance_impl, h1]

theorem inspect_get {fuel : Nat} {x : α} {xs : List α} (t : InspectStreamExtractor σ α κ)
    (h : Positioned fuel t.source x xs) :
    ∃ s3, get t = some (x, { t with source := s3 }) ∧ Positioned fuel s3 x xs := by
  obtain ⟨s3, h1, h2⟩ := h.get
  refine ⟨s3, ?_, h2⟩
  show InspectStreamExtractor.get_impl t = _
  simp [InspectStreamExtractor.get_impl, h1]

theorem inspect_collectLoop {fuel : Nat} (R : List α) :
    ∀ (k : Nat) (t : InspectStreamExtractor σ α κ) (container : List α),
      NotYetConsumed fuel t.source R → R.length < k →
      ∃ t1, collectLoop fuel k t container = some (container ++ R, t1) ∧
        t1.env = R.foldl t.inspector t.env := by
  induction R with
  | nil =>
    intro k t container h hk
    obtain ⟨s1, h1, -⟩ := inspect_advance_nil t h
    obtain ⟨k, rfl⟩ : ∃ j, k = j + 1 := ⟨k - 1, by simp at hk; omega⟩
    exact ⟨{ t with source := s1 }, by simp [collectLoop, h1], rfl⟩
  | cons x xs ih =>
    intro k t container h hk
    obtain ⟨s2, h1, hpos⟩ := inspect_advance_cons t h
    obtain ⟨s3, h2, hpos3⟩ :=
      inspect_get ({ t with source := s2, env := t.inspector t.env x }) hpos
    obtain ⟨k, rfl⟩ : ∃ j, k = j + 1 := ⟨k - 1, by simp at hk; omega⟩
    obtain ⟨t1, h5, h6⟩ := ih k
      ({ t with source := s3, env := t.inspector t.env x }) (container ++ [x]) hpos3.rest
      (by simp at hk; omega)
    exact ⟨t1, by simp [collectLoop, h1, h2, h5], by simpa using h6⟩

theorem inspect_nthLoop {fuel : Nat} (n : Nat) :
    ∀ (R : List α) (t : InspectStreamExtractor σ α κ), NotYetConsumed fuel t.source R →
      ∃ t1, nthLoop fuel n t = some t1 ∧ t1.env = (R.take n).foldl t.inspector t.env ∧
        t1.inspector = t.inspector ∧ NotYetConsumed fuel t1.source (R.drop n) := by
  induction n with
  | zero =>
    intro R t h
    exact ⟨t, rfl, by simp, rfl, by simpa using h⟩
  | succ n ih =>
    intro R t h
    cases R with
    | nil =>
      obtain ⟨s1, h1, h2⟩ := inspect_advance_nil t h
      exact ⟨{ t with source := s1 }, by simp [nthLoop, h1], by simp, rfl,
        by simpa using h2⟩
    | cons x xs =>
      obtain ⟨s2, h1, hpos⟩ := inspect_advance_cons t h
      obtain ⟨t1, h5, h6, h7, h8⟩ := ih xs
        ({ t with source := s2, env := t.inspector t.env x }) hpos.rest
      exact ⟨t1, by simp [nthLoop, h1, h5], by simpa using h6, h7, by simpa using h8⟩

theorem inspect_nth {fuel : Nat} (n : Nat) (R : List α) (t : InspectStreamExtractor σ α κ)
    (h : NotYetConsumed fuel t.source R) (hn : n < R.length) :
    ∃ t1, nth fuel n (⟨t⟩ : BaseStreamInterface (InspectStreamExtractor σ α κ)) =
        some (some R[n], ⟨t1⟩) ∧
      t1.env = (R.take (n + 1)).foldl t.inspector t.env := by
  obtain ⟨t1, h1, h2, h3, h4⟩ := inspect_nthLoop n R t h
  rw [List.drop_eq_getElem_cons hn] at h4
  obtain ⟨s2, h5, hpos⟩ := inspect_advance_cons t1 h4
  obtain ⟨s3, h6, -⟩ :=
    inspect_get ({ t1 with source := s2, env := t1.inspector t1.env R[n] }) hpos
  refine ⟨{ t1 with source := s3, env := t1.inspector t1.env R[n] },
    by simp [nth, h1, next, h5, h6], ?_⟩
  show t1.inspector t1.env R[n] = _
  rw [h2, h3, List.take_succ, List.getElem?_eq_getElem hn, List.foldl_append]
  rfl

theorem inspect_advanceCalls {fuel : Nat} (reads : List Bool) :
    ∀ (R : List α) (t : InspectStreamExtractor σ α κ), NotYetConsumed fuel t.source R →
      ∃ oks t1, advanceCalls fuel reads t = some (oks, t1) ∧
        t1.env = (R.take reads.length).foldl t.inspector t.env ∧
        (reads.length ≤ R.length → oks = List.replicate reads.length true) := by
  induction reads with
  | nil =>
    intro R t _
    exact ⟨[], t, rfl, by simp, by simp⟩
  | cons read reads ih =>
    intro R t h
    cases R with
    | nil =>
      obtain ⟨s1, h1, h2⟩ := inspect_advance_nil t h
      obtain ⟨oks, t1, h3, h4, -⟩ := ih [] { t with source := s1 } h2
      exact ⟨false :: oks, t1, by simp [advanceCalls, h1, h3], by simpa using h4, by simp⟩
    | cons x xs =>
      obtain ⟨s2, h1, hpos⟩ := inspect_advance_cons t h
      obtain ⟨s3, h2, hpos3⟩ :=
        inspect_get ({ t with source := s2, env := t.inspector t.env x }) hpos
      cases read with
      | false =>
        obtain ⟨oks, t1, h3, h4, h5⟩ := ih xs
          ({ t with source := s2, env := t.inspector t.env x }) hpos.rest
        refine ⟨true :: oks, t1, by simp [advanceCalls, h1, h3], by simpa using h4, ?_⟩
        intro hlen
        rw [h5 (by simpa using hlen)]
        rfl
      | true =>
        obtain ⟨oks, t1, h3, h4, h5⟩ := ih xs
          ({ t with source := s3, env := t.inspector t.env x }) hpos3.rest
        refine ⟨true :: oks, t1, by simp [advanceCalls, h1, h2, h3], by simpa using h4, ?_⟩
        intro hlen
        rw [h5 (by simpa using hlen)]
        rfl

end Inspect

theorem inspect_from_facts {α κ : Type} (S : List α) (f : κ → α → κ) (e : κ) (fuel : Nat)
    (hfuel : S.length < fuel) :
    (∀ reads : List Bool, ∃ oks t1,
      advanceCalls fuel reads ((from_ S).inspect f e).extractor = some (oks, t1) ∧
      t1.env = (S.take reads.length).foldl f e ∧
      (reads.length ≤ S.length → oks = List.replicate reads.length true)) ∧
    (∃ st1, ((from_ S).inspect f e).collect fuel = some (S, st1) ∧
      st1.extractor.env = S.foldl f e) ∧
    (∀ n, ∀ h : n < S.length, ∃ st1,
      ((from_ S).inspect f e).nth fuel n = some (some S[n], st1) ∧
      st1.extractor.env = (S.take (n + 1)).foldl f e) := by
  have hsrc : NotYetConsumed fuel ((from_ S).inspect f e).extractor.source S :=
    from_notYetConsumed fuel S
  refine ⟨fun reads => inspect_advanceCalls reads S _ hsrc, ?_, ?_⟩
  · obtain ⟨t1, h1, h2⟩ := inspect_collectLoop S fuel ((from_ S).inspect f e).extractor []
      hsrc hfuel
    exact ⟨⟨t1⟩, by simp [collect, h1], h2⟩
  · intro n h
    obtain ⟨t1, h1, h2⟩ := inspect_nth n S ((from_ S).inspect f e).extractor hsrc h
    exact ⟨⟨t1⟩, h1, h2⟩

/-- C18: Inspect fires at pull time.  Building `from(S).inspect(f)` invokes `f` zero
times, and after any number `k` of successful `advance()` calls on it `f` has been
invoked exactly `k` times, on `S[0], ..., S[k-1]` in order, whether or not `get()` was
called in between: the state captured by `f` is then the left fold of `f` over the first
`k` elements, and the log of an `f` that records its argument is the list of these
elements.  Hence `inspect(f).collect()` invokes `f` on every element of `S` once in
order, and `inspect(f).nth(n)` with `n < len(S)` invokes `f` on exactly the `n + 1`
elements `S[0..n]`, the `n` discarded ones included. -/
theorem C18_inspect_fires_on_advance {α κ : Type} (S : List α) (f : κ → α → κ) (e : κ)
    (fuel : Nat) (hfuel : S.length < fuel) :
    ((from_ S).inspect f e).extractor.env = e ∧
    (∀ reads : List Bool, ∃ oks t1,
      advanceCalls fuel reads ((from_ S).inspect f e).extractor = some (oks, t1) ∧
      t1.env = (S.take reads.length).foldl f e ∧
      (reads.length ≤ S.length → oks = List.replicate reads.length true)) ∧
    (∀ reads : List Bool, ∃ oks t1,
      advanceCalls fuel reads
        ((from_ S).inspect (fun log v => log ++ [v]) []).extractor = some (oks, t1) ∧
      t1.env = S.take reads.length) ∧
    (∃ st1, ((from_ S).inspect f e).collect fuel = some (S, st1) ∧
      st1.extractor.env = S.foldl f e) ∧
    (∃ st1, ((from_ S).inspect (fun log v => log ++ [v]) []).collect fuel = some (S, st1) ∧
      st1.extractor.env = S) ∧
    (∀ n, ∀ h : n < S.length, ∃ st1,
      ((from_ S).inspect f e).nth fuel n = some (some S[n], st1) ∧
      st1.extractor.env = (S.take (n + 1)).foldl f e) ∧
    (∀ n, ∀ h : n < S.length, ∃ st1,
      ((from_ S).inspect (fun log v => log ++ [v]) []).nth fuel n = some (some S[n], st1) ∧
      st1.extractor.env = S.take (n + 1)) := by
  obtain ⟨a1, a2, a3⟩ := inspect_from_facts S f e fuel hfuel
  obtain ⟨b1, b2, b3⟩ :=
    inspect_from_facts S (fun (log : List α) v => log ++ [v]) [] fuel hfuel
  refine ⟨rfl, a1, ?_, a2, ?_, a3, ?_⟩
  · intro reads
    obtain ⟨oks, t1, h1, h2, -⟩ := b1 reads
    exact ⟨oks, t1, h1, by rw [h2, foldl_push_back, List.nil_append]⟩
  · obtain ⟨st1, h1, h2⟩ := b2
    exact ⟨st1, h1, by rw [h2, foldl_push_back, List.nil_append]⟩
  · intro n h
    obtain ⟨st1, h1, h2⟩ := b3 n h
    exact ⟨st1, h1, by rw [h2, foldl_push_back, List.nil_append]⟩

/-- Witness of C18: `nth(2)` behind a recording `inspect` on four elements records the
three elements pulled. -/
theorem C18_inspect_fires_on_advance_witness :
    [7, 8, 9, 10].length < 5 ∧
    ∃ st1, ((from_ [7, 8, 9, 10]).inspect (fun log v => log ++ [v]) []).nth 5 2 =
        some (some 9, st1) ∧
      st1.extractor.env = [7, 8, 9] := by
  refine ⟨by decide, ?_⟩
  obtain ⟨-, -, -, -, -, -, h⟩ :=
    C18_inspect_fires_on_advance [7, 8, 9, 10] (fun a v => a + v) 0 5 (by decide)
  exact h 2 (by decide)

/-! ## Spy over any upstream extractor, with the state of its observer -/

section Spy

variable {σ α κ : Type} [StreamExtractor σ α]

theorem spy_advance_cons {fuel : Nat} {x : α} {xs : List α}
    (t : SpyStreamExtractor σ α κ) (h : NotYetConsumed fuel t.source (x :: xs)) :
    ∃ s1, advance fuel t = some (true, { t with source := s1 }) ∧
      Positioned fuel s1 x xs := by
  obtain ⟨s1, h1, hpos⟩ := NotYetConsumed.cons_iff.1 h
  refine ⟨s1, ?_, hpos⟩
  show SpyStreamExtractor.advance_impl fuel t = _
  simp [SpyStreamExtractor.advance_impl, h1]

theorem spy_advance_nil {fuel : Nat} (t : SpyStreamExtractor σ α κ)
    (h : NotYetConsumed fuel t.source ([] : List α)) :
    ∃ s1, advance fuel t = some (false, { t with source := s1 }) ∧
      NotYetConsumed fuel s1 ([] : List α) := by
  obtain ⟨s1, h1, h2⟩ := (NotYetConsumed.nil_iff.1 h).advance_false
  refine ⟨s1, ?_, NotYetConsumed.nil_iff.2 h2⟩
  show SpyStreamExtractor.advance_impl fuel t = _
  simp [SpyStreamExtractor.advance_impl, h1]

theorem spy_get {fuel : Nat} {x : α} {xs : List α} (t : SpyStreamExtractor σ α κ)
    (h : Positioned fuel t.source x xs) :
    ∃ s2, get t = some (x, { t with source := s2, env := t.inspector t.env x }) ∧
      Positioned fuel s2 x xs := by
  obtain ⟨s2, h1, h2⟩ := h.get
  refine ⟨s2, ?_, h2⟩
  show SpyStreamExtractor.get_impl t = _
  simp [SpyStreamExtractor.get_impl, h1]

theorem spy_collectLoop {fuel : Nat} (R : List α) :
    ∀ (k : Nat) (t : SpyStreamExtractor σ α κ) (container : List α),
      NotYetConsumed fuel t.source R → R.length < k →
      ∃ t1, collectLoop fuel k t container = some (container ++ R, t1) ∧
        t1.env = R.foldl t.inspector t.env := by
  induction R with
  | nil =>
    intro k t container h hk
    obtain ⟨s1, h1, -⟩ := spy_advance_nil t h
    obtain ⟨k, rfl⟩ : ∃ j, k = j + 1 := ⟨k - 1, by simp at hk; omega⟩
    exact ⟨{ t with source := s1 }, by simp [collectLoop, h1], rfl⟩
  | cons x xs ih =>
    intro k t container h hk
    obtain ⟨s1, h1, hpos⟩ := spy_advance_cons t h
    obtain ⟨s2, h2, hpos2⟩ := spy_get ({ t with source := s1 }) hpos
    obtain ⟨k, rfl⟩ : ∃ j, k = j + 1 := ⟨k - 1, by simp at hk; omega⟩
    obtain ⟨t1, h5, h6⟩ := ih k
      ({ t with source := s2, env := t.inspector t.env x }) (container ++ [x]) hpos2.rest
      (by simp at hk; omega)
    exact ⟨t1, by simp [collectLoop, h1, h2, h5], by simpa using h6⟩

theorem spy_nthLoop {fuel : Nat} (n : Nat) :
    ∀ (R : List α) (t : SpyStreamExtractor σ α κ), NotYetConsumed fuel t.source R →
      ∃ t1, nthLoop fuel n t = some t1 ∧ t1.env = t.env ∧
        t1.inspector = t.inspector ∧ NotYetConsumed fuel t1.source (R.drop n) := by
  induction n with
  | zero =>
    intro R t h
    exact ⟨t, rfl, rfl, rfl, by simpa using h⟩
  | succ n ih =>
    intro R t h
    cases R with
    | nil =>
      obtain ⟨s1, h1, h2⟩ := spy_advance_nil t h
      exact ⟨{ t with source := s1 }, by simp [nthLoop, h1], rfl, rfl, by simpa using h2⟩
    | cons x xs =>
      obtain ⟨s1, h1, hpos⟩ := spy_advance_cons t h
      obtain ⟨t1, h5, h6, h7, h8⟩ := ih xs ({ t with source := s1 }) hpos.rest
      exact ⟨t1, by simp [nthLoop, h1, h5], h6, h7, by simpa using h8⟩

theorem spy_nth {fuel : Nat} (n : Nat) (R : List α) (t : SpyStreamExtractor σ α κ)
    (h : NotYetConsumed fuel t.source R) (hn : n < R.length) :
    ∃ t1, nth fuel n (⟨t⟩ : BaseStreamInterface (SpyStreamExtractor σ α κ)) =
        some (some R[n], ⟨t1⟩) ∧
      t1.env = t.inspector t.env R[n] := by
  obtain ⟨t1, h1, h2, h3, h4⟩ := spy_nthLoop n R t h
  rw [List.drop_eq_getElem_cons hn] at h4
  obtain ⟨s1, h5, hpos⟩ := spy_advance_cons t1 h4
  obtain ⟨s2, h6, -⟩ := spy_get ({ t1 with source := s1 }) hpos
  refine ⟨{ t1 with source := s2, env := t1.inspector t1.env R[n] },
    by simp [nth, h1, next, h5, h6], ?_⟩
  show t1.inspector t1.env R[n] = _
  rw [h2, h3]

end Spy

theorem spy_from_facts {α κ : Type} (S : List α) (f : κ → α → κ) (e : κ) (fuel : Nat) :
    (S.length < fuel → ∃ st1, ((from_ S).spy f e).collect fuel = some (S, st1) ∧
      st1.extractor.env = S.foldl f e) ∧
    (∀ n, ∀ h : n < S.length, ∃ st1,
      ((from_ S).spy f e).nth fuel n = some (some S[n], st1) ∧
      st1.extractor.env = f e S[n]) := by
  have hsrc : NotYetConsumed fuel ((from_ S).spy f e).extractor.source S :=
    from_notYetConsumed fuel S
  refine ⟨?_, ?_⟩
  · intro hfuel
    obtain ⟨t1, h1, h2⟩ := spy_collectLoop S fuel ((from_ S).spy f e).extractor []
      hsrc hfuel
    exact ⟨⟨t1⟩, by simp [collect, h1], h2⟩
  · intro n h
    obtain ⟨t1, h1, h2⟩ := spy_nth n S ((from_ S).spy f e).extractor hsrc h
    exact ⟨⟨t1⟩, h1, h2⟩

/-- C19, counterexample: on a fresh stream over `S = [0..99]`, `spy(f)` followed by
`nth(10)` fires `f` once and not 11 times: a recording `f` has recorded the single
element 10, not the elements `0..10`, and a counting `f` has counted 1. -/
theorem C19_spy_nth_counterexample :
    (((from_ (List.range 100)).spy (fun (log : List Nat) v => log ++ [v]) []).nth 101 10).map
        (fun r => (r.1, r.2.extractor.env)) = some (some 10, [10]) ∧
    (((from_ (List.range 100)).spy (fun (c : Nat) (_ : Nat) => c + 1) 0).nth 101 10).map
        (fun r => (r.1, r.2.extractor.env)) = some (some 10, 1) ∧
    ([10] : List Nat) ≠ List.range 11 ∧ (1 : Nat) ≠ 11 := by
  refine ⟨?_, ?_, by decide, by decide⟩
  · obtain ⟨st1, h1, h2⟩ :=
      (spy_from_facts (List.range 100) (fun (log : List Nat) v => log ++ [v]) [] 101).2 10
        (by simp)
    rw [h1]
    simp [h2]
  · obtain ⟨st1, h1, h2⟩ :=
      (spy_from_facts (List.range 100) (fun (c : Nat) (_ : Nat) => c + 1) 0 101).2 10
        (by simp)
    rw [h1]
    simp [h2]

/-- C19, amended: chaining `spy(f)` then `nth(10)` on a fresh stream over `S = [0..99]`
fires `f` exactly once, on the element of index 10; in general `spy(f).nth(n)` with
`n < len(S)` fires `f` exactly once, on `S[n]`: a counting `f` started at 0 ends at 1 and
a recording `f` started empty ends with the one entry `S[n]`. -/
theorem C19_spy_nth_fires_once {α : Type} (S : List α) (n fuel : Nat) (hn : n < S.length) :
    (∃ st1, ((from_ S).spy (fun (c : Nat) (_ : α) => c + 1) 0).nth fuel n =
        some (some S[n], st1) ∧ st1.extractor.env = 1) ∧
    (∃ st1, ((from_ S).spy (fun (log : List α) v => log ++ [v]) []).nth fuel n =
        some (some S[n], st1) ∧ st1.extractor.env = [S[n]]) ∧
    (∃ st1, ((from_ (List.range 100)).spy (fun (c : Nat) (_ : Nat) => c + 1) 0).nth fuel 10 =
        some (some 10, st1) ∧ st1.extractor.env = 1) ∧
    (∃ st1,
      ((from_ (List.range 100)).spy (fun (log : List Nat) v => log ++ [v]) []).nth fuel 10 =
        some (some 10, st1) ∧ st1.extractor.env = [10]) := by
  refine ⟨?_, ?_, ?_, ?_⟩
  · obtain ⟨st1, h1, h2⟩ :=
      (spy_from_facts S (fun (c : Nat) (_ : α) => c + 1) 0 fuel).2 n hn
    exact ⟨st1, h1, by rw [h2]⟩
  · obtain ⟨st1, h1, h2⟩ :=
      (spy_from_facts S (fun (log : List α) v => log ++ [v]) [] fuel).2 n hn
    exact ⟨st1, h1, by rw [h2]; rfl⟩
  · obtain ⟨st1, h1, h2⟩ :=
      (spy_from_facts (List.range 100) (fun (c : Nat) (_ : Nat) => c + 1) 0 fuel).2 10
        (by simp)
    exact ⟨st1, by simpa using h1, by rw [h2]⟩
  · obtain ⟨st1, h1, h2⟩ :=
      (spy_from_facts (List.range 100) (fun (log : List Nat) v => log ++ [v]) [] fuel).2 10
        (by simp)
    exact ⟨st1, by simpa using h1, by rw [h2]; simp⟩

/-- Witness of C19 (amended): `nth(2)` behind a counting `spy` on four elements. -/
theorem C19_spy_nth_fires_once_witness :
    2 < [7, 8, 9, 10].length ∧
    ∃ st1, ((from_ [7, 8, 9, 10]).spy (fun (c : Nat) (_ : Nat) => c + 1) 0).nth 0 2 =
        some (some 9, st1) ∧ st1.extractor.env = 1 :=
  ⟨by decide, (C19_spy_nth_fires_once [7, 8, 9, 10] 2 0 (by decide)).1⟩

/-- C20: Spy fires at read time only.  For every sequence `S` and every `n < len(S)`,
`from(S).spy(f).nth(n)` invokes `f` exactly once, on `S[n]` alone, the `n` discarded
elements being advanced over without `get()` (for `S = [0..99]` and `n = 10` the log of
the observed values is exactly `[10]`); building the spy stream invokes `f` zero times,
and `spy(f).collect()` invokes `f` once on each element of `S` in order. -/
theorem C20_spy_fires_on_read {α κ : Type} (S : List α) (f : κ → α → κ) (e : κ)
    (fuel : Nat) (hfuel : S.length < fuel) :
    ((from_ S).spy f e).extractor.env = e ∧
    (∀ n, ∀ h : n < S.length, ∃ st1,
      ((from_ S).spy f e).nth fuel n = some (some S[n], st1) ∧
      st1.extractor.env = f e S[n]) ∧
    (∀ n, ∀ h : n < S.length, ∃ st1,
      ((from_ S).spy (fun (log : List α) v => log ++ [v]) []).nth fuel n =
        some (some S[n], st1) ∧
      st1.extractor.env = [S[n]]) ∧
    (∃ st1,
      ((from_ (List.range 100)).spy (fun (log : List Nat) v => log ++ [v]) []).nth fuel 10 =
        some (some 10, st1) ∧ st1.extractor.env = [10]) ∧
    (∃ st1, ((from_ S).spy f e).collect fuel = some (S, st1) ∧
      st1.extractor.env = S.foldl f e) ∧
    (∃ st1, ((from_ S).spy (fun (log : List α) v => log ++ [v]) []).collect fuel =
        some (S, st1) ∧ st1.extractor.env = S) := by
  obtain ⟨a1, a2⟩ := spy_from_facts S f e fuel
  obtain ⟨b1, b2⟩ := spy_from_facts S (fun (log : List α) v => log ++ [v]) [] fuel
  refine ⟨rfl, a2, ?_, ?_, a1 hfuel, ?_⟩
  · intro n h
    obtain ⟨st1, h1, h2⟩ := b2 n h
    exact ⟨st1, h1, by rw [h2]; rfl⟩
  · obtain ⟨st1, h1, h2⟩ :=
      (spy_from_facts (List.range 100) (fun (log : List Nat) v => log ++ [v]) [] fuel).2 10
        (by simp)
    exact ⟨st1, by simpa using h1, by rw [h2]; simp⟩
  · obtain ⟨st1, h1, h2⟩ := b1 hfuel
    exact ⟨st1, h1, by rw [h2, foldl_push_back, List.nil_append]⟩

/-- Witness of C20: `nth(2)` behind a recording `spy` on four elements records the one
element read. -/
theorem C20_spy_fires_on_read_witness :
    [7, 8, 9, 10].length < 5 ∧
    ∃ st1, ((from_ [7, 8, 9, 10]).spy (fun (log : List Nat) v => log ++ [v]) []).nth 5 2 =
        some (some 9, st1) ∧
      st1.extractor.env = [9] := by
  refine ⟨by decide, ?_⟩
  obtain ⟨-, -, h, -⟩ :=
    C20_spy_fires_on_read [7, 8, 9, 10] (fun a v => a + v) 0 5 (by decide)
  exact h 2 (by decide)

/-! ## Exhausted streams -/

theorem source_sticky {α : Type} (fuel : Nat) (s s1 : SequenceStreamExtractor α)
    (h : advance fuel s = some (false, s1)) : Exhausted fuel s1 := by
  have hadv : advance fuel s = SequenceStreamExtractor.advance_impl fuel s := rfl
  rw [hadv] at h
  unfold SequenceStreamExtractor.advance_impl at h
  by_cases hn : s.next = s.end_
  · simp [hn] at h
    subst h
    refine exhausted_of_invariant (fun u : SequenceStreamExtractor α => u = s) ?_ rfl
    rintro u rfl
    refine ⟨u, ?_, rfl⟩
    show SequenceStreamExtractor.advance_impl fuel u = _
    simp [SequenceStreamExtractor.advance_impl, hn]
  · simp [hn] at h

theorem vacuous_of_exhausted {σ α γ : Type} [StreamExtractor σ α] {fuel : Nat}
    (hfuel : 0 < fuel) (st : BaseStreamInterface σ) (h : Exhausted fuel st.extractor)
    (p : α → Bool) (f : γ → α → γ) (seed : γ) :
    (∃ st1, st.count fuel = some (0, st1) ∧ Exhausted fuel st1.extractor) ∧
    (∃ st1, st.fold fuel seed f = some (seed, st1) ∧ Exhausted fuel st1.extractor) ∧
    (∃ st1, st.any fuel p = some (false, st1) ∧ Exhausted fuel st1.extractor) ∧
    (∃ st1, st.all fuel p = some (true, st1) ∧ Exhausted fuel st1.extractor) ∧
    (∃ st1, st.collect fuel = some ([], st1) ∧ Exhausted fuel st1.extractor) := by
  have hnil : NotYetConsumed fuel st.extractor ([] : List α) := NotYetConsumed.nil_iff.2 h
  have hlen : ([] : List α).length < fuel := by simpa using hfuel
  refine ⟨?_, ?_, ?_, ?_, ?_⟩
  · exact count_of_notYetConsumed hnil hlen (by simp [sizeModulus])
  · obtain ⟨s1, h1, h2⟩ := foldLoop_spec f [] fuel st.extractor seed hnil hlen
    exact ⟨⟨s1⟩, by simp [BaseStreamInterface.fold, h1], h2⟩
  · obtain ⟨s1, h1, h2⟩ := anyLoop_spec p [] fuel st.extractor hnil hlen
    simp only [List.any_nil] at h1
    exact ⟨⟨s1⟩, by simp [BaseStreamInterface.any, h1],
      NotYetConsumed.nil_iff.1 (by simpa [afterFirstMatch] using h2)⟩
  · obtain ⟨s1, h1, h2⟩ := allLoop_spec p [] fuel st.extractor hnil hlen
    simp only [List.all_nil] at h1
    exact ⟨⟨s1⟩, by simp [BaseStreamInterface.all, h1],
      NotYetConsumed.nil_iff.1 (by simpa [afterFirstMatch] using h2)⟩
  · exact collect_of_notYetConsumed hnil hlen

theorem vacuousResults_of_exhausted {σ α γ : Type} [StreamExtractor σ α] {fuel : Nat}
    (hfuel : 0 < fuel) (st : BaseStreamInterface σ) (h : Exhausted fuel st.extractor)
    (p : α → Bool) (f : γ → α → γ) (seed : γ) : VacuousResults fuel st p f seed := by
  obtain ⟨⟨a, ha, -⟩, ⟨b, hb, -⟩, ⟨c, hc, -⟩, ⟨d, hd, -⟩, ⟨e, he, -⟩⟩ :=
    vacuous_of_exhausted hfuel st h p f seed
  exact ⟨by rw [ha]; rfl, by rw [hb]; rfl, by rw [hc]; rfl, by rw [hd]; rfl, by rw [he]; rfl⟩

/-- C21: on a stream `from(S)` that a previous terminal operation has driven to
exhaustion (its `advance()` has returned `false`), each terminal operation returns its
vacuous result, for every `p`, `f` and `seed`: `count()` returns 0, `fold(seed, f)`
returns `seed`, `any(p)` returns `false`, `all(p)` returns `true` and `collect()`
returns the empty container.  This holds in every state of the source in which
`advance()` has returned `false`, and `collect`, `count`, `fold`, `forEach`, an `any`
that returns `false` and an `all` that returns `true` each leave `from(S)` in such a
state. -/
theorem C21_vacuous_on_exhausted {α γ : Type} (S : List α) (fuel : Nat)
    (hfuel : S.length < fuel) (hsize : S.length < sizeModulus) :
    (∀ s s1 : SequenceStreamExtractor α, advance fuel s = some (false, s1) →
      ∀ (p : α → Bool) (f : γ → α → γ) (seed : γ),
        VacuousResults fuel (⟨s1⟩ : BaseStreamInterface (SequenceStreamExtractor α))
          p f seed) ∧
    (∃ st1, (from_ S).collect fuel = some (S, st1) ∧
      ∀ (p : α → Bool) (f : γ → α → γ) (seed : γ), VacuousResults fuel st1 p f seed) ∧
    (∃ st1, (from_ S).count fuel = some (S.length, st1) ∧
      ∀ (p : α → Bool) (f : γ → α → γ) (seed : γ), VacuousResults fuel st1 p f seed) ∧
    (∀ (g : γ → α → γ) (a : γ), ∃ st1, (from_ S).fold fuel a g = some (S.foldl g a, st1) ∧
      ∀ (p : α → Bool) (f : γ → α → γ) (seed : γ), VacuousResults fuel st1 p f seed) ∧
    (∀ (g : γ → α → γ) (a : γ), ∃ st1,
      (from_ S).forEach fuel g a = some (S.foldl g a, st1) ∧
      ∀ (p : α → Bool) (f : γ → α → γ) (seed : γ), VacuousResults fuel st1 p f seed) ∧
    (∀ q : α → Bool, (∀ x ∈ S, q x = false) → ∃ st1,
      (from_ S).any fuel q = some (false, st1) ∧
      ∀ (p : α → Bool) (f : γ → α → γ) (seed : γ), VacuousResults fuel st1 p f seed) ∧
    (∀ q : α → Bool, (∀ x ∈ S, q x = true) → ∃ st1,
      (from_ S).all fuel q = some (true, st1) ∧
      ∀ (p : α → Bool) (f : γ → α → γ) (seed : γ), VacuousResults fuel st1 p f seed) := by
  have hpos : 0 < fuel := by omega
  have hS := from_notYetConsumed fuel S
  refine ⟨?_, ?_, ?_, ?_, ?_, ?_, ?_⟩
  · intro s s1 h p f seed
    exact vacuousResults_of_exhausted hpos _ (source_sticky fuel s s1 h) p f seed
  · obtain ⟨st1, h1, h2⟩ := collect_of_notYetConsumed hS hfuel
    exact ⟨st1, h1, fun p f seed => vacuousResults_of_exhausted hpos st1 h2 p f seed⟩
  · obtain ⟨st1, h1, h2⟩ := count_of_notYetConsumed hS hfuel hsize
    exact ⟨st1, h1, fun p f seed => vacuousResults_of_exhausted hpos st1 h2 p f seed⟩
  · intro g a
    obtain ⟨s1, h1, h2⟩ := foldLoop_spec g S fuel (from_ S).extractor a hS hfuel
    exact ⟨⟨s1⟩, by simp [BaseStreamInterface.fold, h1],
      fun p f seed => vacuousResults_of_exhausted hpos ⟨s1⟩ h2 p f seed⟩
  · intro g a
    obtain ⟨s1, h1, h2⟩ := forEachLoop_spec g S fuel (from_ S).extractor a hS hfuel
    exact ⟨⟨s1⟩, by simp [BaseStreamInterface.forEach, h1],
      fun p f seed => vacuousResults_of_exhausted hpos ⟨s1⟩ h2 p f seed⟩
  · intro q hq
    obtain ⟨s1, h1, h2⟩ := anyLoop_spec q S fuel (from_ S).extractor hS hfuel
    have hany : S.any q = false := by
      rw [List.any_eq_false]
      intro x hx
      simp [hq x hx]
    rw [hany] at h1
    rw [afterFirstMatch_of_any_false q S hany] at h2
    exact ⟨⟨s1⟩, by simp [BaseStreamInterface.any, h1],
      fun p f seed =>
        vacuousResults_of_exhausted hpos ⟨s1⟩ (NotYetConsumed.nil_iff.1 h2) p f seed⟩
  · intro q hq
    obtain ⟨s1, h1, h2⟩ := allLoop_spec q S fuel (from_ S).extractor hS hfuel
    have hall : S.all q = true := by
      rw [List.all_eq_true]
      exact hq
    have hany : S.any (fun x => !q x) = false := by
      rw [List.any_eq_false]
      intro x hx
      simp [hq x hx]
    rw [hall] at h1
    rw [afterFirstMatch_of_any_false _ S hany] at h2
    exact ⟨⟨s1⟩, by simp [BaseStreamInterface.all, h1],
      fun p f seed =>
        vacuousResults_of_exhausted hpos ⟨s1⟩ (NotYetConsumed.nil_iff.1 h2) p f seed⟩

/-- Witness of C21: after `collect()` on a stream over three elements the five terminal
operations return their vacuous results, also with an always-true predicate for `any`. -/
theorem C21_vacuous_on_exhausted_witness :
    [1, 2, 3].length < 4 ∧ [1, 2, 3].length < sizeModulus ∧
    ∃ st1, (from_ [1, 2, 3]).collect 4 = some ([1, 2, 3], st1) ∧
      VacuousResults 4 st1 (fun _ => true) (fun (a : Nat) v => a + v) 10 := by
  refine ⟨by decide, by decide, ?_⟩
  obtain ⟨-, ⟨st1, h1, h2⟩, -⟩ :=
    @C21_vacuous_on_exhausted Nat Nat [1, 2, 3] 4 (by decide) (by decide)
  exact ⟨st1, h1, h2 _ _ _⟩

/-! ## The latches of the bounding adapters, over any upstream extractor -/

section Latches

variable {σ τ α : Type} [StreamExtractor σ α] [StreamExtractor τ α]

theorem take_advance_zero {fuel : Nat} (t : TakeStreamExtractor σ) (h : t.limit = 0) :
    advance fuel t = some (false, t) := by
  show TakeStreamExtractor.advance_impl fuel t = _
  simp [TakeStreamExtractor.advance_impl, h]

theorem take_advance_limit {fuel : Nat} (t t1 : TakeStreamExtractor σ) (r : Bool)
    (h : advance fuel t = some (r, t1)) : t1.limit ≤ t.limit := by
  change TakeStreamExtractor.advance_impl fuel t = _ at h
  unfold TakeStreamExtractor.advance_impl at h
  by_cases h0 : t.limit = 0
  · simp [h0] at h
    rw [← h.2]
  · cases hs : advance fuel t.source with
    | none => simp [h0, hs] at h
    | some q =>
      simp [h0, hs] at h
      rw [← h.2]
      exact Nat.sub_le _ _

theorem takeWhile_advance_taking {fuel : Nat} (t t1 : TakeWhileStreamExtractor σ α)
    (r : Bool) (h : advance fuel t = some (r, t1)) :
    t1.taking = r ∧ (t.taking = false → t1.taking = false) := by
  change TakeWhileStreamExtractor.advance_impl fuel t = _ at h
  unfold TakeWhileStreamExtractor.advance_impl at h
  by_cases h0 : t.taking = true
  · cases hs : advance fuel t.source with
    | none => simp [h0, hs] at h
    | some q =>
      obtain ⟨ok, src⟩ := q
      cases ok with
      | false =>
        simp [h0, hs] at h
        obtain ⟨rfl, rfl⟩ := h
        simp
      | true =>
        cases hg : get src with
        | none => simp [h0, hs, hg] at h
        | some w =>
          simp [h0, hs, hg] at h
          obtain ⟨rfl, rfl⟩ := h
          simp [h0]
  · simp [h0] at h
    obtain ⟨rfl, rfl⟩ := h
    simp

theorem takeWhile_advance_fail {fuel : Nat} (t : TakeWhileStreamExtractor σ α) (s1 s2 : σ)
    (v : α) (ht : t.taking = true) (h1 : advance fuel t.source = some (true, s1))
    (h2 : get s1 = some (v, s2)) (hp : t.predicate v = false) :
    advance fuel t = some (false, { t with source := s2, taking := false }) := by
  show TakeWhileStreamExtractor.advance_impl fuel t = _
  simp [TakeWhileStreamExtractor.advance_impl, ht, h1, h2, hp]

theorem skipWhile_advance_passing {fuel : Nat} (t : SkipWhileStreamExtractor σ α)
    (h : t.skipping = false) :
    advance fuel t =
      (advance fuel t.source).map fun r => (r.1, { t with source := r.2 }) := by
  show SkipWhileStreamExtractor.advance_impl fuel t = _
  unfold SkipWhileStreamExtractor.advance_impl
  cases hs : advance fuel t.source <;> simp [h, hs]

theorem skipWhile_advance_skipping {fuel : Nat} (t t1 : SkipWhileStreamExtractor σ α)
    (r : Bool) (h : advance fuel t = some (r, t1)) :
    (r = true → t1.skipping = false) ∧ (t.skipping = false → t1.skipping = false) := by
  by_cases h0 : t.skipping = true
  · change SkipWhileStreamExtractor.advance_impl fuel t = _ at h
    unfold SkipWhileStreamExtractor.advance_impl at h
    cases hl : SkipWhileStreamExtractor.skipLoop fuel fuel t with
    | none => simp [h0, hl] at h
    | some u =>
      simp [h0, hl] at h
      obtain ⟨hr1, rfl⟩ := h
      exact ⟨fun hr => by simp [hr1, hr], fun hc => by simp [h0] at hc⟩
  · have h0f : t.skipping = false := by simpa using h0
    rw [skipWhile_advance_passing t h0f] at h
    cases hs : advance fuel t.source with
    | none => simp [hs] at h
    | some q =>
      simp [hs] at h
      obtain ⟨-, rfl⟩ := h
      exact ⟨fun _ => h0f, fun _ => h0f⟩

theorem skip_advanceLoop_skipCount {fuel : Nat} (n : Nat) :
    ∀ (src : σ) (r : Bool) (t1 : SkipFirstStreamExtractor σ),
      SkipFirstStreamExtractor.advanceLoop fuel n src = some (r, t1) → t1.skipCount ≤ n := by
  induction n with
  | zero =>
    intro src r t1 h
    cases hs : advance fuel src with
    | none => simp [SkipFirstStreamExtractor.advanceLoop, hs] at h
    | some q =>
      simp [SkipFirstStreamExtractor.advanceLoop, hs] at h
      rw [← h.2]
  | succ n ih =>
    intro src r t1 h
    cases hs : advance fuel src with
    | none => simp [SkipFirstStreamExtractor.advanceLoop, hs] at h
    | some q =>
      obtain ⟨ok, src1⟩ := q
      cases ok with
      | false =>
        simp [SkipFirstStreamExtractor.advanceLoop, hs] at h
        rw [← h.2]
        exact Nat.le_succ n
      | true =>
        simp [SkipFirstStreamExtractor.advanceLoop, hs] at h
        exact Nat.le_succ_of_le (ih src1 r t1 h)

theorem skip_advance_skipCount {fuel : Nat} (t t1 : SkipFirstStreamExtractor σ) (r : Bool)
    (h : advance fuel t = some (r, t1)) : t1.skipCount ≤ t.skipCount :=
  skip_advanceLoop_skipCount t.skipCount t.source r t1 h

theorem chain_advance_firstHaveElements {fuel : Nat} (t t1 : ChainStreamExtractor σ τ)
    (r : Bool) (h : advance fuel t = some (r, t1)) (h0 : t.firstHaveElements = false) :
    t1.firstHaveElements = false := by
  change ChainStreamExtractor.advance_impl fuel t = _ at h
  unfold ChainStreamExtractor.advance_impl at h
  cases hs : advance fuel t.next with
  | none => simp [h0, hs] at h
  | some q =>
    simp [h0, hs] at h
    rw [← h.2]

end Latches

/-- C22: the latches of the bounding adapters are one-way for every upstream extractor,
also one that would still yield elements.  Once the budget of Take is zero, and once the
predicate of TakeWhile has failed, every later `advance()` returns `false`.  Once
SkipWhile has let an element pass (an `advance()` has returned `true`) `skipping` is
`false`, and from then on `advance()` is the `advance()` of the upstream, whatever the
predicate is.  Across any `advance()` call that returns, `Take.limit` and
`Skip.skipCount` do not increase, and `TakeWhile.taking`, `Chain.firstHaveElements` and
`SkipWhile.skipping`, once `false`, stay `false`. -/
theorem C22_latches_one_way {σ τ α : Type} [StreamExtractor σ α] [StreamExtractor τ α]
    (fuel : Nat) :
    (∀ t : TakeStreamExtractor σ, t.limit = 0 →
      advance fuel t = some (false, t) ∧ Exhausted fuel t) ∧
    (∀ (t : TakeWhileStreamExtractor σ α) (s1 s2 : σ) (v : α), t.taking = true →
      advance fuel t.source = some (true, s1) → get s1 = some (v, s2) →
      t.predicate v = false →
      ∃ t1, advance fuel t = some (false, t1) ∧ t1.taking = false ∧ Exhausted fuel t1) ∧
    (∀ t : TakeWhileStreamExtractor σ α, t.taking = false →
      (∃ t1, advance fuel t = some (false, t1)) ∧ Exhausted fuel t) ∧
    (∀ (t t1 : SkipWhileStreamExtractor σ α), advance fuel t = some (true, t1) →
      t1.skipping = false) ∧
    (∀ t : SkipWhileStreamExtractor σ α, t.skipping = false →
      advance fuel t = ((advance fuel t.source).map fun r => (r.1, { t with source := r.2 })) ∧
      ∀ q : α → Bool, advance fuel { t with predicate := q } =
        (advance fuel t).map fun r => (r.1, { r.2 with predicate := q })) ∧
    (∀ (t t1 : TakeStreamExtractor σ) (r : Bool), advance fuel t = some (r, t1) →
      t1.limit ≤ t.limit) ∧
    (∀ (t t1 : SkipFirstStreamExtractor σ) (r : Bool), advance fuel t = some (r, t1) →
      t1.skipCount ≤ t.skipCount) ∧
    (∀ (t t1 : TakeWhileStreamExtractor σ α) (r : Bool), advance fuel t = some (r, t1) →
      t.taking = false → t1.taking = false) ∧
    (∀ (t t1 : ChainStreamExtractor σ τ) (r : Bool), advance fuel t = some (r, t1) →
      t.firstHaveElements = false → t1.firstHaveElements = false) ∧
    (∀ (t t1 : SkipWhileStreamExtractor σ α) (r : Bool), advance fuel t = some (r, t1) →
      t.skipping = false → t1.skipping = false) := by
  refine ⟨?_, ?_, ?_, ?_, ?_, ?_, ?_, ?_, ?_, ?_⟩
  · intro t h
    exact ⟨take_advance_zero t h, take_exhausted t (Or.inl h)⟩
  · intro t s1 s2 v ht h1 h2 hp
    exact ⟨_, takeWhile_advance_fail t s1 s2 v ht h1 h2 hp, rfl,
      takeWhile_exhausted _ (Or.inl rfl)⟩
  · intro t h
    have hex : Exhausted fuel t := takeWhile_exhausted t (Or.inl h)
    obtain ⟨t1, h1, -⟩ := hex.advance_false
    exact ⟨⟨t1, h1⟩, hex⟩
  · intro t t1 h
    exact (skipWhile_advance_skipping t t1 true h).1 rfl
  · intro t h
    refine ⟨skipWhile_advance_passing t h, ?_⟩
    intro q
    have hq : ({ t with predicate := q } : SkipWhileStreamExtractor σ α).skipping = false := h
    rw [skipWhile_advance_passing _ hq, skipWhile_advance_passing t h]
    cases advance fuel t.source <;> rfl
  · exact fun t t1 r h => take_advance_limit t t1 r h
  · exact fun t t1 r h => skip_advance_skipCount t t1 r h
  · exact fun t t1 r h => (takeWhile_advance_taking t t1 r h).2
  · exact fun t t1 r h => chain_advance_firstHaveElements t t1 r h
  · exact fun t t1 r h => (skipWhile_advance_skipping t t1 r h).2

/-- Witness of C22: a Take whose budget is zero over a source that still holds 2 and 3
returns `false` on every later `advance()`. -/
theorem C22_latches_one_way_witness :
    NotYetConsumed 0 (SequenceStreamExtractor.at_ [1, 2, 3] 0 1) [2, 3] ∧
    Exhausted 0
      ({ source := SequenceStreamExtractor.at_ [1, 2, 3] 0 1, limit := 0 } :
        TakeStreamExtractor (SequenceStreamExtractor Nat)) :=
  ⟨source_notYetConsumed 0 [1, 2, 3] 2 1 0 rfl (by decide),
    ((@C22_latches_one_way (SequenceStreamExtractor Nat) (SequenceStreamExtractor Nat) Nat
      _ _ 0).1 _ rfl).2⟩

/-! ## Sticky exhaustion -/

section InspectSpyRemaining

variable {σ α κ : Type} [StreamExtractor σ α]

end InspectSpyRemaining

section StickyAdapters

variable {σ τ α β κ : Type} [StreamExtractor σ α]

end StickyAdapters

section StickyCombining

variable {σ τ α β : Type} [StreamExtractor σ α]

end StickyCombining

end streams
